import Mathlib

/-!
# Interview-slot scheduling engine (`backend/services/interview.service.js`)

A shallow embedding of `InterviewService.generateAvailableSlots` and
`InterviewService.assignInterviewSlots`, with the table store they talk to.

Modelling conventions

* A JavaScript `Date` is its time value: an integer number of milliseconds since the epoch.
* The local time zone of the machine is a `Zone`: the two conversions `LocalTime(t)` and
  `UTC(t)` through which ECMAScript defines every local-time method of `Date`. The definitions
  with a name ending in `In` (`setHoursIn`, `addMinutesIn`, `generateAvailableSlotsIn`, ...) take
  the zone as a parameter and also cover zones with daylight saving time.
* The definitions without that ending are the same code in a zone with a fixed offset from UTC
  (`Env.utcOffsetMinutes`, local minus UTC, in minutes), where `setDate(getDate() + n)` adds
  `n * 86400000` ms and `setMinutes(getMinutes() + n)` adds `n * 60000` ms; the section
  "A fixed offset" proves that they are the zone definitions at `Zone.fixed`.
* `toISOString().slice(0, 16)` (the text `YYYY-MM-DDTHH:mm`, in UTC) is represented by the number
  of whole minutes since the epoch; both identify the same UTC calendar minute for four-digit
  years.
* `start_time` / `end_time` hold the two numbers that the split on the colon, mapped with `Number`, reads from the
  `HH:MM` text of the column.
* Identifiers (uuids in the store) are natural numbers.
* The store is an in-memory table set plus a log of the requests issued to it; whether a request
  fails is decided by the environment (`Env`).
* Loops that the source writes as `while` take fuel; `Outcome.outOfFuel` is the answer of a run
  that needs more iterations than the fuel allows.
-/

namespace InterviewService

/-! ## Data model -/

/-- The numbers read from an `HH:MM` column value. -/
structure TimeOfDay where
  hours : Nat
  minutes : Nat
  deriving DecidableEq, Repr

/-- A row of `hr_availability`. -/
structure AvailabilityRow where
  hr_user_id : Nat
  day_of_week : Int
  start_time : TimeOfDay
  end_time : TimeOfDay
  deriving DecidableEq, Repr

/-- A row of `interviews`; `scheduled_at` is `none` for a null column. -/
structure InterviewRow where
  id : Nat
  applicant_id : Nat
  hr_user_id : Nat
  scheduled_at : Option Int
  reminder_sent : Bool
  deriving DecidableEq, Repr

/-- A row of `applicants` (the columns the scheduling engine filters on). -/
structure ApplicantRow where
  id : Nat
  hr_user_id : Nat
  deriving DecidableEq, Repr

/-- The object pushed to `availableSlots`. -/
structure Slot where
  scheduled_at : Int
  hr_user_id : Nat
  deriving DecidableEq, Repr

/-- The object handed to `.insert(...)` on `interviews`. -/
structure InterviewInsert where
  applicant_id : Nat
  hr_user_id : Nat
  scheduled_at : Int
  reminder_sent : Bool
  deriving DecidableEq, Repr

/-- A request issued to the store. -/
inductive Request where
  | selectAvailability (hrUserId : Nat)
  | selectInterviews (hrUserId : Nat) (startDate endDate : Int)
  | selectApplicant (applicantId hrUserId : Nat)
  | insertInterview (row : InterviewInsert)
  deriving DecidableEq, Repr

/-- The table store, with the log of the requests it has received. -/
structure Store where
  hr_availability : List AvailabilityRow
  interviews : List InterviewRow
  applicants : List ApplicantRow
  next_id : Nat
  requests : List Request
  deriving DecidableEq, Repr

/-- What the program reads from outside the store: the clock, the time zone, and which store
requests fail. -/
structure Env where
  now : Int
  utcOffsetMinutes : Int
  availabilityError : Option String
  interviewsError : Option String
  applicantError : Nat → Bool
  insertError : List InterviewRow → InterviewInsert → Bool

/-- The errors thrown by the service. `typeError` is the `TypeError` JavaScript raises when
`slot.scheduled_at` is read from an `undefined` slot. -/
inductive ServiceError where
  | fetchAvailabilityFailed (msg : String)
  | fetchInterviewsFailed (msg : String)
  | noAvailability
  | applicantIdsRequired
  | notEnoughSlots (found requested : Nat)
  | typeError
  deriving DecidableEq, Repr

/-- The text of the thrown `Error`. -/
def ServiceError.message : ServiceError → String
  | .fetchAvailabilityFailed msg => "Failed to fetch HR availability: " ++ msg
  | .fetchInterviewsFailed msg => "Failed to fetch existing interviews: " ++ msg
  | .noAvailability => "No HR availability found. Please set up your availability first."
  | .applicantIdsRequired => "Applicant IDs are required"
  | .notEnoughSlots found requested =>
      "Not enough available slots. Found " ++ toString found ++ " slots for "
        ++ toString requested ++ " applicants. "
        ++ "Please add more availability or schedule interviews manually."
  | .typeError => "Cannot read properties of undefined (reading scheduled_at)"

/-- Result of an asynchronous method: a value, a thrown error, or not enough fuel. -/
inductive Outcome (α : Type) where
  | ok (value : α)
  | error (e : ServiceError)
  | outOfFuel
  deriving DecidableEq, Repr

/-! ## Date arithmetic -/

/-- Local wall-clock milliseconds of the instant `t`, in a zone with the fixed offset
`env.utcOffsetMinutes`. -/
def localMs (env : Env) (t : Int) : Int := t + env.utcOffsetMinutes * 60000

/-- The method `Date.prototype.getDay` in a zone with a fixed offset (`getDayIn` at
`Zone.fixed`): 0 = Sunday; the epoch day was a Thursday. -/
def getDay (env : Env) (t : Int) : Int := (localMs env t / 86400000 + 4) % 7

/-- The call `d.setHours(h, m, 0, 0)` in a zone with a fixed offset (`setHoursIn` at
`Zone.fixed`): the instant on the local calendar day of `t` at `h:m:00.000`. -/
def setHours (env : Env) (t : Int) (h m : Nat) : Int :=
  localMs env t / 86400000 * 86400000 + (h : Int) * 3600000 + (m : Int) * 60000
    - env.utcOffsetMinutes * 60000

/-- The call `d.setDate(d.getDate() + n)` in a zone with a fixed offset (`addDaysIn` at
`Zone.fixed`), where a local day is 86400000 ms. -/
def addDays (t n : Int) : Int := t + n * 86400000

/-- The call `d.setMinutes(d.getMinutes() + n)` in a zone with a fixed offset (`addMinutesIn`
at `Zone.fixed`), where a local minute is 60000 ms. -/
def addMinutes (t n : Int) : Int := t + n * 60000

/-- The key `d.toISOString().slice(0, 16)`: the UTC minute of `t`. -/
def timeKey (t : Int) : Int := t / 60000

/-! ## Store reads -/

/-- The ordering clause of the availability query: by `day_of_week`, then by `start_time`. -/
def availabilityOrder (a b : AvailabilityRow) : Prop :=
  a.day_of_week < b.day_of_week ∨
    (a.day_of_week = b.day_of_week ∧
      a.start_time.hours * 60 + a.start_time.minutes
        ≤ b.start_time.hours * 60 + b.start_time.minutes)

instance : DecidableRel availabilityOrder := fun a b => by
  unfold availabilityOrder; exact inferInstance

/-- The method `getHRAvailability(hrUserId)`: the rows of the HR user in the order of the
query, or the thrown error. -/
def getHRAvailability (env : Env) (st : Store) (hrUserId : Nat) :
    Except ServiceError (List AvailabilityRow) × Store :=
  let st1 := { st with requests := st.requests ++ [Request.selectAvailability hrUserId] }
  match env.availabilityError with
  | some msg => (.error (.fetchAvailabilityFailed msg), st1)
  | none =>
    (.ok (List.insertionSort availabilityOrder
      (st.hr_availability.filter (fun r => r.hr_user_id == hrUserId))), st1)

/-- The row filter of `getExistingInterviews`: `eq hr_user_id`, `gte` and `lte` on
`scheduled_at` (a null `scheduled_at` satisfies neither comparison). -/
def interviewInRange (hrUserId : Nat) (startDate endDate : Int) (r : InterviewRow) : Bool :=
  r.hr_user_id == hrUserId &&
    (match r.scheduled_at with
     | some t => decide (startDate ≤ t) && decide (t ≤ endDate)
     | none => false)

/-- The method `getExistingInterviews(hrUserId, startDate, endDate)`. -/
def getExistingInterviews (env : Env) (st : Store) (hrUserId : Nat) (startDate endDate : Int) :
    Except ServiceError (List InterviewRow) × Store :=
  let st1 :=
    { st with requests := st.requests ++ [Request.selectInterviews hrUserId startDate endDate] }
  match env.interviewsError with
  | some msg => (.error (.fetchInterviewsFailed msg), st1)
  | none => (.ok (st.interviews.filter (interviewInRange hrUserId startDate endDate)), st1)

/-! ## generateAvailableSlots -/

/-- The `existingSlots` set built by the `forEach` (lines 52-60). -/
def existingSlotKeys (existingInterviews : List InterviewRow) : List Int :=
  existingInterviews.filterMap (fun interview => interview.scheduled_at.map timeKey)

/-- The inner `while (currentSlotStart < slotEnd)` loop (lines 91-111); returns the slots it
pushes, in push order. -/
def slotWalk (hrUserId : Nat) (existingSlots : List Int) (slotDurationMinutes slotEnd : Int) :
    Nat → Int → Option (List Slot)
  | 0, _ => none
  | fuel + 1, currentSlotStart =>
    if currentSlotStart < slotEnd then
      let currentSlotEnd := addMinutes currentSlotStart slotDurationMinutes
      if currentSlotEnd > slotEnd then some []
      else
        match slotWalk hrUserId existingSlots slotDurationMinutes slotEnd fuel currentSlotEnd with
        | none => none
        | some rest =>
          if timeKey currentSlotStart ∈ existingSlots then some rest
          else some ({ scheduled_at := currentSlotStart, hr_user_id := hrUserId } :: rest)
    else some []

/-- The body of `for (const avail of dayAvailability)` for one rule (lines 73-111). -/
def expandRule (env : Env) (hrUserId : Nat) (existingSlots : List Int)
    (slotDurationMinutes : Int) (fuel : Nat) (currentDate : Int) (avail : AvailabilityRow) :
    Option (List Slot) :=
  let slotStart := setHours env currentDate avail.start_time.hours avail.start_time.minutes
  let slotEnd := setHours env currentDate avail.end_time.hours avail.end_time.minutes
  if slotStart < env.now then some []
  else slotWalk hrUserId existingSlots slotDurationMinutes slotEnd fuel slotStart

/-- The loop `for (const avail of dayAvailability)` (lines 72-112). -/
def expandRules (env : Env) (hrUserId : Nat) (existingSlots : List Int)
    (slotDurationMinutes : Int) (fuel : Nat) (currentDate : Int) :
    List AvailabilityRow → Option (List Slot)
  | [] => some []
  | avail :: rest =>
    match expandRule env hrUserId existingSlots slotDurationMinutes fuel currentDate avail with
    | none => none
    | some here =>
      match expandRules env hrUserId existingSlots slotDurationMinutes fuel currentDate rest with
      | none => none
      | some later => some (here ++ later)

/-- The loop `while (currentDate <= endDate)` (lines 66-116). -/
def dayLoop (env : Env) (hrUserId : Nat) (existingSlots : List Int) (slotDurationMinutes : Int)
    (availability : List AvailabilityRow) (endDate : Int) : Nat → Int → Option (List Slot)
  | 0, _ => none
  | fuel + 1, currentDate =>
    if currentDate ≤ endDate then
      let dayOfWeek := getDay env currentDate
      let dayAvailability := availability.filter (fun avail => avail.day_of_week == dayOfWeek)
      match expandRules env hrUserId existingSlots slotDurationMinutes (fuel + 1) currentDate
          dayAvailability with
      | none => none
      | some today =>
        match dayLoop env hrUserId existingSlots slotDurationMinutes availability endDate fuel
            (addDays currentDate 1) with
        | none => none
        | some later => some (today ++ later)
    else some []

/-- The comparator `(a, b) => a.scheduled_at - b.scheduled_at` puts `a` first when the
difference is not positive. -/
def slotOrder (a b : Slot) : Prop := a.scheduled_at ≤ b.scheduled_at

instance : DecidableRel slotOrder := fun a b => by
  unfold slotOrder; exact inferInstance

instance : IsTotal Slot slotOrder := ⟨fun a b => by unfold slotOrder; exact le_total _ _⟩

instance : IsTrans Slot slotOrder := ⟨fun a b c => by unfold slotOrder; exact le_trans⟩

/-- The call `availableSlots.sort(...)`: a stable sort by `scheduled_at`. -/
def sortSlots (availableSlots : List Slot) : List Slot :=
  List.insertionSort slotOrder availableSlots

/-- The method `generateAvailableSlots(hrUserId, slotDurationMinutes, weeksAhead)` on a machine
whose zone has the fixed offset `env.utcOffsetMinutes` (`generateAvailableSlotsIn` at
`Zone.fixed`). -/
def generateAvailableSlots (fuel : Nat) (env : Env) (st : Store) (hrUserId : Nat)
    (slotDurationMinutes weeksAhead : Int) : Outcome (List Slot) × Store :=
  match getHRAvailability env st hrUserId with
  | (.error e, st1) => (.error e, st1)
  | (.ok availability, st1) =>
    if availability.length = 0 then (.error .noAvailability, st1)
    else
      let now := env.now
      let endDate := addDays now (weeksAhead * 7)
      match getExistingInterviews env st1 hrUserId now endDate with
      | (.error e, st2) => (.error e, st2)
      | (.ok existingInterviews, st2) =>
        let existingSlots := existingSlotKeys existingInterviews
        match dayLoop env hrUserId existingSlots slotDurationMinutes availability endDate
            fuel now with
        | none => (.outOfFuel, st2)
        | some availableSlots => (.ok (sortSlots availableSlots), st2)

/-! ## assignInterviewSlots -/

/-- The default `slotDurationMinutes = 30`. -/
def defaultSlotDurationMinutes : Int := 30

/-- The default `weeksAhead = 4`. -/
def defaultWeeksAhead : Int := 4

/-- The rows matched by the two `eq` filters on `id` and `hr_user_id`. -/
def applicantRows (st : Store) (applicantId hrUserId : Nat) : List ApplicantRow :=
  st.applicants.filter (fun a => a.id == applicantId && a.hr_user_id == hrUserId)

/-- The applicant lookup with `.single()` (lines 148-153): the row when the request succeeds and
exactly one row matches, otherwise nothing (an error, or no data). -/
def selectApplicant (env : Env) (st : Store) (applicantId hrUserId : Nat) :
    Option ApplicantRow × Store :=
  let st1 :=
    { st with requests := st.requests ++ [Request.selectApplicant applicantId hrUserId] }
  if env.applicantError applicantId then (none, st1)
  else
    match applicantRows st applicantId hrUserId with
    | [row] => (some row, st1)
    | _ => (none, st1)

/-- The insert with `.select().single()` (lines 161-170): the stored row, with the id the store
generates, or nothing when the insert fails. -/
def insertInterview (env : Env) (st : Store) (row : InterviewInsert) :
    Option InterviewRow × Store :=
  let st1 := { st with requests := st.requests ++ [Request.insertInterview row] }
  if env.insertError st.interviews row then (none, st1)
  else
    let stored : InterviewRow :=
      { id := st.next_id, applicant_id := row.applicant_id, hr_user_id := row.hr_user_id,
        scheduled_at := some row.scheduled_at, reminder_sent := row.reminder_sent }
    (some stored, { st1 with interviews := st.interviews ++ [stored], next_id := st.next_id + 1 })

/-- The loop `for (let i = 0; i < applicantIds.length; i++)` (lines 143-178), from index `i`
with the ids not yet visited. -/
def assignLoop (env : Env) (hrUserId : Nat) (availableSlots : List Slot) :
    Nat → List Nat → List InterviewRow → Store → Except ServiceError (List InterviewRow) × Store
  | _, [], createdInterviews, st => (.ok createdInterviews, st)
  | i, applicantId :: rest, createdInterviews, st =>
    let slot := availableSlots[i]?
    match selectApplicant env st applicantId hrUserId with
    | (none, st1) => assignLoop env hrUserId availableSlots (i + 1) rest createdInterviews st1
    | (some _, st1) =>
      match slot with
      | none => (.error .typeError, st1)
      | some slot =>
        match insertInterview env st1
            { applicant_id := applicantId, hr_user_id := hrUserId,
              scheduled_at := slot.scheduled_at, reminder_sent := false } with
        | (none, st2) => assignLoop env hrUserId availableSlots (i + 1) rest createdInterviews st2
        | (some interview, st2) =>
          assignLoop env hrUserId availableSlots (i + 1) rest (createdInterviews ++ [interview]) st2

/-- The method `assignInterviewSlots(hrUserId, applicantIds)`; `none` is a null or undefined
`applicantIds`. -/
def assignInterviewSlots (fuel : Nat) (env : Env) (st : Store) (hrUserId : Nat)
    (applicantIds : Option (List Nat)) : Outcome (List InterviewRow) × Store :=
  match applicantIds with
  | none => (.error .applicantIdsRequired, st)
  | some ids =>
    if ids.length = 0 then (.error .applicantIdsRequired, st)
    else
      match generateAvailableSlots fuel env st hrUserId defaultSlotDurationMinutes
          defaultWeeksAhead with
      | (.error e, st1) => (.error e, st1)
      | (.outOfFuel, st1) => (.outOfFuel, st1)
      | (.ok availableSlots, st1) =>
        if availableSlots.length < ids.length then
          (.error (.notEnoughSlots availableSlots.length ids.length), st1)
        else
          match assignLoop env hrUserId availableSlots 0 ids [] st1 with
          | (.error e, st2) => (.error e, st2)
          | (.ok createdInterviews, st2) => (.ok createdInterviews, st2)

/-! ## Derived views used in the statements -/

/-- The availability rows `getHRAvailability` returns for `hrUserId` when the read succeeds. -/
def rulesFor (st : Store) (hrUserId : Nat) : List AvailabilityRow :=
  List.insertionSort availabilityOrder
    (st.hr_availability.filter (fun r => r.hr_user_id == hrUserId))

/-- The `endDate` of `generateAvailableSlots`. -/
def horizonEnd (env : Env) (weeksAhead : Int) : Int := addDays env.now (weeksAhead * 7)

/-- The `existingSlots` set `generateAvailableSlots` builds from the store. -/
def blockedFor (env : Env) (st : Store) (hrUserId : Nat) (weeksAhead : Int) : List Int :=
  existingSlotKeys
    (st.interviews.filter (interviewInRange hrUserId env.now (horizonEnd env weeksAhead)))

/-- The store after the two reads of `generateAvailableSlots`. -/
def afterReads (env : Env) (st : Store) (hrUserId : Nat) (weeksAhead : Int) : Store :=
  { st with
    requests := st.requests ++ [Request.selectAvailability hrUserId] ++
      [Request.selectInterviews hrUserId env.now (horizonEnd env weeksAhead)] }

/-- The `slotStart` of a rule on the calendar day of `currentDate`. -/
def ruleStart (env : Env) (currentDate : Int) (avail : AvailabilityRow) : Int :=
  setHours env currentDate avail.start_time.hours avail.start_time.minutes

/-- The `slotEnd` of a rule on the calendar day of `currentDate`. -/
def ruleEnd (env : Env) (currentDate : Int) (avail : AvailabilityRow) : Int :=
  setHours env currentDate avail.end_time.hours avail.end_time.minutes

/-- A wall-clock `HH:MM` value: hours 00-23, minutes 00-59. -/
def TimeOfDay.WallClock (t : TimeOfDay) : Prop := t.hours ≤ 23 ∧ t.minutes ≤ 59

instance (t : TimeOfDay) : Decidable t.WallClock := by
  unfold TimeOfDay.WallClock; exact inferInstance

/-- Two rules of the same weekday whose `[start_time, end_time)` windows share an instant. -/
def AvailabilityRow.overlaps (a b : AvailabilityRow) : Prop :=
  a.day_of_week = b.day_of_week ∧
    a.start_time.hours * 60 + a.start_time.minutes < a.end_time.hours * 60 + a.end_time.minutes ∧
    b.start_time.hours * 60 + b.start_time.minutes < b.end_time.hours * 60 + b.end_time.minutes ∧
    a.start_time.hours * 60 + a.start_time.minutes < b.end_time.hours * 60 + b.end_time.minutes ∧
    b.start_time.hours * 60 + b.start_time.minutes < a.end_time.hours * 60 + a.end_time.minutes

instance (a b : AvailabilityRow) : Decidable (a.overlaps b) := by
  unfold AvailabilityRow.overlaps; exact inferInstance

/-- The slot `s` is one the walk of rule `avail` emits on the calendar day of `currentDate`:
the rule is not skipped, the slot starts in the window, its whole duration fits, and its minute
is not blocked. -/
def FromRule (env : Env) (hrUserId : Nat) (blocked : List Int) (d : Int) (currentDate : Int)
    (avail : AvailabilityRow) (s : Slot) : Prop :=
  env.now ≤ ruleStart env currentDate avail ∧
    (0 < d → ruleStart env currentDate avail ≤ s.scheduled_at) ∧
    s.scheduled_at < ruleEnd env currentDate avail ∧
    s.scheduled_at + d * 60000 ≤ ruleEnd env currentDate avail ∧
    timeKey s.scheduled_at ∉ blocked ∧ s.hr_user_id = hrUserId

/-- Milliseconds from local midnight to the end of a rule: more fuel than this lets every walk
of the rule finish. -/
def walkFuel : List AvailabilityRow → Nat
  | [] => 0
  | avail :: rest => avail.end_time.hours * 3600000 + avail.end_time.minutes * 60000 + walkFuel rest

/-- An amount of fuel with which `generateAvailableSlots` finishes for a positive duration. -/
def enoughFuel (st : Store) (hrUserId : Nat) (weeksAhead : Int) : Nat :=
  walkFuel (rulesFor st hrUserId) + (weeksAhead * 7 + 1).toNat + 1

/-- The row `row` is what the allocator inserts at loop index `j` (ids counted from index
`i`): the applicant of that index, who is a stored applicant of the HR user, with the slot of
that index. -/
def InsertedAt (st : Store) (hrUserId : Nat) (slots : List Slot) (ids : List Nat) (i j : Nat)
    (row : InterviewRow) : Prop :=
  i ≤ j ∧ ids[j - i]? = some row.applicant_id ∧ row.hr_user_id = hrUserId ∧
    (slots[j]?).map (fun slot => slot.scheduled_at) = row.scheduled_at ∧
    row.scheduled_at ≠ none ∧ row.reminder_sent = false ∧
    ∃ a ∈ st.applicants, a.id = row.applicant_id ∧ a.hr_user_id = hrUserId

/-- The applicant check of the loop passes: the lookup does not fail and exactly one row has
this id and this HR user. -/
def validApplicant (env : Env) (applicants : List ApplicantRow) (hrUserId : Nat)
    (applicantId : Nat) : Bool :=
  !env.applicantError applicantId &&
    (applicants.filter (fun a => a.id == applicantId && a.hr_user_id == hrUserId)).length == 1

/-- The rows the allocator stores for the given id/slot pairs when no insert fails: one per
pair whose applicant passes the check, with consecutive generated ids. -/
def plannedRows (env : Env) (applicants : List ApplicantRow) (hrUserId : Nat) (nextId : Nat)
    (pairs : List (Nat × Slot)) : List InterviewRow :=
  (List.enumFrom nextId
      (pairs.filter (fun p => validApplicant env applicants hrUserId p.1))).map
    (fun q =>
      { id := q.1, applicant_id := q.2.1, hr_user_id := hrUserId,
        scheduled_at := some q.2.2.scheduled_at, reminder_sent := false })

/-! ## The HTTP handler (`controllers/interview.controller.js`) -/

/-- The `applicant_ids` field of the request body: absent (or another falsy value), a value that
is not an array, or an array of ids. -/
inductive ApplicantIdsField where
  | missing
  | notArray
  | array (ids : List Nat)
  deriving DecidableEq, Repr

/-- The `data` object of the success response. -/
structure GenerateData where
  created : Nat
  requested : Nat
  interviews : List InterviewRow
  deriving DecidableEq, Repr

/-- What the handler sends: the HTTP status (200 when `res.json` is called without
`res.status`) and the fields of the JSON body. -/
structure Response where
  status : Nat
  success : Bool
  error : Option String
  details : Option String
  message : Option String
  data : Option GenerateData
  deriving DecidableEq, Repr

/-- The handler `generateInterviewSlots(req, res)` with `req.hrUserId = hrUserId` and
`req.body.applicant_ids = applicant_ids`; no response when the service call runs out of fuel. -/
def generateInterviewSlots (fuel : Nat) (env : Env) (st : Store) (hrUserId : Nat)
    (applicant_ids : ApplicantIdsField) : Option Response × Store :=
  let badRequest : Response :=
    { status := 400, success := false,
      error := some "applicant_ids array is required and must not be empty",
      details := none, message := none, data := none }
  match applicant_ids with
  | .missing => (some badRequest, st)
  | .notArray => (some badRequest, st)
  | .array ids =>
    if ids.length = 0 then (some badRequest, st)
    else
      match assignInterviewSlots fuel env st hrUserId (some ids) with
      | (.outOfFuel, st1) => (none, st1)
      | (.error e, st1) =>
        (some { status := 500, success := false,
                error := some "Failed to generate interview slots",
                details := some e.message, message := none, data := none }, st1)
      | (.ok createdInterviews, st1) =>
        if createdInterviews.length = 0 then
          (some { status := 400, success := false,
                  error := some
                    "No interviews were created. Check if applicants exist and belong to you.",
                  details := none, message := none, data := none }, st1)
        else
          (some { status := 200, success := true, error := none, details := none,
                  message := some ("Successfully generated " ++
                    toString createdInterviews.length ++ " interview slots"),
                  data := some { created := createdInterviews.length,
                                 requested := ids.length,
                                 interviews := createdInterviews } }, st1)

/-! ## Further views used in the statements -/

/-- The store with an empty `interviews` table. -/
def Store.withoutInterviews (st : Store) : Store := { st with interviews := [] }

/-- The test `!existingSlots.has(timeKey)` of line 102 for the slot `s`. -/
def notBlocked (blocked : List Int) (s : Slot) : Bool :=
  decide (timeKey s.scheduled_at ∉ blocked)

/-- Apply a function to the value of a successful outcome. -/
def Outcome.map {α β : Type} (f : α → β) : Outcome α → Outcome β
  | .ok a => .ok (f a)
  | .error e => .error e
  | .outOfFuel => .outOfFuel

/-- The window of the rule is shorter than the slot duration:
`end_time - start_time < slotDurationMinutes`, in minutes. -/
def AvailabilityRow.shorterThan (r : AvailabilityRow) (slotDurationMinutes : Int) : Prop :=
  ((r.end_time.hours : Int) * 60 + r.end_time.minutes)
    - ((r.start_time.hours : Int) * 60 + r.start_time.minutes) < slotDurationMinutes

instance (r : AvailabilityRow) (d : Int) : Decidable (r.shorterThan d) := by
  unfold AvailabilityRow.shorterThan; exact inferInstance

/-- The local calendar day of an instant, as a day number. -/
def localDay (env : Env) (t : Int) : Int := localMs env t / 86400000

/-! ## Concrete scenarios -/

/-- An environment in which no store request fails; UTC machine. -/
def quietEnv (now : Int) : Env :=
  { now := now, utcOffsetMinutes := 0, availabilityError := none, interviewsError := none,
    applicantError := fun _ => false, insertError := fun _ _ => false }

/-- Monday 2025-01-06 08:00:00.000 UTC. -/
def monday0800 : Int := 1736150400000

/-- Monday 2025-01-06 09:00:00.000 UTC. -/
def monday0900 : Int := 1736154000000

/-- Monday 2025-01-06 09:30:00.000 UTC. -/
def monday0930 : Int := 1736155800000

/-- HR user 1 is available on Mondays 09:00-10:00 and owns applicants 11 and 12; applicant 13
belongs to HR user 2. -/
def demoStore : Store :=
  { hr_availability :=
      [{ hr_user_id := 1, day_of_week := 1, start_time := ⟨9, 0⟩, end_time := ⟨10, 0⟩ }],
    interviews := [],
    applicants := [⟨11, 1⟩, ⟨12, 1⟩, ⟨13, 2⟩],
    next_id := 100,
    requests := [] }

/-- An HR user whose only window (Monday 09:00-09:25) is shorter than a slot. -/
def shortWindowStore : Store :=
  { hr_availability :=
      [{ hr_user_id := 1, day_of_week := 1, start_time := ⟨9, 0⟩, end_time := ⟨9, 25⟩ }],
    interviews := [],
    applicants := [⟨11, 1⟩],
    next_id := 100,
    requests := [] }

/-- Tuesday 2025-01-07 08:00:00.000 UTC. -/
def tuesday0800 : Int := 1736236800000

/-- Monday 2025-01-13 09:00:00.000 UTC. -/
def nextMonday0900 : Int := 1736758800000

/-- Monday 2025-01-13 09:30:00.000 UTC. -/
def nextMonday0930 : Int := 1736760600000

/-- The store of `demoStore` with an interview already booked on Monday 2025-01-06 at
09:00:20.500 UTC. -/
def bookedStore : Store :=
  { demoStore with
    interviews :=
      [{ id := 1, applicant_id := 11, hr_user_id := 1, scheduled_at := some (monday0900 + 20500),
         reminder_sent := false }] }

/-- The store of `demoStore` with both slots of Monday 2025-01-13 already booked. -/
def saturatedStore : Store :=
  { demoStore with
    interviews :=
      [{ id := 1, applicant_id := 11, hr_user_id := 1, scheduled_at := some nextMonday0900,
         reminder_sent := false },
       { id := 2, applicant_id := 12, hr_user_id := 1, scheduled_at := some nextMonday0930,
         reminder_sent := true }] }

/-- Monday 2025-01-20 09:00:00.000 UTC. -/
def thirdMonday0900 : Int := 1737363600000

/-- The store of `demoStore` in which, seen from Tuesday 2025-01-07, only the two slots of
Monday 2025-01-13 are open: the slots of the three later Mondays are booked. -/
def twoOpenStore : Store :=
  { demoStore with
    interviews :=
      [thirdMonday0900, thirdMonday0900 + 1800000,
       thirdMonday0900 + 604800000, thirdMonday0900 + 604800000 + 1800000,
       thirdMonday0900 + 1209600000, thirdMonday0900 + 1209600000 + 1800000].map
        (fun t => { id := 1, applicant_id := 11, hr_user_id := 1, scheduled_at := some t,
                    reminder_sent := false }) }

/-- Tuesday 2025-01-07 01:00:00.000 UTC. -/
def tuesday0100 : Int := 1736211600000

/-- An HR user whose only rule is a Monday rule written `25:00`-`26:00`. -/
def lateRuleStore : Store :=
  { hr_availability :=
      [{ hr_user_id := 1, day_of_week := 1, start_time := ⟨25, 0⟩, end_time := ⟨26, 0⟩ }],
    interviews := [],
    applicants := [⟨11, 1⟩],
    next_id := 100,
    requests := [] }

/-- Monday 2025-02-03 09:00:00.000 UTC, on the last day iterated from `monday0800` with the
default four weeks. -/
def lastMonday0900 : Int := 1738573200000

/-- The store of `demoStore` with the Monday rule stored twice. -/
def repeatedRuleStore : Store :=
  { demoStore with
    hr_availability :=
      [{ hr_user_id := 1, day_of_week := 1, start_time := ⟨9, 0⟩, end_time := ⟨10, 0⟩ },
       { hr_user_id := 1, day_of_week := 1, start_time := ⟨9, 0⟩, end_time := ⟨10, 0⟩ }] }

/-- The store of `demoStore` in which HR user 1 already has an interview at every Monday slot
from 2025-01-06 to 2025-01-27 and one on Monday 2025-02-03 at 09:00. -/
def lastDayStore : Store :=
  { demoStore with
    interviews :=
      [monday0900, monday0930, nextMonday0900, nextMonday0930,
       thirdMonday0900, thirdMonday0900 + 1800000,
       thirdMonday0900 + 604800000, thirdMonday0900 + 604800000 + 1800000,
       lastMonday0900].map
        (fun t => { id := 1, applicant_id := 12, hr_user_id := 1, scheduled_at := some t,
                    reminder_sent := false }) }

/-- A store in which HR user 1 has no availability rule. -/
def noRuleStore : Store :=
  { hr_availability := [], interviews := [], applicants := [⟨11, 1⟩], next_id := 100,
    requests := [] }

/-- Monday 2025-01-06 09:10:00.000 UTC. -/
def monday0910 : Int := 1736154600000

/-- Two results of a loop agree up to the order of the slots: both out of fuel, or both a list,
one a permutation of the other. -/
def SameSlots : Option (List Slot) → Option (List Slot) → Prop
  | none, none => True
  | some a, some b => a.Perm b
  | _, _ => False

/-! ## The allocator as the specification words it -/

/-- The object the loop hands to `.insert(...)` for the pairing of an applicant with a slot. -/
def payloadFor (hrUserId : Nat) (pair : Nat × Slot) : InterviewInsert :=
  { applicant_id := pair.1, hr_user_id := hrUserId, scheduled_at := pair.2.scheduled_at,
    reminder_sent := false }

/-- The allocation of section 4.3 of the specification, steps 2 and 3, over the positional
pairings `(applicantIds[i], candidateSlots[i])`: a pairing whose applicant does not validate is
skipped; a validated pairing is inserted as one row with `reminder_sent = false`; a failed
insert is skipped; the created rows are collected in input order. `table` is the `interviews`
table as it grows, `nextId` the id the store generates next. -/
def allocateByPairs (env : Env) (applicants : List ApplicantRow) (hrUserId : Nat) :
    List InterviewRow → Nat → List (Nat × Slot) → List InterviewRow
  | _, _, [] => []
  | table, nextId, pair :: rest =>
    if validApplicant env applicants hrUserId pair.1 then
      if env.insertError table (payloadFor hrUserId pair) then
        allocateByPairs env applicants hrUserId table nextId rest
      else
        let row : InterviewRow :=
          { id := nextId, applicant_id := pair.1, hr_user_id := hrUserId,
            scheduled_at := some pair.2.scheduled_at, reminder_sent := false }
        row :: allocateByPairs env applicants hrUserId (table ++ [row]) (nextId + 1) rest
    else allocateByPairs env applicants hrUserId table nextId rest

/-- The requests one pairing causes: the applicant lookup, and the insert when the applicant
validates. -/
def requestsOfPair (env : Env) (applicants : List ApplicantRow) (hrUserId : Nat)
    (pair : Nat × Slot) : List Request :=
  Request.selectApplicant pair.1 hrUserId ::
    (if validApplicant env applicants hrUserId pair.1 then
      [Request.insertInterview (payloadFor hrUserId pair)]
     else [])

/-- The requests the pairings cause, index after index. -/
def requestsOfPairs (env : Env) (applicants : List ApplicantRow) (hrUserId : Nat)
    (pairs : List (Nat × Slot)) : List Request :=
  pairs.flatMap (requestsOfPair env applicants hrUserId)

/-! ## The score check of `AIService.scoreApplicant` (`services/ai.service.js`) -/

/-- A value of the parsed JSON response, as far as truthiness goes: arrays and objects are
`other`. -/
inductive JsonValue where
  | null
  | bool (b : Bool)
  | number (x : ℚ)
  | string (s : String)
  | other
  deriving DecidableEq

/-- JavaScript truthiness of a property read; `none` is a missing property (`undefined`). -/
def JsonValue.truthy : Option JsonValue → Bool
  | none => false
  | some .null => false
  | some (.bool b) => b
  | some (.number x) => decide (x ≠ 0)
  | some (.string s) => decide (s ≠ "")
  | some .other => true

/-- The object `JSON.parse` returns for the response text: the three properties the prompt asks
for, each possibly missing. -/
structure ParsedResult where
  score : Option JsonValue
  matches_ : Option JsonValue
  verdict : Option JsonValue
  deriving DecidableEq

/-- The method `AIService.scoreApplicant(resumeText, jobRequirements)` for a model response
whose text parses to `parsedResult`: the argument check of line 10, the check of line 37, and
the return of line 41. The `catch` block rethrows both errors unchanged (their messages contain
none of the texts it looks for). -/
def AIService.scoreApplicant (resumeText jobRequirements : String)
    (parsedResult : ParsedResult) : Except String ParsedResult :=
  if resumeText = "" ∨ jobRequirements = "" then
    .error "Resume text and job requirements are required"
  else if !JsonValue.truthy parsedResult.score || !JsonValue.truthy parsedResult.verdict then
    .error "Invalid AI response format. Missing score or verdict."
  else .ok parsedResult

/-- An environment like `quietEnv` in which every insert for applicant 11 fails. -/
def flakyEnv (now : Int) : Env :=
  { quietEnv now with insertError := fun _ row => row.applicant_id == 11 }

/-- The store of `demoStore` with an interview on Monday 2025-01-06 at 09:15 UTC. -/
def quarterPastStore : Store :=
  { demoStore with
    interviews :=
      [{ id := 1, applicant_id := 11, hr_user_id := 1, scheduled_at := some (monday0900 + 900000),
         reminder_sent := false }] }

/-- HR user 1 with two Monday rules that start together: 09:00-10:00 and 09:00-11:00. -/
def twoRulesStore : Store :=
  { demoStore with
    hr_availability :=
      [{ hr_user_id := 1, day_of_week := 1, start_time := ⟨9, 0⟩, end_time := ⟨10, 0⟩ },
       { hr_user_id := 1, day_of_week := 1, start_time := ⟨9, 0⟩, end_time := ⟨11, 0⟩ }] }

/-- The store `twoRulesStore` with its two rules stored in the other order. -/
def twoRulesSwappedStore : Store :=
  { demoStore with
    hr_availability :=
      [{ hr_user_id := 1, day_of_week := 1, start_time := ⟨9, 0⟩, end_time := ⟨11, 0⟩ },
       { hr_user_id := 1, day_of_week := 1, start_time := ⟨9, 0⟩, end_time := ⟨10, 0⟩ }] }

/-- The number `k = floor((end - start) / d)` of whole slots of `d` minutes in the window of a
rule, counted in minutes (0 for an empty window). -/
def windowCapacity (r : AvailabilityRow) (d : Int) : Nat :=
  ((((r.end_time.hours : Int) * 60 + r.end_time.minutes)
    - ((r.start_time.hours : Int) * 60 + r.start_time.minutes)) / d).toNat

/-- How many of the `n` consecutive days `c`, `c + 1 day`, ... fall on the weekday
`dayOfWeek`. -/
def matchingDays (env : Env) (dayOfWeek : Int) : Nat → Int → Nat
  | 0, _ => 0
  | n + 1, c =>
    (if getDay env c = dayOfWeek then 1 else 0) + matchingDays env dayOfWeek n (addDays c 1)

/-! ## Zones with daylight saving time -/

/-- The time zone of the machine, given by the two conversions of ECMAScript: `localTime` is
`LocalTime(t)` (the local wall-clock milliseconds of the instant `t`) and `utc` is `UTC(t)` (the
instant a local wall-clock value stands for). -/
structure Zone where
  localTime : Int → Int
  utc : Int → Int

/-- A zone whose offset from UTC is always `offsetMinutes`. -/
def Zone.fixed (offsetMinutes : Int) : Zone :=
  { localTime := fun t => t + offsetMinutes * 60000,
    utc := fun t => t - offsetMinutes * 60000 }

/-- The call `d.setHours(h, m, 0, 0)` in a zone: the local day of `t` at `h:m:00.000`, turned
back into an instant. -/
def setHoursIn (zone : Zone) (t : Int) (h m : Nat) : Int :=
  zone.utc (zone.localTime t / 86400000 * 86400000 + (h : Int) * 3600000 + (m : Int) * 60000)

/-- The call `d.setDate(d.getDate() + n)` in a zone: `n` days later on the local wall clock. -/
def addDaysIn (zone : Zone) (t n : Int) : Int := zone.utc (zone.localTime t + n * 86400000)

/-- The call `d.setMinutes(d.getMinutes() + n)` in a zone: `n` minutes later on the local wall
clock. -/
def addMinutesIn (zone : Zone) (t n : Int) : Int := zone.utc (zone.localTime t + n * 60000)

/-- The method `Date.prototype.getDay` in a zone. -/
def getDayIn (zone : Zone) (t : Int) : Int := (zone.localTime t / 86400000 + 4) % 7

/-- The inner `while (currentSlotStart < slotEnd)` loop (lines 91-111) in a zone. -/
def slotWalkIn (zone : Zone) (hrUserId : Nat) (existingSlots : List Int)
    (slotDurationMinutes slotEnd : Int) : Nat → Int → Option (List Slot)
  | 0, _ => none
  | fuel + 1, currentSlotStart =>
    if currentSlotStart < slotEnd then
      let currentSlotEnd := addMinutesIn zone currentSlotStart slotDurationMinutes
      if currentSlotEnd > slotEnd then some []
      else
        match slotWalkIn zone hrUserId existingSlots slotDurationMinutes slotEnd fuel
            currentSlotEnd with
        | none => none
        | some rest =>
          if timeKey currentSlotStart ∈ existingSlots then some rest
          else some ({ scheduled_at := currentSlotStart, hr_user_id := hrUserId } :: rest)
    else some []

/-- The body of `for (const avail of dayAvailability)` for one rule (lines 73-111) in a zone. -/
def expandRuleIn (zone : Zone) (env : Env) (hrUserId : Nat) (existingSlots : List Int)
    (slotDurationMinutes : Int) (fuel : Nat) (currentDate : Int) (avail : AvailabilityRow) :
    Option (List Slot) :=
  let slotStart := setHoursIn zone currentDate avail.start_time.hours avail.start_time.minutes
  let slotEnd := setHoursIn zone currentDate avail.end_time.hours avail.end_time.minutes
  if slotStart < env.now then some []
  else slotWalkIn zone hrUserId existingSlots slotDurationMinutes slotEnd fuel slotStart

/-- The loop `for (const avail of dayAvailability)` (lines 72-112) in a zone. -/
def expandRulesIn (zone : Zone) (env : Env) (hrUserId : Nat) (existingSlots : List Int)
    (slotDurationMinutes : Int) (fuel : Nat) (currentDate : Int) :
    List AvailabilityRow → Option (List Slot)
  | [] => some []
  | avail :: rest =>
    match expandRuleIn zone env hrUserId existingSlots slotDurationMinutes fuel currentDate
        avail with
    | none => none
    | some here =>
      match expandRulesIn zone env hrUserId existingSlots slotDurationMinutes fuel currentDate
          rest with
      | none => none
      | some later => some (here ++ later)

/-- The loop `while (currentDate <= endDate)` (lines 66-116) in a zone. -/
def dayLoopIn (zone : Zone) (env : Env) (hrUserId : Nat) (existingSlots : List Int)
    (slotDurationMinutes : Int) (availability : List AvailabilityRow) (endDate : Int) :
    Nat → Int → Option (List Slot)
  | 0, _ => none
  | fuel + 1, currentDate =>
    if currentDate ≤ endDate then
      let dayOfWeek := getDayIn zone currentDate
      let dayAvailability := availability.filter (fun avail => avail.day_of_week == dayOfWeek)
      match expandRulesIn zone env hrUserId existingSlots slotDurationMinutes (fuel + 1)
          currentDate dayAvailability with
      | none => none
      | some today =>
        match dayLoopIn zone env hrUserId existingSlots slotDurationMinutes availability endDate
            fuel (addDaysIn zone currentDate 1) with
        | none => none
        | some later => some (today ++ later)
    else some []

/-- The method `generateAvailableSlots(hrUserId, slotDurationMinutes, weeksAhead)` on a machine
in the given zone (`env.utcOffsetMinutes` is not read). -/
def generateAvailableSlotsIn (fuel : Nat) (zone : Zone) (env : Env) (st : Store)
    (hrUserId : Nat) (slotDurationMinutes weeksAhead : Int) : Outcome (List Slot) × Store :=
  match getHRAvailability env st hrUserId with
  | (.error e, st1) => (.error e, st1)
  | (.ok availability, st1) =>
    if availability.length = 0 then (.error .noAvailability, st1)
    else
      let now := env.now
      let endDate := addDaysIn zone now (weeksAhead * 7)
      match getExistingInterviews env st1 hrUserId now endDate with
      | (.error e, st2) => (.error e, st2)
      | (.ok existingInterviews, st2) =>
        let existingSlots := existingSlotKeys existingInterviews
        match dayLoopIn zone env hrUserId existingSlots slotDurationMinutes availability endDate
            fuel now with
        | none => (.outOfFuel, st2)
        | some availableSlots => (.ok (sortSlots availableSlots), st2)

/-- The method `assignInterviewSlots(hrUserId, applicantIds)` on a machine in the given zone. -/
def assignInterviewSlotsIn (fuel : Nat) (zone : Zone) (env : Env) (st : Store) (hrUserId : Nat)
    (applicantIds : Option (List Nat)) : Outcome (List InterviewRow) × Store :=
  match applicantIds with
  | none => (.error .applicantIdsRequired, st)
  | some ids =>
    if ids.length = 0 then (.error .applicantIdsRequired, st)
    else
      match generateAvailableSlotsIn fuel zone env st hrUserId defaultSlotDurationMinutes
          defaultWeeksAhead with
      | (.error e, st1) => (.error e, st1)
      | (.outOfFuel, st1) => (.outOfFuel, st1)
      | (.ok availableSlots, st1) =>
        if availableSlots.length < ids.length then
          (.error (.notEnoughSlots availableSlots.length ids.length), st1)
        else
          match assignLoop env hrUserId availableSlots 0 ids [] st1 with
          | (.error e, st2) => (.error e, st2)
          | (.ok createdInterviews, st2) => (.ok createdInterviews, st2)

/-- The instant 2025-03-09 07:00:00.000 UTC, at which the clocks of New York go from 02:00
(UTC-5) to 03:00 (UTC-4). -/
def springForward : Int := 1741503600000

/-- The zone America/New_York around `springForward` (valid until the clocks go back in
November 2025): UTC-5 before that instant and UTC-4 from it on. A local time that exists is
read with its own offset; a local time of the skipped hour 02:00-03:00 is read with the offset
before the change, as ECMAScript prescribes, so that 02:30 stands for the instant of 03:30. -/
def newYork : Zone :=
  { localTime := fun t =>
      if t < springForward then t - 300 * 60000 else t - 240 * 60000,
    utc := fun t =>
      if t + 300 * 60000 < springForward then t + 300 * 60000
      else if springForward ≤ t + 240 * 60000 then t + 240 * 60000
      else t + 300 * 60000 }

/-- Sunday 2025-03-09 05:00:00.000 UTC: local midnight in New York at the start of the day on
which the clocks go forward. -/
def sundayMidnight : Int := 1741496400000

/-- Sunday 2025-03-09 06:00:00.000 UTC: 01:00 in New York. -/
def sunday0600 : Int := 1741500000000

/-- An environment like `quietEnv` on a machine five hours behind UTC all year. -/
def easternEnv (now : Int) : Env := { quietEnv now with utcOffsetMinutes := -300 }

/-- HR user 1 with two Sunday rules that do not overlap, 02:00-02:30 and 03:00-03:30, and the
applicants of `demoStore`. -/
def springForwardStore : Store :=
  { demoStore with
    hr_availability :=
      [{ hr_user_id := 1, day_of_week := 0, start_time := ⟨2, 0⟩, end_time := ⟨2, 30⟩ },
       { hr_user_id := 1, day_of_week := 0, start_time := ⟨3, 0⟩, end_time := ⟨3, 30⟩ }] }

/-- HR user 1 with the single Sunday rule 01:00-02:30, a window of 90 minutes. -/
def earlyWindowStore : Store :=
  { demoStore with
    hr_availability :=
      [{ hr_user_id := 1, day_of_week := 0, start_time := ⟨1, 0⟩, end_time := ⟨2, 30⟩ }] }

/-! ## The two reads -/

/-! ## A fixed offset -/

theorem setHoursIn_fixed (env : Env) (t : Int) (h m : Nat) :
    setHoursIn (Zone.fixed env.utcOffsetMinutes) t h m = setHours env t h m := by
  simp only [setHoursIn, Zone.fixed, setHours, localMs]

theorem addMinutesIn_fixed (o t n : Int) : addMinutesIn (Zone.fixed o) t n = addMinutes t n := by
  simp only [addMinutesIn, Zone.fixed, addMinutes]; ring

theorem addDaysIn_fixed (o t n : Int) : addDaysIn (Zone.fixed o) t n = addDays t n := by
  simp only [addDaysIn, Zone.fixed, addDays]; ring

theorem getDayIn_fixed (env : Env) (t : Int) :
    getDayIn (Zone.fixed env.utcOffsetMinutes) t = getDay env t := by
  simp only [getDayIn, Zone.fixed, getDay, localMs]

theorem slotWalkIn_fixed (o : Int) (hrUserId : Nat) (existingSlots : List Int)
    (d slotEnd : Int) :
    ∀ (fuel : Nat) (cur : Int),
      slotWalkIn (Zone.fixed o) hrUserId existingSlots d slotEnd fuel cur =
        slotWalk hrUserId existingSlots d slotEnd fuel cur := by
  intro fuel
  induction fuel with
  | zero => intro cur; rfl
  | succ n ih =>
    intro cur
    rw [slotWalkIn, slotWalk, addMinutesIn_fixed]
    simp only [ih]

theorem expandRuleIn_fixed (env : Env) (hrUserId : Nat) (existingSlots : List Int) (d : Int)
    (fuel : Nat) (c : Int) (r : AvailabilityRow) :
    expandRuleIn (Zone.fixed env.utcOffsetMinutes) env hrUserId existingSlots d fuel c r =
      expandRule env hrUserId existingSlots d fuel c r := by
  simp only [expandRuleIn, expandRule, setHoursIn_fixed, slotWalkIn_fixed]

theorem expandRulesIn_fixed (env : Env) (hrUserId : Nat) (existingSlots : List Int) (d : Int)
    (fuel : Nat) (c : Int) :
    ∀ rules : List AvailabilityRow,
      expandRulesIn (Zone.fixed env.utcOffsetMinutes) env hrUserId existingSlots d fuel c rules =
        expandRules env hrUserId existingSlots d fuel c rules := by
  intro rules
  induction rules with
  | nil => rfl
  | cons r rest ih => rw [expandRulesIn, expandRules, expandRuleIn_fixed, ih]

theorem dayLoopIn_fixed (env : Env) (hrUserId : Nat) (existingSlots : List Int) (d : Int)
    (availability : List AvailabilityRow) (endDate : Int) :
    ∀ (fuel : Nat) (c : Int),
      dayLoopIn (Zone.fixed env.utcOffsetMinutes) env hrUserId existingSlots d availability
          endDate fuel c =
        dayLoop env hrUserId existingSlots d availability endDate fuel c := by
  intro fuel
  induction fuel with
  | zero => intro c; rfl
  | succ n ih =>
    intro c
    rw [dayLoopIn, dayLoop]
    simp only [getDayIn_fixed, expandRulesIn_fixed, addDaysIn_fixed, ih]

/-- In a zone with the fixed offset `env.utcOffsetMinutes`, the generator of a zone is
`generateAvailableSlots`. -/
theorem generate_fixed_zone (fuel : Nat) (env : Env) (st : Store) (hrUserId : Nat)
    (d w : Int) :
    generateAvailableSlotsIn fuel (Zone.fixed env.utcOffsetMinutes) env st hrUserId d w =
      generateAvailableSlots fuel env st hrUserId d w := by
  simp only [generateAvailableSlotsIn, generateAvailableSlots, addDaysIn_fixed, dayLoopIn_fixed]

/-- In a zone with the fixed offset `env.utcOffsetMinutes`, the allocator of a zone is
`assignInterviewSlots`. -/
theorem assign_fixed_zone (fuel : Nat) (env : Env) (st : Store) (hrUserId : Nat)
    (applicantIds : Option (List Nat)) :
    assignInterviewSlotsIn fuel (Zone.fixed env.utcOffsetMinutes) env st hrUserId applicantIds =
      assignInterviewSlots fuel env st hrUserId applicantIds := by
  simp only [assignInterviewSlotsIn, assignInterviewSlots, generate_fixed_zone]


theorem rulesFor_eq_nil (st : Store) (hrUserId : Nat) :
    rulesFor st hrUserId = [] ↔ ∀ r ∈ st.hr_availability, r.hr_user_id ≠ hrUserId := by
  unfold rulesFor
  rw [← List.length_eq_zero, List.length_insertionSort, List.length_eq_zero,
    List.filter_eq_nil_iff]
  simp

theorem mem_rulesFor {st : Store} {hrUserId : Nat} {r : AvailabilityRow} :
    r ∈ rulesFor st hrUserId ↔ r ∈ st.hr_availability ∧ r.hr_user_id = hrUserId := by
  unfold rulesFor
  rw [List.mem_insertionSort, List.mem_filter]
  simp

/-- What `generateAvailableSlots` computes once both reads succeed and a rule exists. -/
theorem generate_eq (fuel : Nat) (env : Env) (st : Store) (hrUserId : Nat) (d w : Int)
    (ha : env.availabilityError = none) (hi : env.interviewsError = none)
    (hne : rulesFor st hrUserId ≠ []) :
    generateAvailableSlots fuel env st hrUserId d w =
      (match dayLoop env hrUserId (blockedFor env st hrUserId w) d (rulesFor st hrUserId)
          (horizonEnd env w) fuel env.now with
        | none => Outcome.outOfFuel
        | some raw => Outcome.ok (sortSlots raw),
       afterReads env st hrUserId w) := by
  have hlen : (rulesFor st hrUserId).length ≠ 0 := by
    rw [Ne, List.length_eq_zero]; exact hne
  unfold generateAvailableSlots getHRAvailability getExistingInterviews
  simp only [ha, hi]
  simp only [rulesFor, blockedFor, horizonEnd, afterReads] at *
  rw [if_neg hlen]
  split <;> simp_all

/-- Every successful run of `generateAvailableSlots` went through both reads and the day loop. -/
theorem generate_ok {fuel : Nat} {env : Env} {st st1 : Store} {hrUserId : Nat} {d w : Int}
    {slots : List Slot}
    (h : generateAvailableSlots fuel env st hrUserId d w = (Outcome.ok slots, st1)) :
    env.availabilityError = none ∧ env.interviewsError = none ∧ rulesFor st hrUserId ≠ [] ∧
      st1 = afterReads env st hrUserId w ∧
      ∃ raw, dayLoop env hrUserId (blockedFor env st hrUserId w) d (rulesFor st hrUserId)
          (horizonEnd env w) fuel env.now = some raw ∧ slots = sortSlots raw := by
  cases ha : env.availabilityError with
  | some msg =>
    simp [generateAvailableSlots, getHRAvailability, ha] at h
  | none =>
    by_cases hne : rulesFor st hrUserId = []
    · have hlen : (rulesFor st hrUserId).length = 0 := by rw [hne]; rfl
      simp only [generateAvailableSlots, getHRAvailability, ha] at h
      simp only [rulesFor] at hlen
      rw [if_pos hlen] at h
      simp at h
    · cases hi : env.interviewsError with
      | some msg =>
        have hlen : (rulesFor st hrUserId).length ≠ 0 := by
          rw [Ne, List.length_eq_zero]; exact hne
        simp only [generateAvailableSlots, getHRAvailability, getExistingInterviews, ha, hi] at h
        simp only [rulesFor] at hlen
        rw [if_neg hlen] at h
        simp at h
      | none =>
        rw [generate_eq fuel env st hrUserId d w ha hi hne] at h
        refine ⟨rfl, rfl, hne, ?_⟩
        cases hd : dayLoop env hrUserId (blockedFor env st hrUserId w) d (rulesFor st hrUserId)
            (horizonEnd env w) fuel env.now with
        | none => rw [hd] at h; simp at h
        | some raw =>
          rw [hd] at h
          simp only [Prod.mk.injEq, Outcome.ok.injEq] at h
          exact ⟨h.2.symm, raw, rfl, h.1.symm⟩

/-! ## The slot walk -/

/-- Every slot pushed by the walk starts in the window, fits before `slotEnd`, is not blocked,
and (for a positive duration) does not start before the walk did. -/
theorem slotWalk_mem {hrUserId : Nat} {blocked : List Int} {d slotEnd : Int} :
    ∀ (fuel : Nat) (cur : Int) (out : List Slot),
      slotWalk hrUserId blocked d slotEnd fuel cur = some out →
      ∀ s ∈ out, (0 < d → cur ≤ s.scheduled_at) ∧ s.scheduled_at < slotEnd ∧
        s.scheduled_at + d * 60000 ≤ slotEnd ∧ timeKey s.scheduled_at ∉ blocked ∧
        s.hr_user_id = hrUserId := by
  intro fuel
  induction fuel with
  | zero => intro cur out h; simp [slotWalk] at h
  | succ n ih =>
    intro cur out h s hs
    rw [slotWalk] at h
    by_cases hlt : cur < slotEnd
    · rw [if_pos hlt] at h
      by_cases hgt : addMinutes cur d > slotEnd
      · simp only [if_pos hgt, Option.some.injEq] at h
        subst h; simp at hs
      · simp only [if_neg hgt] at h
        cases hrec : slotWalk hrUserId blocked d slotEnd n (addMinutes cur d) with
        | none => rw [hrec] at h; simp at h
        | some rest =>
          rw [hrec] at h
          have hrest := ih (addMinutes cur d) rest hrec
          have hfit : cur + d * 60000 ≤ slotEnd := by
            simp only [addMinutes] at hgt; omega
          by_cases hb : timeKey cur ∈ blocked
          · simp only [if_pos hb, Option.some.injEq] at h
            subst h
            obtain ⟨h1, h2, h3, h4, h5⟩ := hrest s hs
            refine ⟨fun hd => ?_, h2, h3, h4, h5⟩
            have := h1 hd
            simp only [addMinutes] at this; omega
          · simp only [if_neg hb, Option.some.injEq] at h
            subst h
            rcases List.mem_cons.1 hs with rfl | hs
            · exact ⟨fun _ => le_refl _, hlt, hfit, hb, rfl⟩
            · obtain ⟨h1, h2, h3, h4, h5⟩ := hrest s hs
              refine ⟨fun hd => ?_, h2, h3, h4, h5⟩
              have := h1 hd
              simp only [addMinutes] at this; omega
    · simp only [if_neg hlt, Option.some.injEq] at h
      subst h; simp at hs

/-- With a positive duration the walk pushes strictly later and later slots. -/
theorem slotWalk_increasing {hrUserId : Nat} {blocked : List Int} {d slotEnd : Int}
    (hd : 0 < d) :
    ∀ (fuel : Nat) (cur : Int) (out : List Slot),
      slotWalk hrUserId blocked d slotEnd fuel cur = some out →
      out.Pairwise (fun a b => a.scheduled_at < b.scheduled_at) := by
  intro fuel
  induction fuel with
  | zero => intro cur out h; simp [slotWalk] at h
  | succ n ih =>
    intro cur out h
    rw [slotWalk] at h
    by_cases hlt : cur < slotEnd
    · rw [if_pos hlt] at h
      by_cases hgt : addMinutes cur d > slotEnd
      · simp only [if_pos hgt, Option.some.injEq] at h
        subst h; exact List.Pairwise.nil
      · simp only [if_neg hgt] at h
        cases hrec : slotWalk hrUserId blocked d slotEnd n (addMinutes cur d) with
        | none => rw [hrec] at h; simp at h
        | some rest =>
          rw [hrec] at h
          have hrest := ih (addMinutes cur d) rest hrec
          by_cases hb : timeKey cur ∈ blocked
          · simp only [if_pos hb, Option.some.injEq] at h
            subst h; exact hrest
          · simp only [if_neg hb, Option.some.injEq] at h
            subst h
            refine List.Pairwise.cons (fun s hs => ?_) hrest
            have := (slotWalk_mem n (addMinutes cur d) rest hrec s hs).1 hd
            simp only [addMinutes] at this
            show cur < s.scheduled_at
            omega
    · simp only [if_neg hlt, Option.some.injEq] at h
      subst h; exact List.Pairwise.nil

/-- With a positive duration the walk ends once the fuel exceeds the width of the window. -/
theorem slotWalk_total {hrUserId : Nat} {blocked : List Int} {d slotEnd : Int} (hd : 0 < d) :
    ∀ (fuel : Nat) (cur : Int), (slotEnd - cur).toNat < fuel →
      ∃ out, slotWalk hrUserId blocked d slotEnd fuel cur = some out := by
  intro fuel
  induction fuel with
  | zero => intro cur h; omega
  | succ n ih =>
    intro cur h
    rw [slotWalk]
    by_cases hlt : cur < slotEnd
    · rw [if_pos hlt]
      by_cases hgt : addMinutes cur d > slotEnd
      · exact ⟨[], by simp only [if_pos hgt]⟩
      · simp only [if_neg hgt]
        have hn : (slotEnd - addMinutes cur d).toNat < n := by
          simp only [addMinutes] at hgt ⊢; omega
        obtain ⟨rest, hrest⟩ := ih (addMinutes cur d) hn
        rw [hrest]
        by_cases hb : timeKey cur ∈ blocked
        · exact ⟨rest, by simp only [if_pos hb]⟩
        · exact ⟨{ scheduled_at := cur, hr_user_id := hrUserId } :: rest, by
            simp only [if_neg hb]⟩
    · exact ⟨[], by simp only [if_neg hlt]⟩

/-! ## The rule loop and the day loop -/

theorem expandRule_mem {env : Env} {hrUserId : Nat} {blocked : List Int} {d : Int} {fuel : Nat}
    {c : Int} {r : AvailabilityRow} {out : List Slot}
    (h : expandRule env hrUserId blocked d fuel c r = some out) :
    ∀ s ∈ out, FromRule env hrUserId blocked d c r s := by
  intro s hs
  unfold expandRule at h
  by_cases hskip : setHours env c r.start_time.hours r.start_time.minutes < env.now
  · simp only [if_pos hskip, Option.some.injEq] at h
    subst h; simp at hs
  · simp only [if_neg hskip] at h
    obtain ⟨h1, h2, h3, h4, h5⟩ := slotWalk_mem _ _ _ h s hs
    exact ⟨not_lt.1 hskip, h1, h2, h3, h4, h5⟩

theorem expandRules_mem {env : Env} {hrUserId : Nat} {blocked : List Int} {d : Int} {fuel : Nat}
    {c : Int} :
    ∀ (rules : List AvailabilityRow) (out : List Slot),
      expandRules env hrUserId blocked d fuel c rules = some out →
      ∀ s ∈ out, ∃ r ∈ rules, FromRule env hrUserId blocked d c r s := by
  intro rules
  induction rules with
  | nil => intro out h s hs; simp [expandRules] at h; subst h; simp at hs
  | cons r rest ih =>
    intro out h s hs
    rw [expandRules] at h
    cases h1 : expandRule env hrUserId blocked d fuel c r with
    | none => rw [h1] at h; simp at h
    | some here =>
      rw [h1] at h
      cases h2 : expandRules env hrUserId blocked d fuel c rest with
      | none => rw [h2] at h; simp at h
      | some later =>
        rw [h2] at h
        simp only [Option.some.injEq] at h
        subst h
        rcases List.mem_append.1 hs with hs | hs
        · exact ⟨r, List.mem_cons_self _ _, expandRule_mem h1 s hs⟩
        · obtain ⟨r2, hr2, hf⟩ := ih later h2 s hs
          exact ⟨r2, List.mem_cons_of_mem _ hr2, hf⟩

/-- Where a slot of the day loop comes from: an iterated day `c` (a whole number of days after
the first one, not after `endDate`) and a rule of that weekday. -/
theorem dayLoop_mem {env : Env} {hrUserId : Nat} {blocked : List Int} {d : Int}
    {availability : List AvailabilityRow} {endDate : Int} :
    ∀ (fuel : Nat) (c0 : Int) (out : List Slot),
      dayLoop env hrUserId blocked d availability endDate fuel c0 = some out →
      ∀ s ∈ out, ∃ (k : Nat) (r : AvailabilityRow),
        c0 + (k : Int) * 86400000 ≤ endDate ∧ r ∈ availability ∧
        r.day_of_week = getDay env (c0 + (k : Int) * 86400000) ∧
        FromRule env hrUserId blocked d (c0 + (k : Int) * 86400000) r s := by
  intro fuel
  induction fuel with
  | zero => intro c0 out h; simp [dayLoop] at h
  | succ n ih =>
    intro c0 out h s hs
    rw [dayLoop] at h
    by_cases hle : c0 ≤ endDate
    · simp only [if_pos hle] at h
      cases h1 : expandRules env hrUserId blocked d (n + 1) c0
          (availability.filter (fun avail => avail.day_of_week == getDay env c0)) with
      | none => rw [h1] at h; simp at h
      | some today =>
        rw [h1] at h
        cases h2 : dayLoop env hrUserId blocked d availability endDate n (addDays c0 1) with
        | none => rw [h2] at h; simp at h
        | some later =>
          rw [h2] at h
          simp only [Option.some.injEq] at h
          subst h
          rcases List.mem_append.1 hs with hs | hs
          · obtain ⟨r, hr, hf⟩ := expandRules_mem _ _ h1 s hs
            rw [List.mem_filter] at hr
            refine ⟨0, r, by simpa using hle, hr.1, by simpa using hr.2, by simpa using hf⟩
          · obtain ⟨k, r, hk, hr, hday, hf⟩ := ih (addDays c0 1) later h2 s hs
            have hc : addDays c0 1 + (k : Int) * 86400000 = c0 + ((k + 1 : Nat) : Int) * 86400000 := by
              simp only [addDays]; push_cast; ring
            rw [hc] at hk hday hf
            exact ⟨k + 1, r, hk, hr, hday, hf⟩
    · simp only [if_neg hle, Option.some.injEq] at h
      subst h; simp at hs

theorem walkFuel_mem {rules : List AvailabilityRow} {r : AvailabilityRow} (h : r ∈ rules) :
    r.end_time.hours * 3600000 + r.end_time.minutes * 60000 ≤ walkFuel rules := by
  induction rules with
  | nil => simp at h
  | cons a rest ih =>
    rw [walkFuel]
    rcases List.mem_cons.1 h with rfl | h
    · omega
    · have := ih h; omega

theorem expandRule_total {env : Env} {hrUserId : Nat} {blocked : List Int} {d : Int}
    (hd : 0 < d) (fuel : Nat) (c : Int) (r : AvailabilityRow)
    (hf : r.end_time.hours * 3600000 + r.end_time.minutes * 60000 < fuel) :
    ∃ out, expandRule env hrUserId blocked d fuel c r = some out := by
  unfold expandRule
  by_cases hskip : setHours env c r.start_time.hours r.start_time.minutes < env.now
  · exact ⟨[], by simp only [if_pos hskip]⟩
  · simp only [if_neg hskip]
    apply slotWalk_total hd
    simp only [setHours]
    omega

theorem expandRules_total {env : Env} {hrUserId : Nat} {blocked : List Int} {d : Int}
    (hd : 0 < d) (fuel : Nat) (c : Int) :
    ∀ rules : List AvailabilityRow,
      (∀ r ∈ rules, r.end_time.hours * 3600000 + r.end_time.minutes * 60000 < fuel) →
      ∃ out, expandRules env hrUserId blocked d fuel c rules = some out := by
  intro rules
  induction rules with
  | nil => intro _; exact ⟨[], rfl⟩
  | cons r rest ih =>
    intro h
    obtain ⟨here, h1⟩ := @expandRule_total env hrUserId blocked d hd fuel c r (h r (List.mem_cons_self _ _))
    obtain ⟨later, h2⟩ := ih (fun r2 hr2 => h r2 (List.mem_cons_of_mem _ hr2))
    exact ⟨here ++ later, by rw [expandRules, h1, h2]⟩

theorem dayLoop_total {env : Env} {hrUserId : Nat} {blocked : List Int} {d : Int}
    {availability : List AvailabilityRow} {endDate : Int} (hd : 0 < d) :
    ∀ (fuel : Nat) (c0 : Int),
      walkFuel availability + (endDate - c0 + 86400000).toNat / 86400000 < fuel →
      ∃ out, dayLoop env hrUserId blocked d availability endDate fuel c0 = some out := by
  intro fuel
  induction fuel with
  | zero => intro c0 h; omega
  | succ n ih =>
    intro c0 h
    rw [dayLoop]
    by_cases hle : c0 ≤ endDate
    · simp only [if_pos hle]
      obtain ⟨today, h1⟩ := @expandRules_total env hrUserId blocked d hd (n + 1) c0
        (availability.filter (fun avail => avail.day_of_week == getDay env c0))
        (fun r hr => by
          have := walkFuel_mem (List.mem_filter.1 hr).1
          omega)
      have hn : walkFuel availability + (endDate - addDays c0 1 + 86400000).toNat / 86400000 < n := by
        simp only [addDays]; omega
      obtain ⟨later, h2⟩ := ih (addDays c0 1) hn
      exact ⟨today ++ later, by rw [h1, h2]⟩
    · exact ⟨[], by simp only [if_neg hle]⟩

/-- With both reads succeeding, a rule present and a positive duration, `enoughFuel` (or more)
makes `generateAvailableSlots` return a list. -/
theorem generate_total (env : Env) (st : Store) (hrUserId : Nat) (d w : Int)
    (ha : env.availabilityError = none) (hi : env.interviewsError = none)
    (hne : rulesFor st hrUserId ≠ []) (hd : 0 < d) (fuel : Nat)
    (hfuel : enoughFuel st hrUserId w ≤ fuel) :
    ∃ slots, generateAvailableSlots fuel env st hrUserId d w
      = (Outcome.ok slots, afterReads env st hrUserId w) := by
  rw [generate_eq fuel env st hrUserId d w ha hi hne]
  obtain ⟨raw, hraw⟩ := @dayLoop_total env hrUserId
    (blockedFor env st hrUserId w) d (rulesFor st hrUserId)
    (horizonEnd env w) hd fuel env.now (by
      simp only [enoughFuel] at hfuel
      simp only [horizonEnd, addDays]
      omega)
  exact ⟨sortSlots raw, by rw [hraw]⟩

/-! ## Errors of the two methods -/

theorem generate_error_cases {fuel : Nat} {env : Env} {st st1 : Store} {hrUserId : Nat}
    {d w : Int} {e : ServiceError}
    (h : generateAvailableSlots fuel env st hrUserId d w = (Outcome.error e, st1)) :
    (e = ServiceError.noAvailability ∧ rulesFor st hrUserId = []) ∨
      (∃ msg, e = ServiceError.fetchAvailabilityFailed msg ∧ env.availabilityError = some msg) ∨
      (∃ msg, e = ServiceError.fetchInterviewsFailed msg ∧ env.interviewsError = some msg) := by
  cases ha : env.availabilityError with
  | some msg =>
    simp only [generateAvailableSlots, getHRAvailability, ha, Prod.mk.injEq,
      Outcome.error.injEq] at h
    exact Or.inr (Or.inl ⟨msg, h.1.symm, rfl⟩)
  | none =>
    by_cases hne : rulesFor st hrUserId = []
    · have hlen : (rulesFor st hrUserId).length = 0 := by rw [hne]; rfl
      simp only [generateAvailableSlots, getHRAvailability, ha] at h
      simp only [rulesFor] at hlen
      rw [if_pos hlen] at h
      simp only [Prod.mk.injEq, Outcome.error.injEq] at h
      exact Or.inl ⟨h.1.symm, hne⟩
    · cases hi : env.interviewsError with
      | some msg =>
        have hlen : (rulesFor st hrUserId).length ≠ 0 := by
          rw [Ne, List.length_eq_zero]; exact hne
        simp only [generateAvailableSlots, getHRAvailability, getExistingInterviews, ha, hi] at h
        simp only [rulesFor] at hlen
        rw [if_neg hlen] at h
        simp only [Prod.mk.injEq, Outcome.error.injEq] at h
        exact Or.inr (Or.inr ⟨msg, h.1.symm, rfl⟩)
      | none =>
        rw [generate_eq fuel env st hrUserId d w ha hi hne] at h
        cases hd : dayLoop env hrUserId (blockedFor env st hrUserId w) d (rulesFor st hrUserId)
            (horizonEnd env w) fuel env.now with
        | none => rw [hd] at h; simp at h
        | some raw => rw [hd] at h; simp at h

/-- With no rule for the HR user, and the availability read succeeding, the call throws
`No HR availability found` after that one read. -/
theorem generate_no_rules (fuel : Nat) (env : Env) (st : Store) (hrUserId : Nat) (d w : Int)
    (ha : env.availabilityError = none) (hnil : rulesFor st hrUserId = []) :
    generateAvailableSlots fuel env st hrUserId d w =
      (Outcome.error ServiceError.noAvailability,
        { st with requests := st.requests ++ [Request.selectAvailability hrUserId] }) := by
  have hlen : (rulesFor st hrUserId).length = 0 := by rw [hnil]; rfl
  simp only [generateAvailableSlots, getHRAvailability, ha]
  simp only [rulesFor] at hlen
  rw [if_pos hlen]

theorem assignLoop_error {env : Env} {hrUserId : Nat} {slots : List Slot} :
    ∀ (ids : List Nat) (i : Nat) (created : List InterviewRow) (st st2 : Store)
      (e : ServiceError),
      assignLoop env hrUserId slots i ids created st = (Except.error e, st2) →
      e = ServiceError.typeError := by
  intro ids
  induction ids with
  | nil => intro i created st st2 e h; simp [assignLoop] at h
  | cons a rest ih =>
    intro i created st st2 e h
    rw [assignLoop] at h
    rcases hsel : selectApplicant env st a hrUserId with ⟨_ | row, st1⟩
    · rw [hsel] at h
      exact ih _ _ _ _ _ h
    · rw [hsel] at h
      cases hslot : slots[i]? with
      | none =>
        rw [hslot] at h
        simp only [Prod.mk.injEq, Except.error.injEq] at h
        exact h.1.symm
      | some slot =>
        rw [hslot] at h
        simp only at h
        rcases hins : insertInterview env st1
            { applicant_id := a, hr_user_id := hrUserId, scheduled_at := slot.scheduled_at,
              reminder_sent := false } with ⟨_ | row2, st3⟩
        · rw [hins] at h
          exact ih _ _ _ _ _ h
        · rw [hins] at h
          exact ih _ _ _ _ _ h

/-! ## The allocator loop -/

theorem selectApplicant_store (env : Env) (st : Store) (a hrUserId : Nat) :
    (selectApplicant env st a hrUserId).2 =
      { st with requests := st.requests ++ [Request.selectApplicant a hrUserId] } := by
  unfold selectApplicant
  split
  · rfl
  · split <;> rfl

theorem selectApplicant_some {env : Env} {st st1 : Store} {a hrUserId : Nat}
    {row : ApplicantRow} (h : selectApplicant env st a hrUserId = (some row, st1)) :
    env.applicantError a = false ∧ applicantRows st a hrUserId = [row] := by
  unfold selectApplicant at h
  cases he : env.applicantError a with
  | true => simp [he] at h
  | false =>
    simp only [he, Bool.false_eq_true, if_false] at h
    refine ⟨rfl, ?_⟩
    split at h
    · next r heq =>
      simp only [Prod.mk.injEq, Option.some.injEq] at h
      rw [heq, h.1]
    · simp at h

theorem selectApplicant_isSome (env : Env) (st : Store) (a hrUserId : Nat) :
    (selectApplicant env st a hrUserId).1.isSome = validApplicant env st.applicants hrUserId a := by
  unfold selectApplicant validApplicant applicantRows
  cases he : env.applicantError a with
  | true => simp
  | false =>
    simp only [Bool.false_eq_true, if_false, Bool.not_false, Bool.true_and]
    split
    · next r heq => simp [heq]
    · next hne =>
      cases hl : List.filter (fun a_1 => a_1.id == a && a_1.hr_user_id == hrUserId) st.applicants with
      | nil => simp
      | cons x xs =>
        cases xs with
        | nil => exact absurd hl (hne x)
        | cons y ys => simp

theorem insertInterview_none {env : Env} {st st1 : Store} {row : InterviewInsert}
    (h : insertInterview env st row = (none, st1)) :
    st1 = { st with requests := st.requests ++ [Request.insertInterview row] } := by
  unfold insertInterview at h
  cases he : env.insertError st.interviews row with
  | true => simp only [he, if_true, Prod.mk.injEq] at h; exact h.2.symm
  | false => simp [he] at h

theorem insertInterview_some {env : Env} {st st1 : Store} {row : InterviewInsert}
    {stored : InterviewRow} (h : insertInterview env st row = (some stored, st1)) :
    stored = { id := st.next_id, applicant_id := row.applicant_id, hr_user_id := row.hr_user_id,
               scheduled_at := some row.scheduled_at, reminder_sent := row.reminder_sent } ∧
      st1 = { st with requests := st.requests ++ [Request.insertInterview row],
                      interviews := st.interviews ++ [stored], next_id := st.next_id + 1 } := by
  unfold insertInterview at h
  cases he : env.insertError st.interviews row with
  | true => simp [he] at h
  | false =>
    simp only [he, Bool.false_eq_true, if_false, Prod.mk.injEq, Option.some.injEq] at h
    obtain ⟨h1, h2⟩ := h
    subst h1
    exact ⟨rfl, h2.symm⟩

/-- What a finished run of the allocator loop did: the rows it returns are the rows it stored,
in increasing index order, each built from the id and the slot of its own index. -/
theorem assignLoop_spec {env : Env} {hrUserId : Nat} {slots : List Slot} :
    ∀ (ids : List Nat) (i : Nat) (created : List InterviewRow) (st st2 : Store)
      (res : List InterviewRow),
      assignLoop env hrUserId slots i ids created st = (Except.ok res, st2) →
      st2.applicants = st.applicants ∧ st2.hr_availability = st.hr_availability ∧
      ∃ news : List (Nat × InterviewRow),
        res = created ++ news.map Prod.snd ∧
        st2.interviews = st.interviews ++ news.map Prod.snd ∧
        (news.map Prod.fst).Pairwise (fun a b => a < b) ∧
        ∀ p ∈ news, InsertedAt st hrUserId slots ids i p.1 p.2 := by
  intro ids
  induction ids with
  | nil =>
    intro i created st st2 res h
    simp only [assignLoop, Prod.mk.injEq, Except.ok.injEq] at h
    obtain ⟨h1, h2⟩ := h
    subst h1 h2
    exact ⟨rfl, rfl, [], by simp, by simp, List.Pairwise.nil, by simp⟩
  | cons a rest ih =>
    intro i created st st2 res h
    rw [assignLoop] at h
    have hstore := selectApplicant_store env st a hrUserId
    rcases hsel : selectApplicant env st a hrUserId with ⟨_ | arow, st1⟩
    · rw [hsel] at h hstore
      simp only at hstore
      obtain ⟨e1, e2, news, h1, h2, h3, h4⟩ := ih _ _ _ _ _ h
      subst hstore
      refine ⟨e1, e2, news, h1, h2, h3, fun p hp => ?_⟩
      obtain ⟨q1, q2, q3, q4, q5, q6, q7⟩ := h4 p hp
      refine ⟨by omega, ?_, q3, q4, q5, q6, q7⟩
      have : p.1 - i = (p.1 - (i + 1)) + 1 := by omega
      rw [this, List.getElem?_cons_succ]; exact q2
    · rw [hsel] at h hstore
      simp only at hstore
      obtain ⟨_, hrows⟩ := selectApplicant_some hsel
      have harow : arow ∈ applicantRows st a hrUserId := by rw [hrows]; simp
      simp only [applicantRows, List.mem_filter, Bool.and_eq_true, beq_iff_eq] at harow
      cases hslot : slots[i]? with
      | none => rw [hslot] at h; simp at h
      | some slot =>
        rw [hslot] at h
        simp only at h
        rcases hins : insertInterview env st1
            { applicant_id := a, hr_user_id := hrUserId, scheduled_at := slot.scheduled_at,
              reminder_sent := false } with ⟨_ | stored, st3⟩
        · rw [hins] at h
          have hst3 := insertInterview_none hins
          obtain ⟨e1, e2, news, h1, h2, h3, h4⟩ := ih _ _ _ _ _ h
          subst hst3 hstore
          refine ⟨e1, e2, news, h1, h2, h3, fun p hp => ?_⟩
          obtain ⟨q1, q2, q3, q4, q5, q6, q7⟩ := h4 p hp
          refine ⟨by omega, ?_, q3, q4, q5, q6, q7⟩
          have : p.1 - i = (p.1 - (i + 1)) + 1 := by omega
          rw [this, List.getElem?_cons_succ]; exact q2
        · rw [hins] at h
          obtain ⟨hstored, hst3⟩ := insertInterview_some hins
          obtain ⟨e1, e2, news, h1, h2, h3, h4⟩ := ih _ _ _ _ _ h
          subst hst3 hstore
          refine ⟨e1, e2, (i, stored) :: news, ?_, ?_, ?_, ?_⟩
          · simp [h1]
          · simp [h2]
          · simp only [List.map_cons]
            refine List.Pairwise.cons (fun j hj => ?_) h3
            obtain ⟨p, hp, rfl⟩ := List.mem_map.1 hj
            have := (h4 p hp).1
            omega
          · intro p hp
            rcases List.mem_cons.1 hp with rfl | hp
            · subst hstored
              refine ⟨le_refl _, by simp, rfl, by simp [hslot], by simp, rfl, arow, harow.1,
                harow.2.1, harow.2.2⟩
            · obtain ⟨q1, q2, q3, q4, q5, q6, q7⟩ := h4 p hp
              refine ⟨by omega, ?_, q3, q4, q5, q6, q7⟩
              have : p.1 - i = (p.1 - (i + 1)) + 1 := by omega
              rw [this, List.getElem?_cons_succ]; exact q2

/-- With a slot for every remaining index the loop ends without an error. -/
theorem assignLoop_ok {env : Env} {hrUserId : Nat} {slots : List Slot} :
    ∀ (ids : List Nat) (i : Nat) (created : List InterviewRow) (st : Store),
      i + ids.length ≤ slots.length →
      ∃ res st2, assignLoop env hrUserId slots i ids created st = (Except.ok res, st2) := by
  intro ids
  induction ids with
  | nil => intro i created st _; exact ⟨created, st, rfl⟩
  | cons a rest ih =>
    intro i created st hcap
    simp only [List.length_cons] at hcap
    have hi : i < slots.length := by omega
    rw [assignLoop]
    rcases hsel : selectApplicant env st a hrUserId with ⟨_ | arow, st1⟩
    · exact ih _ _ _ (by omega)
    · simp only [List.getElem?_eq_getElem hi]
      rcases hins : insertInterview env st1
          { applicant_id := a, hr_user_id := hrUserId, scheduled_at := slots[i].scheduled_at,
            reminder_sent := false } with ⟨_ | stored, st3⟩
      · exact ih _ _ _ (by omega)
      · exact ih _ _ _ (by omega)

theorem plannedRows_cons (env : Env) (applicants : List ApplicantRow) (hrUserId nextId : Nat)
    (a : Nat) (slot : Slot) (pairs : List (Nat × Slot)) :
    plannedRows env applicants hrUserId nextId ((a, slot) :: pairs) =
      if validApplicant env applicants hrUserId a then
        { id := nextId, applicant_id := a, hr_user_id := hrUserId,
          scheduled_at := some slot.scheduled_at, reminder_sent := false }
          :: plannedRows env applicants hrUserId (nextId + 1) pairs
      else plannedRows env applicants hrUserId nextId pairs := by
  unfold plannedRows
  by_cases hv : validApplicant env applicants hrUserId a = true
  · simp [List.filter_cons, hv, List.enumFrom_cons]
  · simp [List.filter_cons, hv]

/-- When no insert fails, the loop returns and stores exactly `plannedRows`: one row for every
index whose applicant passes the check, with the slot of that index. -/
theorem assignLoop_exact {env : Env} {hrUserId : Nat} {slots : List Slot}
    (hins : ∀ l row, env.insertError l row = false) :
    ∀ (ids : List Nat) (i : Nat) (created : List InterviewRow) (st : Store),
      i + ids.length ≤ slots.length →
      ∃ st2, assignLoop env hrUserId slots i ids created st =
          (Except.ok (created ++
            plannedRows env st.applicants hrUserId st.next_id (ids.zip (slots.drop i))), st2) ∧
        st2.interviews = st.interviews ++
          plannedRows env st.applicants hrUserId st.next_id (ids.zip (slots.drop i)) := by
  intro ids
  induction ids with
  | nil =>
    intro i created st _
    exact ⟨st, by simp [assignLoop, plannedRows], by simp [plannedRows]⟩
  | cons a rest ih =>
    intro i created st hcap
    simp only [List.length_cons] at hcap
    have hi : i < slots.length := by omega
    rw [List.drop_eq_getElem_cons hi, List.zip_cons_cons, plannedRows_cons, assignLoop]
    have hstore := selectApplicant_store env st a hrUserId
    have hsome := selectApplicant_isSome env st a hrUserId
    rcases hsel : selectApplicant env st a hrUserId with ⟨_ | arow, st1⟩
    · rw [hsel] at hstore hsome
      simp only [Option.isSome_none] at hsome
      simp only at hstore
      subst hstore
      rw [← hsome]
      simp only [Bool.false_eq_true, if_false]
      exact ih (i + 1) created _ (by omega)
    · rw [hsel] at hstore hsome
      simp only [Option.isSome_some] at hsome
      simp only at hstore
      subst hstore
      rw [← hsome]
      simp only [if_true, List.getElem?_eq_getElem hi]
      obtain ⟨stored, hstored⟩ : ∃ r : InterviewRow, r =
          { id := st.next_id, applicant_id := a, hr_user_id := hrUserId,
            scheduled_at := some slots[i].scheduled_at, reminder_sent := false } := ⟨_, rfl⟩
      obtain ⟨payload, hpayload⟩ : ∃ r : InterviewInsert, r =
          { applicant_id := a, hr_user_id := hrUserId, scheduled_at := slots[i].scheduled_at,
            reminder_sent := false } := ⟨_, rfl⟩
      obtain ⟨st3, hst3⟩ : ∃ s3 : Store, s3 =
          { st with
            requests := st.requests ++ [Request.selectApplicant a hrUserId] ++
              [Request.insertInterview payload],
            interviews := st.interviews ++ [stored],
            next_id := st.next_id + 1 } := ⟨_, rfl⟩
      have hrow : insertInterview env
          { st with requests := st.requests ++ [Request.selectApplicant a hrUserId] }
          payload = (some stored, st3) := by
        subst hstored hpayload hst3
        simp [insertInterview, hins]
      rw [← hpayload, hrow]
      obtain ⟨st2, h1, h2⟩ := ih (i + 1) (created ++ [stored]) st3 (by omega)
      rw [← hstored]
      have e1 : st3.applicants = st.applicants := by rw [hst3]
      have e2 : st3.next_id = st.next_id + 1 := by rw [hst3]
      have e3 : st3.interviews = st.interviews ++ [stored] := by rw [hst3]
      rw [e1, e2] at h1 h2
      rw [e3] at h2
      refine ⟨st2, ?_, ?_⟩
      · show assignLoop env hrUserId slots (i + 1) rest (created ++ [stored]) st3 = _
        rw [h1]; simp
      · rw [h2]; simp

/-! ## Sorting -/

theorem mem_sortSlots {raw : List Slot} {s : Slot} : s ∈ sortSlots raw ↔ s ∈ raw := by
  unfold sortSlots; exact List.mem_insertionSort _

theorem sortSlots_sorted (raw : List Slot) :
    (sortSlots raw).Pairwise (fun a b => a.scheduled_at ≤ b.scheduled_at) := by
  have h : List.Sorted slotOrder (List.insertionSort slotOrder raw) :=
    List.sorted_insertionSort slotOrder raw
  exact h

/-- Where a returned slot comes from: an iterated day and a rule of the HR user for that
weekday. -/
theorem generate_mem {fuel : Nat} {env : Env} {st st1 : Store} {hrUserId : Nat} {d w : Int}
    {slots : List Slot}
    (h : generateAvailableSlots fuel env st hrUserId d w = (Outcome.ok slots, st1))
    {s : Slot} (hs : s ∈ slots) :
    ∃ (k : Nat) (r : AvailabilityRow),
      env.now + (k : Int) * 86400000 ≤ horizonEnd env w ∧ r ∈ rulesFor st hrUserId ∧
      r.day_of_week = getDay env (env.now + (k : Int) * 86400000) ∧
      FromRule env hrUserId (blockedFor env st hrUserId w) d (env.now + (k : Int) * 86400000) r s := by
  obtain ⟨_, _, _, _, raw, hraw, rfl⟩ := generate_ok h
  exact dayLoop_mem _ _ _ hraw s (mem_sortSlots.1 hs)

theorem mem_blockedFor {env : Env} {st : Store} {hrUserId : Nat} {w : Int} {iv : InterviewRow}
    {t : Int} (hiv : iv ∈ st.interviews) (hhr : iv.hr_user_id = hrUserId)
    (ht : iv.scheduled_at = some t) (h1 : env.now ≤ t) (h2 : t ≤ horizonEnd env w) :
    timeKey t ∈ blockedFor env st hrUserId w := by
  unfold blockedFor existingSlotKeys
  rw [List.mem_filterMap]
  refine ⟨iv, List.mem_filter.2 ⟨hiv, ?_⟩, by rw [ht]; rfl⟩
  simp [interviewInRange, hhr, ht, h1, h2]

/-! ## Calendar days of the emitted slots -/

/-- Both `getDay` and `setHours` read only the local calendar day of their date. -/
theorem same_local_day {env : Env} {s c : Int}
    (h : localMs env s / 86400000 = localMs env c / 86400000) :
    getDay env s = getDay env c ∧ ∀ hh mm, setHours env s hh mm = setHours env c hh mm := by
  unfold getDay setHours
  rw [h]
  exact ⟨rfl, fun _ _ => rfl⟩

/-- A slot emitted from a rule that ends at a wall-clock time lies on the iterated local
calendar day. -/
theorem fromRule_local_day {env : Env} {hrUserId : Nat} {blocked : List Int} {d c : Int}
    {r : AvailabilityRow} {s : Slot} (hd : 0 < d) (hv : r.end_time.WallClock)
    (h : FromRule env hrUserId blocked d c r s) :
    localMs env s.scheduled_at / 86400000 = localMs env c / 86400000 := by
  obtain ⟨_, h1, h2, _⟩ := h
  have h1 := h1 hd
  obtain ⟨v1, v2⟩ := hv
  simp only [ruleStart, ruleEnd, setHours, localMs] at *
  omega

theorem expandRule_increasing {env : Env} {hrUserId : Nat} {blocked : List Int} {d : Int}
    {fuel : Nat} {c : Int} {r : AvailabilityRow} {out : List Slot} (hd : 0 < d)
    (h : expandRule env hrUserId blocked d fuel c r = some out) :
    out.Pairwise (fun a b => a.scheduled_at < b.scheduled_at) := by
  unfold expandRule at h
  by_cases hskip : setHours env c r.start_time.hours r.start_time.minutes < env.now
  · simp only [if_pos hskip, Option.some.injEq] at h
    subst h; exact List.Pairwise.nil
  · simp only [if_neg hskip] at h
    exact slotWalk_increasing hd _ _ _ h

/-- Slots emitted on one day from rules of one weekday with pairwise non-overlapping windows
are pairwise distinct. -/
theorem expandRules_distinct {env : Env} {hrUserId : Nat} {blocked : List Int} {d : Int}
    {fuel : Nat} {c : Int} (hd : 0 < d) (dow : Int) :
    ∀ (rules : List AvailabilityRow) (out : List Slot),
      rules.Pairwise (fun a b => ¬ a.overlaps b) → (∀ r ∈ rules, r.day_of_week = dow) →
      expandRules env hrUserId blocked d fuel c rules = some out →
      out.Pairwise (fun a b => a.scheduled_at ≠ b.scheduled_at) := by
  intro rules
  induction rules with
  | nil => intro out _ _ h; simp [expandRules] at h; subst h; exact List.Pairwise.nil
  | cons r rest ih =>
    intro out hpw hday h
    rw [expandRules] at h
    cases h1 : expandRule env hrUserId blocked d fuel c r with
    | none => rw [h1] at h; simp at h
    | some here =>
      rw [h1] at h
      cases h2 : expandRules env hrUserId blocked d fuel c rest with
      | none => rw [h2] at h; simp at h
      | some later =>
        rw [h2] at h
        simp only [Option.some.injEq] at h
        subst h
        rw [List.pairwise_cons] at hpw
        rw [List.pairwise_append]
        refine ⟨(expandRule_increasing hd h1).imp (fun hlt => ne_of_lt hlt),
          ih later hpw.2 (fun r2 hr2 => hday r2 (List.mem_cons_of_mem _ hr2)) h2, ?_⟩
        intro a ha b hb
        obtain ⟨_, a1, a2, _⟩ := expandRule_mem h1 a ha
        obtain ⟨r2, hr2, _, b1, b2, _⟩ := expandRules_mem _ _ h2 b hb
        have a1 := a1 hd
        have b1 := b1 hd
        have hno := hpw.1 r2 hr2
        have e1 := hday r (List.mem_cons_self _ _)
        have e2 := hday r2 (List.mem_cons_of_mem _ hr2)
        simp only [AvailabilityRow.overlaps, e1, e2, true_and] at hno
        simp only [ruleStart, ruleEnd, setHours] at a1 a2 b1 b2
        omega

/-- With wall-clock end times and non-overlapping rules the day loop emits pairwise distinct
slots. -/
theorem dayLoop_distinct {env : Env} {hrUserId : Nat} {blocked : List Int} {d : Int}
    {availability : List AvailabilityRow} {endDate : Int} (hd : 0 < d)
    (hv : ∀ r ∈ availability, r.end_time.WallClock)
    (hpw : availability.Pairwise (fun a b => ¬ a.overlaps b)) :
    ∀ (fuel : Nat) (c0 : Int) (out : List Slot),
      dayLoop env hrUserId blocked d availability endDate fuel c0 = some out →
      out.Pairwise (fun a b => a.scheduled_at ≠ b.scheduled_at) := by
  intro fuel
  induction fuel with
  | zero => intro c0 out h; simp [dayLoop] at h
  | succ n ih =>
    intro c0 out h
    rw [dayLoop] at h
    by_cases hle : c0 ≤ endDate
    · simp only [if_pos hle] at h
      cases h1 : expandRules env hrUserId blocked d (n + 1) c0
          (availability.filter (fun avail => avail.day_of_week == getDay env c0)) with
      | none => rw [h1] at h; simp at h
      | some today =>
        rw [h1] at h
        cases h2 : dayLoop env hrUserId blocked d availability endDate n (addDays c0 1) with
        | none => rw [h2] at h; simp at h
        | some later =>
          rw [h2] at h
          simp only [Option.some.injEq] at h
          subst h
          rw [List.pairwise_append]
          refine ⟨expandRules_distinct hd (getDay env c0) _ _
            (hpw.sublist (List.filter_sublist _))
            (fun r hr => by simpa using (List.mem_filter.1 hr).2) h1, ih _ _ h2, ?_⟩
          intro a ha b hb
          obtain ⟨r, hr, hfa⟩ := expandRules_mem _ _ h1 a ha
          obtain ⟨k, r2, _, hr2, _, hfb⟩ := dayLoop_mem _ _ _ h2 b hb
          have da := fromRule_local_day hd (hv r (List.mem_filter.1 hr).1) hfa
          have db := fromRule_local_day hd (hv r2 hr2) hfb
          intro heq
          rw [heq, db] at da
          simp only [localMs, addDays] at da
          omega
    · simp only [if_neg hle, Option.some.injEq] at h
      subst h; exact List.Pairwise.nil

/-! ## Lists -/

theorem filter_eq_eraseIdx {α : Type} (p : α → Bool) :
    ∀ (l : List α) (j : Nat) (hj : j < l.length),
      (∀ (i : Nat) (hi : i < l.length), i ≠ j → p l[i] = true) → p l[j] = false →
      l.filter p = l.eraseIdx j := by
  intro l
  induction l with
  | nil => intro j hj; simp at hj
  | cons x xs ih =>
    intro j hj hall hbad
    cases j with
    | zero =>
      simp only [List.getElem_cons_zero] at hbad
      rw [List.filter_cons, hbad]
      simp only [Bool.false_eq_true, if_false, List.eraseIdx_cons_zero]
      rw [List.filter_eq_self]
      intro a ha
      obtain ⟨i, hi, rfl⟩ := List.getElem_of_mem ha
      have := hall (i + 1) (by simp only [List.length_cons]; omega) (by omega)
      simpa using this
    | succ j =>
      have hx : p x = true := by
        have := hall 0 (by simp) (by omega)
        simpa using this
      simp only [List.length_cons] at hj
      rw [List.filter_cons, hx]
      simp only [if_true, List.eraseIdx_cons_succ]
      congr 1
      refine ih j (by omega) (fun i hi hne => ?_) (by simpa using hbad)
      have := hall (i + 1) (by simp only [List.length_cons]; omega) (by omega)
      simpa using this

theorem map_eraseIdx_comm {α β : Type} (f : α → β) :
    ∀ (l : List α) (j : Nat), (l.eraseIdx j).map f = (l.map f).eraseIdx j := by
  intro l
  induction l with
  | nil => intro j; simp
  | cons x xs ih =>
    intro j
    cases j with
    | zero => simp
    | succ j => simp [ih j]

/-- In a table with unique ids, an applicant row with this id and this HR user is the only row
the lookup matches. -/
theorem applicantRows_length_one {st : Store} {a hrUserId : Nat}
    (huniq : (st.applicants.map (fun r => r.id)).Nodup)
    (hex : ∃ r ∈ st.applicants, r.id = a ∧ r.hr_user_id = hrUserId) :
    (applicantRows st a hrUserId).length = 1 := by
  unfold applicantRows
  generalize st.applicants = l at huniq hex
  induction l with
  | nil => obtain ⟨r, hr, _⟩ := hex; simp at hr
  | cons x xs ih =>
    simp only [List.map_cons, List.nodup_cons, List.mem_map, not_exists, not_and] at huniq
    obtain ⟨r, hr, hid, hhr⟩ := hex
    rcases List.mem_cons.1 hr with rfl | hr
    · have hnone : xs.filter (fun r2 => r2.id == a && r2.hr_user_id == hrUserId) = [] := by
        rw [List.filter_eq_nil_iff]
        intro y hy
        have := huniq.1 y hy
        simp only [Bool.and_eq_true, beq_iff_eq, not_and]
        intro h1
        exact absurd (h1.trans hid.symm) this
      simp [List.filter_cons, hid, hhr, hnone]
    · have hx : x.id ≠ a := fun h => huniq.1 r hr (hid.trans h.symm)
      have := ih huniq.2 ⟨r, hr, hid, hhr⟩
      simp [List.filter_cons, hx, this]

/-- Past the two prechecks, `assignInterviewSlots` returns what the allocator loop returns. -/
theorem assign_of_loop {fuel : Nat} {env : Env} {st st1 st2 : Store} {hrUserId : Nat}
    {ids : List Nat} {slots : List Slot} {created : List InterviewRow} (hne : ids ≠ [])
    (hgen : generateAvailableSlots fuel env st hrUserId defaultSlotDurationMinutes
      defaultWeeksAhead = (Outcome.ok slots, st1))
    (hcap : ids.length ≤ slots.length)
    (hloop : assignLoop env hrUserId slots 0 ids [] st1 = (Except.ok created, st2)) :
    assignInterviewSlots fuel env st hrUserId (some ids) = (Outcome.ok created, st2) := by
  have hlen : ids.length ≠ 0 := by rw [Ne, List.length_eq_zero]; exact hne
  have hlt : ¬ slots.length < ids.length := by omega
  simp only [assignInterviewSlots, if_neg hlen, hgen, if_neg hlt, hloop]

/-! ## A zero duration -/

/-- With a duration of 0 the walk never advances: inside the window no amount of fuel is
enough. -/
theorem slotWalk_zero_duration {hrUserId : Nat} {blocked : List Int} {slotEnd cur : Int}
    (h : cur < slotEnd) :
    ∀ fuel : Nat, slotWalk hrUserId blocked 0 slotEnd fuel cur = none := by
  intro fuel
  induction fuel with
  | zero => rfl
  | succ n ih =>
    have hcur : addMinutes cur 0 = cur := by simp [addMinutes]
    have hgt : ¬ cur > slotEnd := by omega
    rw [slotWalk, if_pos h]
    simp only [hcur, if_neg hgt, ih]

/-! ## Claims -/

/-- C1: when `generateAvailableSlots` returns strictly fewer slots than there are applicant
ids, `assignInterviewSlots` throws the `Not enough available slots` error, whose message names
the slot count and the applicant count; the store has then received the two reads of the
generator and nothing else (no applicant lookup, no insert), and its interviews are unchanged. -/
theorem assign_capacity_error (fuel : Nat) (env : Env) (st st1 : Store) (hrUserId : Nat)
    (ids : List Nat) (slots : List Slot) (hne : ids ≠ [])
    (hgen : generateAvailableSlots fuel env st hrUserId defaultSlotDurationMinutes
      defaultWeeksAhead = (Outcome.ok slots, st1))
    (hlt : slots.length < ids.length) :
    assignInterviewSlots fuel env st hrUserId (some ids) =
        (Outcome.error (ServiceError.notEnoughSlots slots.length ids.length),
          afterReads env st hrUserId defaultWeeksAhead) ∧
      (ServiceError.notEnoughSlots slots.length ids.length).message =
        "Not enough available slots. Found " ++ toString slots.length ++ " slots for "
          ++ toString ids.length ++ " applicants. "
          ++ "Please add more availability or schedule interviews manually." ∧
      (afterReads env st hrUserId defaultWeeksAhead).interviews = st.interviews ∧
      (afterReads env st hrUserId defaultWeeksAhead).requests =
        st.requests ++ [Request.selectAvailability hrUserId] ++
          [Request.selectInterviews hrUserId env.now (horizonEnd env defaultWeeksAhead)] := by
  have hst1 := (generate_ok hgen).2.2.2.1
  subst hst1
  have hlen : ids.length ≠ 0 := by rw [Ne, List.length_eq_zero]; exact hne
  refine ⟨?_, rfl, rfl, rfl⟩
  simp only [assignInterviewSlots, if_neg hlen, hgen, if_pos hlt]

theorem assign_capacity_error_witness :
    assignInterviewSlots 100 (quietEnv monday0800) shortWindowStore 1 (some [11]) =
        (Outcome.error (ServiceError.notEnoughSlots 0 1),
          afterReads (quietEnv monday0800) shortWindowStore 1 defaultWeeksAhead) :=
  (assign_capacity_error 100 (quietEnv monday0800) shortWindowStore
    (afterReads (quietEnv monday0800) shortWindowStore 1 defaultWeeksAhead) 1 [11] []
    (by decide) (by rfl) (by decide)).1

/-- C9: with an absent or an empty `applicantIds`, `assignInterviewSlots` throws
`Applicant IDs are required` and the store is exactly as before (no request was issued);
with a non-empty list this error is never the result. -/
theorem assign_requires_applicant_ids (fuel : Nat) (env : Env) (st : Store) (hrUserId : Nat) :
    assignInterviewSlots fuel env st hrUserId none =
        (Outcome.error ServiceError.applicantIdsRequired, st) ∧
      assignInterviewSlots fuel env st hrUserId (some []) =
        (Outcome.error ServiceError.applicantIdsRequired, st) ∧
      ServiceError.applicantIdsRequired.message = "Applicant IDs are required" ∧
      ∀ ids : List Nat, ids ≠ [] →
        (assignInterviewSlots fuel env st hrUserId (some ids)).1 ≠
          Outcome.error ServiceError.applicantIdsRequired := by
  refine ⟨rfl, rfl, rfl, fun ids hne => ?_⟩
  have hlen : ids.length ≠ 0 := by rw [Ne, List.length_eq_zero]; exact hne
  simp only [assignInterviewSlots, if_neg hlen]
  rcases hgen : generateAvailableSlots fuel env st hrUserId defaultSlotDurationMinutes
      defaultWeeksAhead with ⟨_ | e | _, st1⟩
  · rename_i slots
    simp only
    by_cases hlt : slots.length < ids.length
    · simp [if_pos hlt]
    · simp only [if_neg hlt]
      rcases hloop : assignLoop env hrUserId slots 0 ids [] st1 with ⟨e2 | res, st2⟩
      · have := assignLoop_error _ _ _ _ _ _ hloop
        subst this
        simp
      · simp
  · simp only
    rcases generate_error_cases hgen with ⟨rfl, _⟩ | ⟨msg, rfl, _⟩ | ⟨msg, rfl, _⟩ <;> simp
  · simp

theorem assign_requires_applicant_ids_witness :
    (assignInterviewSlots 100 (quietEnv monday0800) demoStore 1 (some [11])).1 ≠
      Outcome.error ServiceError.applicantIdsRequired :=
  (assign_requires_applicant_ids 100 (quietEnv monday0800) demoStore 1).2.2.2 [11] (by decide)

/-- C3: no slot returned by `generateAvailableSlots` has the minute-key of an interview of the
same HR user whose `scheduled_at` lies in the horizon `[now, now + weeksAhead * 7 days]`. -/
theorem generate_avoids_booked_minutes (fuel : Nat) (env : Env) (st st1 : Store)
    (hrUserId : Nat) (d w : Int) (slots : List Slot)
    (hgen : generateAvailableSlots fuel env st hrUserId d w = (Outcome.ok slots, st1))
    (s : Slot) (hs : s ∈ slots) (iv : InterviewRow) (hiv : iv ∈ st.interviews)
    (hhr : iv.hr_user_id = hrUserId) (t : Int) (ht : iv.scheduled_at = some t)
    (h1 : env.now ≤ t) (h2 : t ≤ addDays env.now (w * 7)) :
    timeKey s.scheduled_at ≠ timeKey t := by
  obtain ⟨k, r, _, _, _, hfrom⟩ := generate_mem hgen hs
  have hblocked := mem_blockedFor hiv hhr ht h1 h2
  intro heq
  rw [← heq] at hblocked
  exact hfrom.2.2.2.2.1 hblocked

theorem generate_avoids_booked_minutes_witness :
    generateAvailableSlots 100 (quietEnv monday0800) bookedStore 1 30 1 =
        (Outcome.ok [⟨monday0930, 1⟩, ⟨nextMonday0900, 1⟩, ⟨nextMonday0930, 1⟩],
          afterReads (quietEnv monday0800) bookedStore 1 1) ∧
      timeKey monday0930 ≠ timeKey (monday0900 + 20500) :=
  ⟨by rfl,
   generate_avoids_booked_minutes 100 (quietEnv monday0800) bookedStore
    (afterReads (quietEnv monday0800) bookedStore 1 1) 1 30 1
    [⟨monday0930, 1⟩, ⟨nextMonday0900, 1⟩, ⟨nextMonday0930, 1⟩] (by rfl)
    ⟨monday0930, 1⟩ (by decide)
    { id := 1, applicant_id := 11, hr_user_id := 1, scheduled_at := some (monday0900 + 20500),
      reminder_sent := false }
    (by decide) rfl (monday0900 + 20500) rfl (by decide) (by decide)⟩

/-- C4: for a positive slot duration, no slot returned by `generateAvailableSlots` starts
strictly before `now`. -/
theorem generate_not_before_now (fuel : Nat) (env : Env) (st st1 : Store) (hrUserId : Nat)
    (d w : Int) (slots : List Slot) (hd : 0 < d)
    (hgen : generateAvailableSlots fuel env st hrUserId d w = (Outcome.ok slots, st1))
    (s : Slot) (hs : s ∈ slots) :
    ¬ s.scheduled_at < env.now := by
  obtain ⟨k, r, _, _, _, hnow, hstart, _⟩ := generate_mem hgen hs
  have := hstart hd
  omega

theorem generate_not_before_now_witness :
    ¬ monday0900 < (quietEnv monday0800).now :=
  generate_not_before_now 100 (quietEnv monday0800) demoStore
    (afterReads (quietEnv monday0800) demoStore 1 0) 1 30 0
    [⟨monday0900, 1⟩, ⟨monday0930, 1⟩] (by decide) (by rfl) ⟨monday0900, 1⟩ (by decide)

/-- C6: whenever `generateAvailableSlots` succeeds, the returned sequence is in ascending
(non-decreasing) order of `scheduled_at`. -/
theorem generate_sorted (fuel : Nat) (env : Env) (st st1 : Store) (hrUserId : Nat)
    (d w : Int) (slots : List Slot)
    (hgen : generateAvailableSlots fuel env st hrUserId d w = (Outcome.ok slots, st1)) :
    slots.Pairwise (fun a b => a.scheduled_at ≤ b.scheduled_at) := by
  obtain ⟨_, _, _, _, raw, _, rfl⟩ := generate_ok hgen
  exact sortSlots_sorted raw

theorem generate_sorted_witness :
    ([⟨monday0930, 1⟩, ⟨nextMonday0900, 1⟩, ⟨nextMonday0930, 1⟩] : List Slot).Pairwise
      (fun a b => a.scheduled_at ≤ b.scheduled_at) :=
  generate_sorted 100 (quietEnv monday0800) bookedStore
    (afterReads (quietEnv monday0800) bookedStore 1 1) 1 30 1
    [⟨monday0930, 1⟩, ⟨nextMonday0900, 1⟩, ⟨nextMonday0930, 1⟩] (by rfl)

/-- C8 (amended): with both store reads succeeding, the only error `generateAvailableSlots`
throws is `No HR availability found`, and it throws it exactly when the HR user has no
availability rule (for every duration and horizon); with at least one rule and a positive slot
duration it returns a list once the fuel reaches `enoughFuel`. The list can be empty: in `saturatedStore` every
candidate is blocked by an existing interview. -/
theorem generate_fails_iff_no_rules (env : Env) (st : Store) (hrUserId : Nat) (d w : Int)
    (ha : env.availabilityError = none) (hi : env.interviewsError = none) :
    (∀ fuel e, (generateAvailableSlots fuel env st hrUserId d w).1 = Outcome.error e →
        e = ServiceError.noAvailability) ∧
      (∀ fuel, (generateAvailableSlots fuel env st hrUserId d w).1
          = Outcome.error ServiceError.noAvailability ↔
        ∀ r ∈ st.hr_availability, r.hr_user_id ≠ hrUserId) ∧
      ((∃ r ∈ st.hr_availability, r.hr_user_id = hrUserId) → 0 < d →
        ∀ fuel, enoughFuel st hrUserId w ≤ fuel →
          ∃ slots, (generateAvailableSlots fuel env st hrUserId d w).1 = Outcome.ok slots) ∧
      (generateAvailableSlots 100 (quietEnv tuesday0800) saturatedStore 1 30 1).1
        = Outcome.ok [] := by
  refine ⟨fun fuel e h => ?_, fun fuel => ⟨fun h => ?_, fun h => ?_⟩, fun hex hd fuel hf => ?_,
    by rfl⟩
  · rcases hg : generateAvailableSlots fuel env st hrUserId d w with ⟨out, st1⟩
    rw [hg] at h
    simp only at h
    subst h
    rcases generate_error_cases hg with ⟨h1, _⟩ | ⟨msg, _, h2⟩ | ⟨msg, _, h2⟩
    · exact h1
    · rw [ha] at h2; cases h2
    · rw [hi] at h2; cases h2
  · rcases hg : generateAvailableSlots fuel env st hrUserId d w with ⟨out, st1⟩
    rw [hg] at h
    simp only at h
    subst h
    rcases generate_error_cases hg with ⟨_, h1⟩ | ⟨msg, h1, _⟩ | ⟨msg, h1, _⟩
    · exact (rulesFor_eq_nil st hrUserId).1 h1
    · cases h1
    · cases h1
  · rw [generate_no_rules fuel env st hrUserId d w ha ((rulesFor_eq_nil st hrUserId).2 h)]
  · have hne : rulesFor st hrUserId ≠ [] := by
      intro hnil
      obtain ⟨r, hr, hrid⟩ := hex
      exact (rulesFor_eq_nil st hrUserId).1 hnil r hr hrid
    obtain ⟨slots, hs⟩ := generate_total env st hrUserId d w ha hi hne hd fuel hf
    exact ⟨slots, by rw [hs]⟩

/-- C8, as stated, fails for a slot duration of 0: `demoStore` has a rule and both reads
succeed, yet no amount of fuel makes `generateAvailableSlots` return (the walk of Monday
09:00-10:00 never advances). -/
theorem generate_zero_duration_never_returns :
    (quietEnv monday0800).availabilityError = none ∧
      (quietEnv monday0800).interviewsError = none ∧
      (∃ r ∈ demoStore.hr_availability, r.hr_user_id = 1) ∧
      ¬ ∃ (fuel : Nat) (slots : List Slot),
        (generateAvailableSlots fuel (quietEnv monday0800) demoStore 1 0 4).1
          = Outcome.ok slots := by
  refine ⟨rfl, rfl, ⟨_, List.mem_cons_self _ _, rfl⟩, ?_⟩
  rintro ⟨fuel, slots, h⟩
  have hne : rulesFor demoStore 1 ≠ [] := by decide
  rw [generate_eq fuel (quietEnv monday0800) demoStore 1 0 4 rfl rfl hne] at h
  have hrules : rulesFor demoStore 1 = demoStore.hr_availability := by decide
  generalize blockedFor (quietEnv monday0800) demoStore 1 4 = B at h
  have hloop : dayLoop (quietEnv monday0800) 1 B 0
      (rulesFor demoStore 1) (horizonEnd (quietEnv monday0800) 4) fuel
      (quietEnv monday0800).now = none := by
    cases fuel with
    | zero => rfl
    | succ n =>
      have hwalk := @slotWalk_zero_duration 1 B
        (monday0900 + 3600000) monday0900 (by decide) (n + 1)
      have hle : (quietEnv monday0800).now ≤ horizonEnd (quietEnv monday0800) 4 := by decide
      have hfilter : demoStore.hr_availability.filter
          (fun avail => avail.day_of_week == getDay (quietEnv monday0800)
            (quietEnv monday0800).now) = demoStore.hr_availability := by decide
      have hstart : setHours (quietEnv monday0800) (quietEnv monday0800).now 9 0
          = monday0900 := by decide
      have hend : setHours (quietEnv monday0800) (quietEnv monday0800).now 10 0
          = monday0900 + 3600000 := by decide
      have hskip : ¬ monday0900 < (quietEnv monday0800).now := by decide
      rw [dayLoop, if_pos hle, hrules]
      simp only [hfilter]
      simp only [demoStore, expandRules, expandRule, hstart, hend, if_neg hskip, hwalk]
  rw [hloop] at h
  simp at h

theorem generate_fails_iff_no_rules_witness :
    ∃ slots, (generateAvailableSlots (enoughFuel demoStore 1 4) (quietEnv monday0800) demoStore
      1 30 4).1 = Outcome.ok slots :=
  (generate_fails_iff_no_rules (quietEnv monday0800) demoStore 1 30 4 rfl rfl).2.2.1
    ⟨_, List.mem_cons_self _ _, rfl⟩ (by decide) _ (le_refl _)

/-- C5 (amended): on a machine whose zone has a fixed offset from UTC, for a positive slot
duration `d` and rules whose times are wall-clock `HH:MM` values (hours 00-23, minutes 00-59),
every returned slot `s` has a rule of the HR user whose `day_of_week` is the local day of week
of `s` and whose window on the calendar day of `s` contains the whole slot:
`start_time <= s` and `s + d <= end_time`. -/
theorem generate_slot_within_rule (fuel : Nat) (env : Env) (st st1 : Store) (hrUserId : Nat)
    (d w : Int) (slots : List Slot) (hd : 0 < d)
    (hvalid : ∀ r ∈ st.hr_availability, r.hr_user_id = hrUserId →
      r.start_time.WallClock ∧ r.end_time.WallClock)
    (hgen : generateAvailableSlotsIn fuel (Zone.fixed env.utcOffsetMinutes) env st hrUserId d w
      = (Outcome.ok slots, st1))
    (s : Slot) (hs : s ∈ slots) :
    ∃ r ∈ st.hr_availability, r.hr_user_id = hrUserId ∧
      r.day_of_week = getDay env s.scheduled_at ∧
      ruleStart env s.scheduled_at r ≤ s.scheduled_at ∧
      addMinutes s.scheduled_at d ≤ ruleEnd env s.scheduled_at r := by
  rw [generate_fixed_zone] at hgen
  obtain ⟨k, r, _, hr, hday, hfrom⟩ := generate_mem hgen hs
  obtain ⟨hmem, hid⟩ := mem_rulesFor.1 hr
  have hsame := same_local_day (fromRule_local_day hd (hvalid r hmem hid).2 hfrom)
  obtain ⟨_, h1, _, h3, _⟩ := hfrom
  refine ⟨r, hmem, hid, ?_, ?_, ?_⟩
  · rw [hsame.1]; exact hday
  · unfold ruleStart at h1 ⊢
    rw [hsame.2]; exact h1 hd
  · unfold ruleEnd at h3 ⊢
    rw [hsame.2]; exact h3

/-- C5, as stated, fails in two ways. For a rule whose times are not wall-clock values: on a
UTC machine the Monday rule `25:00`-`26:00` of `lateRuleStore` yields a slot on Tuesday 01:00,
and no rule has Tuesday as its `day_of_week`. And across a change of the UTC offset: in New
York on Sunday 2025-03-09 the rule 01:00-02:30 with a duration of 120 minutes yields the slot
01:00, because 120 wall-clock minutes after 01:00 the clock shows 03:00, the instant 07:00 UTC,
which is not after the instant 07:30 UTC that `setHours(2, 30)` gives for the skipped 02:30;
yet the slot ends 120 minutes after its start, at 08:00 UTC, after the end of the window, and
03:00 on the wall clock is after the `end_time` 02:30. -/
theorem generate_slot_outside_rule_day :
    (generateAvailableSlotsIn 100 (Zone.fixed 0) (quietEnv monday0800) lateRuleStore 1 30 0 =
        (Outcome.ok [⟨tuesday0100, 1⟩, ⟨tuesday0100 + 1800000, 1⟩],
          afterReads (quietEnv monday0800) lateRuleStore 1 0) ∧
      ¬ ∃ r ∈ lateRuleStore.hr_availability, r.hr_user_id = 1 ∧
        r.day_of_week = getDay (quietEnv monday0800) tuesday0100 ∧
        ruleStart (quietEnv monday0800) tuesday0100 r ≤ tuesday0100 ∧
        addMinutes tuesday0100 30 ≤ ruleEnd (quietEnv monday0800) tuesday0100 r) ∧
      ((generateAvailableSlotsIn 100 newYork (quietEnv sundayMidnight) earlyWindowStore 1 120 0).1
          = Outcome.ok [⟨sunday0600, 1⟩] ∧
        addMinutesIn newYork sunday0600 120 = springForward ∧
        setHoursIn newYork sunday0600 2 30 = springForward + 30 * 60000 ∧
        setHoursIn newYork sunday0600 2 30 < sunday0600 + 120 * 60000 ∧
        (2 : Int) * 3600000 + 30 * 60000
          < newYork.localTime sunday0600 % 86400000 + 120 * 60000) :=
  ⟨⟨by rfl, by decide⟩, by rfl, by decide, by decide, by decide, by decide⟩

theorem generate_slot_within_rule_witness :
    ∃ r ∈ demoStore.hr_availability, r.hr_user_id = 1 ∧
      r.day_of_week = getDay (quietEnv monday0800) monday0930 ∧
      ruleStart (quietEnv monday0800) monday0930 r ≤ monday0930 ∧
      addMinutes monday0930 30 ≤ ruleEnd (quietEnv monday0800) monday0930 r :=
  generate_slot_within_rule 100 (quietEnv monday0800) demoStore
    (afterReads (quietEnv monday0800) demoStore 1 0) 1 30 0
    [⟨monday0900, 1⟩, ⟨monday0930, 1⟩] (by decide) (by decide) (by rfl)
    ⟨monday0930, 1⟩ (by decide)

/-- C7 (amended): on a machine whose zone has a fixed offset from UTC, for rules with
wall-clock `HH:MM` times in which no two rules of the same weekday have overlapping
`[start_time, end_time)` windows, and a positive slot duration, the returned sequence is
strictly ascending by `scheduled_at`, so no start instant occurs twice. -/
theorem generate_strictly_ascending (fuel : Nat) (env : Env) (st st1 : Store) (hrUserId : Nat)
    (d w : Int) (slots : List Slot) (hd : 0 < d)
    (hvalid : ∀ r ∈ st.hr_availability, r.hr_user_id = hrUserId →
      r.start_time.WallClock ∧ r.end_time.WallClock)
    (hdisj : (st.hr_availability.filter (fun r => r.hr_user_id == hrUserId)).Pairwise
      (fun a b => ¬ a.overlaps b))
    (hgen : generateAvailableSlotsIn fuel (Zone.fixed env.utcOffsetMinutes) env st hrUserId d w
      = (Outcome.ok slots, st1)) :
    slots.Pairwise (fun a b => a.scheduled_at < b.scheduled_at) ∧
      (slots.map (fun s => s.scheduled_at)).Nodup := by
  rw [generate_fixed_zone] at hgen
  obtain ⟨_, _, _, _, raw, hraw, rfl⟩ := generate_ok hgen
  have hsymm : Symmetric (fun a b : AvailabilityRow => ¬ a.overlaps b) := by
    intro a b hab hba
    apply hab
    obtain ⟨h1, h2, h3, h4, h5⟩ := hba
    exact ⟨h1.symm, h3, h2, h5, h4⟩
  have hrules : (rulesFor st hrUserId).Pairwise (fun a b => ¬ a.overlaps b) :=
    ((List.perm_insertionSort availabilityOrder _).pairwise_iff @hsymm).2 hdisj
  have hv : ∀ r ∈ rulesFor st hrUserId, r.end_time.WallClock := fun r hr =>
    (hvalid r (mem_rulesFor.1 hr).1 (mem_rulesFor.1 hr).2).2
  have hraw_ne := dayLoop_distinct hd hv hrules _ _ _ hraw
  have hsymm2 : Symmetric (fun a b : Slot => a.scheduled_at ≠ b.scheduled_at) :=
    fun a b hab => hab.symm
  have hne : (sortSlots raw).Pairwise (fun a b => a.scheduled_at ≠ b.scheduled_at) :=
    ((List.perm_insertionSort slotOrder raw).pairwise_iff @hsymm2).2 hraw_ne
  have hlt : (sortSlots raw).Pairwise (fun a b => a.scheduled_at < b.scheduled_at) :=
    ((sortSlots_sorted raw).and hne).imp (fun h => lt_of_le_of_ne h.1 h.2)
  refine ⟨hlt, ?_⟩
  unfold List.Nodup
  rw [List.pairwise_map]
  exact hlt.imp (fun h => ne_of_lt h)

/-- C7, as stated, fails across a change of the UTC offset: in New York on Sunday 2025-03-09
the two rules 02:00-02:30 and 03:00-03:30 have wall-clock times and do not overlap, but
`setHours(2, 0)` and `setHours(3, 0)` give the same instant 07:00 UTC (the skipped 02:00 is read
with the offset before the change), so the returned sequence holds that instant twice. -/
theorem generate_spring_forward_duplicate :
    (generateAvailableSlotsIn 100 newYork (quietEnv sundayMidnight) springForwardStore 1 30 0).1
        = Outcome.ok [⟨springForward, 1⟩, ⟨springForward, 1⟩] ∧
      (∀ r ∈ springForwardStore.hr_availability,
        r.start_time.WallClock ∧ r.end_time.WallClock) ∧
      (springForwardStore.hr_availability.filter (fun r => r.hr_user_id == 1)).Pairwise
        (fun a b => ¬ a.overlaps b) ∧
      setHoursIn newYork sundayMidnight 2 0 = setHoursIn newYork sundayMidnight 3 0 ∧
      ¬ ([⟨springForward, 1⟩, ⟨springForward, 1⟩] : List Slot).Pairwise
        (fun a b => a.scheduled_at < b.scheduled_at) :=
  ⟨by rfl, by decide, by decide, by decide, by decide⟩

theorem generate_strictly_ascending_witness :
    generateAvailableSlotsIn 100 (Zone.fixed (-300)) (easternEnv sundayMidnight)
        springForwardStore 1 30 0
      = (Outcome.ok [⟨springForward, 1⟩, ⟨springForward + 3600000, 1⟩],
          afterReads (easternEnv sundayMidnight) springForwardStore 1 0) ∧
      ([⟨springForward, 1⟩, ⟨springForward + 3600000, 1⟩] :
        List Slot).Pairwise (fun a b => a.scheduled_at < b.scheduled_at) ∧
      (([⟨springForward, 1⟩, ⟨springForward + 3600000, 1⟩] :
        List Slot).map (fun s => s.scheduled_at)).Nodup :=
  ⟨by rfl,
    generate_strictly_ascending 100 (easternEnv sundayMidnight) springForwardStore
      (afterReads (easternEnv sundayMidnight) springForwardStore 1 0) 1 30 0
      [⟨springForward, 1⟩, ⟨springForward + 3600000, 1⟩]
      (by decide) (by decide) (by decide) (by rfl)⟩

/-- C2: past the capacity precheck, `assignInterviewSlots` returns the rows it stored, and each
of them belongs to a loop index `i` (indices strictly increasing along the result): its
`applicant_id` is `applicantIds[i]`, its `hr_user_id` is the caller, its `scheduled_at` is that
of the `i`-th candidate slot, and `reminder_sent` is false. In particular, with exactly two
candidate slots and two applicants who both pass the check (and inserts that succeed), the
first applicant gets the first slot and the second applicant the second slot. -/
theorem assign_rows_positional (fuel : Nat) (env : Env) (st st1 : Store) (hrUserId : Nat)
    (ids : List Nat) (slots : List Slot) (hne : ids ≠ [])
    (hgen : generateAvailableSlots fuel env st hrUserId defaultSlotDurationMinutes
      defaultWeeksAhead = (Outcome.ok slots, st1))
    (hcap : ids.length ≤ slots.length) :
    ∃ created st2,
      assignInterviewSlots fuel env st hrUserId (some ids) = (Outcome.ok created, st2) ∧
      (∃ news : List (Nat × InterviewRow),
        created = news.map Prod.snd ∧ st2.interviews = st.interviews ++ created ∧
        (news.map Prod.fst).Pairwise (fun i j => i < j) ∧
        ∀ p ∈ news, ids[p.1]? = some p.2.applicant_id ∧ p.2.hr_user_id = hrUserId ∧
          (slots[p.1]?).map (fun slot => slot.scheduled_at) = p.2.scheduled_at ∧
          p.2.scheduled_at ≠ none ∧ p.2.reminder_sent = false) ∧
      (∀ a1 a2 s1 s2, ids = [a1, a2] → slots = [s1, s2] →
        validApplicant env st.applicants hrUserId a1 = true →
        validApplicant env st.applicants hrUserId a2 = true →
        (∀ l row, env.insertError l row = false) →
        created.map (fun r => (r.applicant_id, r.scheduled_at)) =
          [(a1, some s1.scheduled_at), (a2, some s2.scheduled_at)]) := by
  have hst1 := (generate_ok hgen).2.2.2.1
  obtain ⟨created, st2, hloop⟩ := @assignLoop_ok env hrUserId slots ids 0 [] st1 (by omega)
  refine ⟨created, st2, assign_of_loop hne hgen hcap hloop, ?_, ?_⟩
  · obtain ⟨_, _, news, h1, h2, h3, h4⟩ := assignLoop_spec _ _ _ _ _ _ hloop
    simp only [List.nil_append] at h1
    refine ⟨news, h1, ?_, h3, fun p hp => ?_⟩
    · rw [h2, h1, hst1]; rfl
    · obtain ⟨_, q2, q3, q4, q5, q6, _⟩ := h4 p hp
      exact ⟨by simpa using q2, q3, q4, q5, q6⟩
  · intro a1 a2 s1 s2 hids hslots hv1 hv2 hins
    obtain ⟨st3, h1, _⟩ := @assignLoop_exact env hrUserId slots hins ids 0 [] st1 (by omega)
    rw [hloop] at h1
    simp only [Prod.mk.injEq, Except.ok.injEq, List.nil_append] at h1
    have happ : st1.applicants = st.applicants := by rw [hst1]; rfl
    rw [h1.1, happ, hids, hslots]
    simp [plannedRows_cons, hv1, hv2, plannedRows]

theorem assign_rows_positional_witness :
    ∃ created st2,
      assignInterviewSlots 100 (quietEnv tuesday0800) twoOpenStore 1 (some [11, 12])
        = (Outcome.ok created, st2) ∧
      created.map (fun r => (r.applicant_id, r.scheduled_at)) =
        [(11, some nextMonday0900), (12, some nextMonday0930)] := by
  obtain ⟨created, st2, h, _, hsc⟩ :=
    assign_rows_positional 100 (quietEnv tuesday0800) twoOpenStore
      (afterReads (quietEnv tuesday0800) twoOpenStore 1 defaultWeeksAhead) 1 [11, 12]
      [⟨nextMonday0900, 1⟩, ⟨nextMonday0930, 1⟩] (by decide) (by rfl) (by decide)
  exact ⟨created, st2, h,
    hsc 11 12 ⟨nextMonday0900, 1⟩ ⟨nextMonday0930, 1⟩ rfl rfl (by decide) (by decide)
      (fun _ _ => rfl)⟩

/-- C10: let the list hold one id (at index `j`) that no applicant row of the HR user carries
(missing, or owned by another HR user) and otherwise ids of applicants the HR user owns, in a
table with unique ids; with a slot for every id, lookups that do not fail and inserts that
succeed, `assignInterviewSlots` creates exactly one interview for each of the other ids, in
input order and each with the slot of its own index, and none for the id at index `j`. -/
theorem assign_skips_invalid_applicant (fuel : Nat) (env : Env) (st st1 : Store)
    (hrUserId : Nat) (ids : List Nat) (slots : List Slot) (j : Nat) (hj : j < ids.length)
    (hgen : generateAvailableSlots fuel env st hrUserId defaultSlotDurationMinutes
      defaultWeeksAhead = (Outcome.ok slots, st1))
    (hcap : ids.length ≤ slots.length)
    (hlookup : ∀ a, env.applicantError a = false)
    (hins : ∀ l row, env.insertError l row = false)
    (huniq : (st.applicants.map (fun r => r.id)).Nodup)
    (hvalid : ∀ (i : Nat) (hi : i < ids.length), i ≠ j →
      ∃ r ∈ st.applicants, r.id = ids[i] ∧ r.hr_user_id = hrUserId)
    (hinvalid : ∀ r ∈ st.applicants, r.id = ids[j] → r.hr_user_id ≠ hrUserId) :
    ∃ created st2,
      assignInterviewSlots fuel env st hrUserId (some ids) = (Outcome.ok created, st2) ∧
      created.length + 1 = ids.length ∧
      created.map (fun r => r.applicant_id) = ids.eraseIdx j ∧
      created.map (fun r => (r.applicant_id, r.scheduled_at)) =
        ((ids.zip slots).eraseIdx j).map (fun p => (p.1, some p.2.scheduled_at)) ∧
      (∀ row ∈ created, row.applicant_id ≠ ids[j] ∧ row.hr_user_id = hrUserId ∧
        row.reminder_sent = false) ∧
      st2.interviews = st.interviews ++ created := by
  have hst1 := (generate_ok hgen).2.2.2.1
  have happ : st1.applicants = st.applicants := by rw [hst1]; rfl
  have hint : st1.interviews = st.interviews := by rw [hst1]; rfl
  have hne : ids ≠ [] := by intro h; rw [h] at hj; simp at hj
  obtain ⟨st2, hloop, hstore⟩ := @assignLoop_exact env hrUserId slots hins ids 0 [] st1 (by omega)
  simp only [List.nil_append, List.drop_zero] at hloop hstore
  have hzlen : (ids.zip slots).length = ids.length := by
    rw [List.length_zip]; omega
  have hfilter : (ids.zip slots).filter
      (fun p => validApplicant env st1.applicants hrUserId p.1) = (ids.zip slots).eraseIdx j := by
    refine filter_eq_eraseIdx _ _ j (by omega) (fun i hi hij => ?_) ?_
    · have hi2 : i < ids.length := by omega
      have h1 := applicantRows_length_one huniq (hvalid i hi2 hij)
      simp only [List.getElem_zip, validApplicant, hlookup, happ]
      simpa [applicantRows] using h1
    · have h0 : applicantRows st ids[j] hrUserId = [] := by
        unfold applicantRows
        rw [List.filter_eq_nil_iff]
        intro r hr
        simp only [Bool.and_eq_true, beq_iff_eq, not_and]
        exact fun h => hinvalid r hr h
      simp only [List.getElem_zip, validApplicant, hlookup, happ]
      simp only [applicantRows] at h0
      simp [h0]
  have hpairs : (plannedRows env st1.applicants hrUserId st1.next_id (ids.zip slots)).map
      (fun r => (r.applicant_id, r.scheduled_at)) =
      ((ids.zip slots).eraseIdx j).map (fun p => (p.1, some p.2.scheduled_at)) := by
    unfold plannedRows
    rw [hfilter, List.map_map]
    conv_rhs => rw [← List.enumFrom_map_snd st1.next_id ((ids.zip slots).eraseIdx j)]
    rw [List.map_map]
    rfl
  have hidsmap : (plannedRows env st1.applicants hrUserId st1.next_id (ids.zip slots)).map
      (fun r => r.applicant_id) = ids.eraseIdx j := by
    have := congrArg (List.map Prod.fst) hpairs
    simp only [List.map_map] at this
    rw [map_eraseIdx_comm] at this
    have hz : (ids.zip slots).map ((Prod.fst ∘ fun p => (p.1, some p.2.scheduled_at))) = ids := by
      have : (Prod.fst ∘ fun p : Nat × Slot => (p.1, some p.2.scheduled_at)) = Prod.fst := rfl
      rw [this]
      exact List.map_fst_zip _ _ hcap
    rw [hz] at this
    exact this
  refine ⟨_, st2, assign_of_loop hne hgen hcap hloop, ?_, hidsmap, hpairs, ?_, ?_⟩
  · have := congrArg List.length hidsmap
    rw [List.length_map, List.length_eraseIdx_of_lt hj] at this
    omega
  · intro row hrow
    obtain ⟨_, _, news, h1, _, _, h4⟩ := assignLoop_spec _ _ _ _ _ _ hloop
    simp only [List.nil_append] at h1
    rw [h1] at hrow
    obtain ⟨p, hp, rfl⟩ := List.mem_map.1 hrow
    obtain ⟨_, _, q3, _, _, q6, a, ha, hid, hhr⟩ := h4 p hp
    rw [happ] at ha
    exact ⟨fun heq => hinvalid a ha (hid.trans heq) hhr, q3, q6⟩
  · rw [hstore, hint]

theorem assign_skips_invalid_applicant_witness :
    ∃ created st2,
      assignInterviewSlots 100 (quietEnv monday0800) demoStore 1 (some [11, 13, 12])
        = (Outcome.ok created, st2) ∧
      created.length + 1 = 3 ∧
      created.map (fun r => r.applicant_id) = [11, 12] := by
  obtain ⟨created, st2, h, hlen, hids, _⟩ :=
    assign_skips_invalid_applicant 100 (quietEnv monday0800) demoStore
      (afterReads (quietEnv monday0800) demoStore 1 defaultWeeksAhead) 1 [11, 13, 12]
      ((List.range 5).flatMap (fun k =>
        [⟨monday0900 + k * 604800000, 1⟩, ⟨monday0930 + k * 604800000, 1⟩]))
      1 (by decide) (by rfl) (by decide) (fun _ => rfl) (fun _ _ => rfl) (by decide)
      (by decide) (by decide)
  exact ⟨created, st2, h, hlen, hids⟩

/-! ## What the calls leave in the store -/

/-- The generator only adds to the request log. -/
theorem generate_store (fuel : Nat) (env : Env) (st : Store) (hrUserId : Nat) (d w : Int) :
    ∃ reqs, (generateAvailableSlots fuel env st hrUserId d w).2 =
      { st with requests := st.requests ++ reqs } := by
  cases ha : env.availabilityError with
  | some msg =>
    exact ⟨[Request.selectAvailability hrUserId], by
      simp [generateAvailableSlots, getHRAvailability, ha]⟩
  | none =>
    by_cases hne : rulesFor st hrUserId = []
    · exact ⟨[Request.selectAvailability hrUserId], by
        rw [generate_no_rules fuel env st hrUserId d w ha hne]⟩
    · cases hi : env.interviewsError with
      | some msg =>
        have hlen : (rulesFor st hrUserId).length ≠ 0 := by
          rw [Ne, List.length_eq_zero]; exact hne
        simp only [rulesFor] at hlen
        exact ⟨[Request.selectAvailability hrUserId] ++
          [Request.selectInterviews hrUserId env.now (horizonEnd env w)], by
          simp only [generateAvailableSlots, getHRAvailability, getExistingInterviews, ha, hi]
          rw [if_neg hlen]
          simp [horizonEnd]⟩
      | none =>
        exact ⟨[Request.selectAvailability hrUserId] ++
          [Request.selectInterviews hrUserId env.now (horizonEnd env w)], by
          rw [generate_eq fuel env st hrUserId d w ha hi hne]
          simp [afterReads]⟩

/-- C11: whatever the outcome of a call of `assignInterviewSlots`, the `interviews` table
afterwards is the table before plus the rows the call inserted, the `applicants` table is
unchanged, and every inserted row carries the id of a stored applicant whose `hr_user_id` is the
caller: nothing is inserted for an applicant that is missing or belongs to another HR user. -/
theorem assign_inserts_only_owned_applicants (fuel : Nat) (env : Env) (st : Store)
    (hrUserId : Nat) (applicantIds : Option (List Nat)) :
    ∃ added : List InterviewRow,
      (assignInterviewSlots fuel env st hrUserId applicantIds).2.interviews
        = st.interviews ++ added ∧
      (assignInterviewSlots fuel env st hrUserId applicantIds).2.applicants = st.applicants ∧
      (∀ row ∈ added, row.hr_user_id = hrUserId ∧
        ∃ a ∈ st.applicants, a.id = row.applicant_id ∧ a.hr_user_id = hrUserId) ∧
      (∀ row ∈ added, ¬ ∀ a ∈ st.applicants, a.id = row.applicant_id → a.hr_user_id ≠ hrUserId) := by
  suffices h : ∃ added : List InterviewRow,
      (assignInterviewSlots fuel env st hrUserId applicantIds).2.interviews
        = st.interviews ++ added ∧
      (assignInterviewSlots fuel env st hrUserId applicantIds).2.applicants = st.applicants ∧
      (∀ row ∈ added, row.hr_user_id = hrUserId ∧
        ∃ a ∈ st.applicants, a.id = row.applicant_id ∧ a.hr_user_id = hrUserId) by
    obtain ⟨added, h1, h2, h3⟩ := h
    refine ⟨added, h1, h2, h3, fun row hrow hall => ?_⟩
    obtain ⟨_, a, ha, hid, hhr⟩ := h3 row hrow
    exact hall a ha hid hhr
  cases applicantIds with
  | none => exact ⟨[], by simp [assignInterviewSlots], by simp [assignInterviewSlots], by simp⟩
  | some ids =>
    by_cases hlen : ids.length = 0
    · exact ⟨[], by simp [assignInterviewSlots, hlen], by simp [assignInterviewSlots, hlen],
        by simp⟩
    · obtain ⟨reqs, hstore⟩ := generate_store fuel env st hrUserId defaultSlotDurationMinutes
        defaultWeeksAhead
      simp only [assignInterviewSlots, if_neg hlen]
      rcases hgen : generateAvailableSlots fuel env st hrUserId defaultSlotDurationMinutes
          defaultWeeksAhead with ⟨_ | e | _, st1⟩
      · rename_i slots
        rw [hgen] at hstore
        simp only at hstore
        simp only
        by_cases hlt : slots.length < ids.length
        · simp only [if_pos hlt]
          exact ⟨[], by rw [hstore]; simp, by rw [hstore], by simp⟩
        · simp only [if_neg hlt]
          obtain ⟨created, st2, hloop⟩ := @assignLoop_ok env hrUserId slots ids 0 [] st1
            (by omega)
          obtain ⟨e1, _, news, _, h2, _, h4⟩ := assignLoop_spec _ _ _ _ _ _ hloop
          rw [hloop]
          simp only
          refine ⟨news.map Prod.snd, ?_, ?_, ?_⟩
          · rw [h2, hstore]
          · rw [e1, hstore]
          · intro row hrow
            obtain ⟨p, hp, rfl⟩ := List.mem_map.1 hrow
            obtain ⟨_, _, q3, _, _, _, a, ha, hid, hhr⟩ := h4 p hp
            rw [hstore] at ha
            exact ⟨q3, a, ha, hid, hhr⟩
      · rw [hgen] at hstore
        simp only at hstore
        exact ⟨[], by simp only; rw [hstore]; simp, by simp only; rw [hstore], by simp⟩
      · rw [hgen] at hstore
        simp only at hstore
        exact ⟨[], by simp only; rw [hstore]; simp, by simp only; rw [hstore], by simp⟩

/-! ## Distinct slots, distinct interviews -/

/-- For wall-clock times, non-overlapping rules and a positive duration the returned slots are
strictly ascending. -/
theorem generate_pairwise_lt {fuel : Nat} {env : Env} {st st1 : Store} {hrUserId : Nat}
    {d w : Int} {slots : List Slot} (hd : 0 < d)
    (hvalid : ∀ r ∈ st.hr_availability, r.hr_user_id = hrUserId →
      r.start_time.WallClock ∧ r.end_time.WallClock)
    (hdisj : (st.hr_availability.filter (fun r => r.hr_user_id == hrUserId)).Pairwise
      (fun a b => ¬ a.overlaps b))
    (hgen : generateAvailableSlots fuel env st hrUserId d w = (Outcome.ok slots, st1)) :
    slots.Pairwise (fun a b => a.scheduled_at < b.scheduled_at) := by
  obtain ⟨_, _, _, _, raw, hraw, rfl⟩ := generate_ok hgen
  have hsymm : Symmetric (fun a b : AvailabilityRow => ¬ a.overlaps b) := by
    intro a b hab hba
    exact hab ⟨hba.1.symm, hba.2.2.1, hba.2.1, hba.2.2.2.2, hba.2.2.2.1⟩
  have hrules : (rulesFor st hrUserId).Pairwise (fun a b => ¬ a.overlaps b) :=
    ((List.perm_insertionSort availabilityOrder _).pairwise_iff @hsymm).2 hdisj
  have hv : ∀ r ∈ rulesFor st hrUserId, r.end_time.WallClock := fun r hr =>
    (hvalid r (mem_rulesFor.1 hr).1 (mem_rulesFor.1 hr).2).2
  have hsymm2 : Symmetric (fun a b : Slot => a.scheduled_at ≠ b.scheduled_at) :=
    fun a b hab => hab.symm
  have hne : (sortSlots raw).Pairwise (fun a b => a.scheduled_at ≠ b.scheduled_at) :=
    ((List.perm_insertionSort slotOrder raw).pairwise_iff @hsymm2).2
      (dayLoop_distinct hd hv hrules _ _ _ hraw)
  exact ((sortSlots_sorted raw).and hne).imp (fun h => lt_of_le_of_ne h.1 h.2)

/-- Rows inserted at different indices of a strictly ascending slot list have different
`scheduled_at`. -/
theorem news_distinct {st : Store} {hrUserId : Nat} {slots : List Slot} {ids : List Nat}
    {i : Nat} {news : List (Nat × InterviewRow)}
    (hslots : slots.Pairwise (fun a b => a.scheduled_at < b.scheduled_at))
    (hidx : (news.map Prod.fst).Pairwise (fun a b => a < b))
    (hrows : ∀ p ∈ news, InsertedAt st hrUserId slots ids i p.1 p.2) :
    (news.map Prod.snd).Pairwise (fun a b => a.scheduled_at ≠ b.scheduled_at) := by
  rw [List.pairwise_map] at hidx ⊢
  refine hidx.imp_of_mem (fun {p q} hp hq hlt => ?_)
  obtain ⟨_, _, _, p4, p5, _⟩ := hrows p hp
  obtain ⟨_, _, _, q4, q5, _⟩ := hrows q hq
  intro heq
  cases hsp : slots[p.1]? with
  | none => rw [hsp] at p4; exact p5 p4.symm
  | some sp =>
    cases hsq : slots[q.1]? with
    | none => rw [hsq] at q4; exact q5 q4.symm
    | some sq =>
      rw [hsp] at p4
      rw [hsq] at q4
      obtain ⟨hpl, hpe⟩ := List.getElem?_eq_some_iff.1 hsp
      obtain ⟨hql, hqe⟩ := List.getElem?_eq_some_iff.1 hsq
      have := List.pairwise_iff_getElem.1 hslots p.1 q.1 hpl hql hlt
      rw [hpe, hqe] at this
      rw [← p4, ← q4] at heq
      simp only [Option.map_some', Option.some.injEq] at heq
      omega

/-- C12 (amended): on a machine whose zone has a fixed offset from UTC, for rules with
wall-clock `HH:MM` times of which no two of the same weekday overlap, and every list of
applicant ids that passes the capacity precheck, `assignInterviewSlots` returns the rows it
created and no two of them have the same `scheduled_at` instant. -/
theorem assign_distinct_slots (fuel : Nat) (env : Env) (st st1 : Store) (hrUserId : Nat)
    (ids : List Nat) (slots : List Slot) (hne : ids ≠ [])
    (hvalid : ∀ r ∈ st.hr_availability, r.hr_user_id = hrUserId →
      r.start_time.WallClock ∧ r.end_time.WallClock)
    (hdisj : (st.hr_availability.filter (fun r => r.hr_user_id == hrUserId)).Pairwise
      (fun a b => ¬ a.overlaps b))
    (hgen : generateAvailableSlotsIn fuel (Zone.fixed env.utcOffsetMinutes) env st hrUserId
      defaultSlotDurationMinutes defaultWeeksAhead = (Outcome.ok slots, st1))
    (hcap : ids.length ≤ slots.length) :
    ∃ created st2,
      assignInterviewSlotsIn fuel (Zone.fixed env.utcOffsetMinutes) env st hrUserId (some ids)
        = (Outcome.ok created, st2) ∧
      st2.interviews = st.interviews ++ created ∧
      created.Pairwise (fun a b => a.scheduled_at ≠ b.scheduled_at) := by
  rw [generate_fixed_zone] at hgen
  rw [assign_fixed_zone]
  have hst1 := (generate_ok hgen).2.2.2.1
  have hslots := generate_pairwise_lt (by decide) hvalid hdisj hgen
  obtain ⟨created, st2, hloop⟩ := @assignLoop_ok env hrUserId slots ids 0 [] st1 (by omega)
  obtain ⟨_, _, news, h1, h2, h3, h4⟩ := assignLoop_spec _ _ _ _ _ _ hloop
  simp only [List.nil_append] at h1
  refine ⟨created, st2, assign_of_loop hne hgen hcap hloop, ?_, ?_⟩
  · rw [h2, h1, hst1]; rfl
  · rw [h1]; exact news_distinct hslots h3 h4

/-- C12, as stated, fails for a repeated rule: on a UTC machine, with the Monday rule stored
twice the candidate list holds 09:00 twice, and the two applicants of one call both get Monday
09:00. Without any repeated or overlapping rule it fails across a change of the UTC offset: in
New York on Sunday 2025-03-09 the rules 02:00-02:30 and 03:00-03:30 both give the instant
07:00 UTC, and the two applicants of one call both get it. -/
theorem assign_repeated_rule_reuses_instant :
    (assignInterviewSlotsIn 100 (Zone.fixed 0) (quietEnv monday0800) repeatedRuleStore 1
        (some [11, 12])).1 =
        Outcome.ok
          [{ id := 100, applicant_id := 11, hr_user_id := 1, scheduled_at := some monday0900,
             reminder_sent := false },
           { id := 101, applicant_id := 12, hr_user_id := 1, scheduled_at := some monday0900,
             reminder_sent := false }] ∧
      (assignInterviewSlotsIn 100 newYork (quietEnv sundayMidnight) springForwardStore 1
        (some [11, 12])).1 =
        Outcome.ok
          [{ id := 100, applicant_id := 11, hr_user_id := 1,
             scheduled_at := some springForward, reminder_sent := false },
           { id := 101, applicant_id := 12, hr_user_id := 1,
             scheduled_at := some springForward, reminder_sent := false }] :=
  ⟨by rfl, by rfl⟩

theorem assign_distinct_slots_witness :
    ∃ created st2,
      assignInterviewSlotsIn 100 (Zone.fixed (-300)) (easternEnv sundayMidnight)
          springForwardStore 1 (some [11, 12])
        = (Outcome.ok created, st2) ∧
      st2.interviews = springForwardStore.interviews ++ created ∧
      created.Pairwise (fun a b => a.scheduled_at ≠ b.scheduled_at) :=
  assign_distinct_slots 100 (easternEnv sundayMidnight) springForwardStore
    (afterReads (easternEnv sundayMidnight) springForwardStore 1 defaultWeeksAhead) 1 [11, 12]
    ((List.range 5).flatMap (fun k =>
      [⟨springForward + k * 604800000, 1⟩, ⟨springForward + 3600000 + k * 604800000, 1⟩]))
    (by decide) (by decide) (by decide) (by rfl) (by decide)

/-- C13, on the failing input: seen from Monday 2025-01-06 08:00 the horizon ends on Monday
2025-02-03 at 08:00, so the interview HR user 1 already has that day at 09:00 is not read, the
09:00 slot of that last day is offered, and the call stores a second interview of HR user 1 in
the same minute. -/
theorem assign_last_day_collision :
    (assignInterviewSlots 100 (quietEnv monday0800) lastDayStore 1 (some [11])).1 =
        Outcome.ok
          [{ id := 100, applicant_id := 11, hr_user_id := 1, scheduled_at := some lastMonday0900,
             reminder_sent := false }] ∧
      (∃ iv ∈ lastDayStore.interviews, iv.hr_user_id = 1 ∧
        iv.scheduled_at = some lastMonday0900) ∧
      horizonEnd (quietEnv monday0800) defaultWeeksAhead < lastMonday0900 := by
  refine ⟨by rfl, by decide, by decide⟩

/-! ## Durations that are not positive -/

/-- With a duration that is not positive the walk never leaves the window. -/
theorem slotWalk_nonpos_duration {hrUserId : Nat} {blocked : List Int} {d slotEnd : Int}
    (hd : d ≤ 0) :
    ∀ (fuel : Nat) (cur : Int), cur < slotEnd →
      slotWalk hrUserId blocked d slotEnd fuel cur = none := by
  intro fuel
  induction fuel with
  | zero => intro cur _; rfl
  | succ n ih =>
    intro cur h
    have hgt : ¬ addMinutes cur d > slotEnd := by simp only [addMinutes]; omega
    have hnext : addMinutes cur d < slotEnd := by simp only [addMinutes]; omega
    rw [slotWalk, if_pos h]
    simp only [if_neg hgt, ih _ hnext]

theorem slotWalk_nonpos_empty {hrUserId : Nat} {blocked : List Int} {d slotEnd : Int}
    (hd : d ≤ 0) {fuel : Nat} {cur : Int} {out : List Slot}
    (h : slotWalk hrUserId blocked d slotEnd fuel cur = some out) : out = [] := by
  by_cases hlt : cur < slotEnd
  · rw [slotWalk_nonpos_duration hd fuel cur hlt] at h; cases h
  · cases fuel with
    | zero => simp [slotWalk] at h
    | succ n =>
      rw [slotWalk, if_neg hlt] at h
      simp only [Option.some.injEq] at h
      exact h.symm

theorem expandRules_nonpos_empty {env : Env} {hrUserId : Nat} {blocked : List Int} {d : Int}
    (hd : d ≤ 0) {fuel : Nat} {c : Int} :
    ∀ (rules : List AvailabilityRow) (out : List Slot),
      expandRules env hrUserId blocked d fuel c rules = some out → out = [] := by
  intro rules
  induction rules with
  | nil => intro out h; simp [expandRules] at h; exact h
  | cons r rest ih =>
    intro out h
    rw [expandRules] at h
    cases h1 : expandRule env hrUserId blocked d fuel c r with
    | none => rw [h1] at h; simp at h
    | some here =>
      rw [h1] at h
      cases h2 : expandRules env hrUserId blocked d fuel c rest with
      | none => rw [h2] at h; simp at h
      | some later =>
        rw [h2] at h
        simp only [Option.some.injEq] at h
        have hlater := ih later h2
        have hhere : here = [] := by
          unfold expandRule at h1
          by_cases hskip : setHours env c r.start_time.hours r.start_time.minutes < env.now
          · simp only [if_pos hskip, Option.some.injEq] at h1
            exact h1.symm
          · simp only [if_neg hskip] at h1
            exact slotWalk_nonpos_empty hd h1
        rw [← h, hhere, hlater]; rfl

theorem dayLoop_nonpos_empty {env : Env} {hrUserId : Nat} {blocked : List Int} {d : Int}
    {availability : List AvailabilityRow} {endDate : Int} (hd : d ≤ 0) :
    ∀ (fuel : Nat) (c0 : Int) (out : List Slot),
      dayLoop env hrUserId blocked d availability endDate fuel c0 = some out → out = [] := by
  intro fuel
  induction fuel with
  | zero => intro c0 out h; simp [dayLoop] at h
  | succ n ih =>
    intro c0 out h
    rw [dayLoop] at h
    by_cases hle : c0 ≤ endDate
    · simp only [if_pos hle] at h
      cases h1 : expandRules env hrUserId blocked d (n + 1) c0
          (availability.filter (fun avail => avail.day_of_week == getDay env c0)) with
      | none => rw [h1] at h; simp at h
      | some today =>
        rw [h1] at h
        cases h2 : dayLoop env hrUserId blocked d availability endDate n (addDays c0 1) with
        | none => rw [h2] at h; simp at h
        | some later =>
          rw [h2] at h
          simp only [Option.some.injEq] at h
          rw [← h, expandRules_nonpos_empty hd _ _ h1, ih _ _ h2]; rfl
    · simp only [if_neg hle, Option.some.injEq] at h
      exact h.symm

/-- Every returned slot starts at or after the start of its rule on its iterated day, whatever
the duration. -/
theorem generate_mem_start {fuel : Nat} {env : Env} {st st1 : Store} {hrUserId : Nat}
    {d w : Int} {slots : List Slot}
    (h : generateAvailableSlots fuel env st hrUserId d w = (Outcome.ok slots, st1))
    {s : Slot} (hs : s ∈ slots) :
    ∃ (k : Nat) (r : AvailabilityRow),
      env.now + (k : Int) * 86400000 ≤ horizonEnd env w ∧ r ∈ rulesFor st hrUserId ∧
      r.day_of_week = getDay env (env.now + (k : Int) * 86400000) ∧
      env.now ≤ ruleStart env (env.now + (k : Int) * 86400000) r ∧
      ruleStart env (env.now + (k : Int) * 86400000) r ≤ s.scheduled_at ∧
      s.scheduled_at < ruleEnd env (env.now + (k : Int) * 86400000) r := by
  by_cases hd : 0 < d
  · obtain ⟨k, r, h1, h2, h3, h4, h5, h6, _⟩ := generate_mem h hs
    exact ⟨k, r, h1, h2, h3, h4, h5 hd, h6⟩
  · exfalso
    obtain ⟨_, _, _, _, raw, hraw, rfl⟩ := generate_ok h
    have := dayLoop_nonpos_empty (not_lt.1 hd) _ _ _ hraw
    rw [this] at hs
    simp [sortSlots] at hs

/-- C14 (amended): every returned slot starts at or after `now` and inside the window of a
rule of the HR user on one of the iterated days `now`, `now + 1 day`, ..., none of them after
`endDate = now + weeksAhead * 7 days`; with wall-clock `HH:MM` times it therefore lies on a local
calendar day no later than the day of `endDate`. It can be later than the `endDate` instant. -/
theorem generate_within_iterated_days (fuel : Nat) (env : Env) (st st1 : Store)
    (hrUserId : Nat) (d w : Int) (slots : List Slot)
    (hgen : generateAvailableSlots fuel env st hrUserId d w = (Outcome.ok slots, st1))
    (s : Slot) (hs : s ∈ slots) :
    env.now ≤ s.scheduled_at ∧
      (∃ (k : Nat) (r : AvailabilityRow), r ∈ st.hr_availability ∧ r.hr_user_id = hrUserId ∧
        addDays env.now k ≤ addDays env.now (w * 7) ∧
        r.day_of_week = getDay env (addDays env.now k) ∧
        ruleStart env (addDays env.now k) r ≤ s.scheduled_at ∧
        s.scheduled_at < ruleEnd env (addDays env.now k) r) ∧
      ((∀ r ∈ st.hr_availability, r.hr_user_id = hrUserId →
          r.start_time.WallClock ∧ r.end_time.WallClock) →
        localDay env s.scheduled_at ≤ localDay env (addDays env.now (w * 7))) := by
  obtain ⟨k, r, hk, hr, hday, h1, h2, h3⟩ := generate_mem_start hgen hs
  obtain ⟨hmem, hid⟩ := mem_rulesFor.1 hr
  refine ⟨by omega, ⟨k, r, hmem, hid, hk, hday, h2, h3⟩, fun hvalid => ?_⟩
  obtain ⟨_, v1, v2⟩ := hvalid r hmem hid
  simp only [localDay, localMs, horizonEnd, addDays, ruleStart, ruleEnd, setHours] at *
  omega

/-- C14, as stated, fails on the last iterated day: with `weeksAhead = 0` the horizon ends at
`now` (Monday 08:00), and the Monday slots 09:00 and 09:30 are returned. -/
theorem generate_slot_after_horizon_end :
    generateAvailableSlots 100 (quietEnv monday0800) demoStore 1 30 0 =
        (Outcome.ok [⟨monday0900, 1⟩, ⟨monday0930, 1⟩],
          afterReads (quietEnv monday0800) demoStore 1 0) ∧
      ¬ monday0900 ≤ addDays (quietEnv monday0800).now (0 * 7) :=
  ⟨by rfl, by decide⟩

theorem generate_within_iterated_days_witness :
    (quietEnv monday0800).now ≤ monday0930 ∧
      localDay (quietEnv monday0800) monday0930
        ≤ localDay (quietEnv monday0800) (addDays (quietEnv monday0800).now (0 * 7)) :=
  have h := generate_within_iterated_days 100 (quietEnv monday0800) demoStore
    (afterReads (quietEnv monday0800) demoStore 1 0) 1 30 0
    [⟨monday0900, 1⟩, ⟨monday0930, 1⟩] (by rfl) ⟨monday0930, 1⟩ (by decide)
  ⟨h.1, h.2.2 (by decide)⟩

/-- C18: a rule of the weekday of today whose start instant today is strictly before `now` is
selected for today and skipped: the rule loop of today emits nothing from it, whatever its end
time, the duration and the blocked set. If it is the only rule of the HR user, no returned slot
lies on the local calendar day of `now`. -/
theorem generate_skips_started_rule (env : Env) (st : Store) (hrUserId : Nat) (d w : Int)
    (r : AvailabilityRow) (hday : r.day_of_week = getDay env env.now)
    (hpast : ruleStart env env.now r < env.now) :
    (∀ (blocked : List Int) (fuel : Nat),
        expandRules env hrUserId blocked d fuel env.now
          ([r].filter (fun avail => avail.day_of_week == getDay env env.now)) = some []) ∧
      (∀ (fuel : Nat) (st1 : Store) (slots : List Slot), rulesFor st hrUserId = [r] →
        generateAvailableSlots fuel env st hrUserId d w = (Outcome.ok slots, st1) →
        ∀ s ∈ slots, localDay env s.scheduled_at ≠ localDay env env.now) := by
  constructor
  · intro blocked fuel
    have hfilter : [r].filter (fun avail => avail.day_of_week == getDay env env.now) = [r] := by
      simp [hday]
    rw [hfilter]
    unfold ruleStart at hpast
    simp [expandRules, expandRule, hpast]
  · intro fuel st1 slots hrules hgen s hs
    obtain ⟨k, r2, _, hr2, _, h1, h2, _⟩ := generate_mem_start hgen hs
    rw [hrules, List.mem_singleton] at hr2
    subst hr2
    cases k with
    | zero =>
      simp only [Nat.cast_zero, zero_mul, add_zero] at h1
      omega
    | succ k =>
      simp only [localDay, localMs, ruleStart, setHours] at *
      push_cast at h2 ⊢
      omega

theorem generate_skips_started_rule_witness :
    generateAvailableSlots 100 (quietEnv monday0910) demoStore 1 30 1 =
        (Outcome.ok [⟨nextMonday0900, 1⟩, ⟨nextMonday0930, 1⟩],
          afterReads (quietEnv monday0910) demoStore 1 1) ∧
      localDay (quietEnv monday0910) nextMonday0900
        ≠ localDay (quietEnv monday0910) (quietEnv monday0910).now :=
  ⟨by rfl,
   (generate_skips_started_rule (quietEnv monday0910) demoStore 1 30 1
      { hr_user_id := 1, day_of_week := 1, start_time := ⟨9, 0⟩, end_time := ⟨10, 0⟩ }
      (by decide) (by decide)).2 100 (afterReads (quietEnv monday0910) demoStore 1 1)
      [⟨nextMonday0900, 1⟩, ⟨nextMonday0930, 1⟩] (by decide) (by rfl)
      ⟨nextMonday0900, 1⟩ (by decide)⟩

/-! ## The walk without blocked minutes -/

theorem ediv_nonpos_of_nonpos {a b : Int} (ha : a ≤ 0) (hb : 0 < b) : a / b ≤ 0 := by
  rcases lt_or_eq_of_le ha with h | h
  · exact le_of_lt (Int.ediv_neg' h hb)
  · rw [h, Int.zero_ediv]

/-- With nothing blocked and a positive duration the walk pushes `cur`, `cur + d`,
`cur + 2 d`, ...: one slot for each whole duration that fits before `slotEnd`. -/
theorem slotWalk_unblocked {hrUserId : Nat} {d slotEnd : Int} (hd : 0 < d) :
    ∀ (fuel : Nat) (cur : Int), ((slotEnd - cur) / (d * 60000)).toNat < fuel →
      slotWalk hrUserId [] d slotEnd fuel cur =
        some ((List.range ((slotEnd - cur) / (d * 60000)).toNat).map
          (fun k => { scheduled_at := addMinutes cur ((k : Int) * d), hr_user_id := hrUserId })) := by
  have hD : 0 < d * 60000 := by omega
  intro fuel
  induction fuel with
  | zero => intro cur h; omega
  | succ n ih =>
    intro cur hfuel
    rw [slotWalk]
    by_cases hlt : cur < slotEnd
    · rw [if_pos hlt]
      by_cases hgt : addMinutes cur d > slotEnd
      · have hq : (slotEnd - cur) / (d * 60000) = 0 :=
          Int.ediv_eq_zero_of_lt (by omega) (by simp only [addMinutes] at hgt; omega)
        simp [if_pos hgt, hq]
      · have hfit : 0 ≤ slotEnd - addMinutes cur d := by
          simp only [addMinutes] at hgt ⊢; omega
        have hq : (slotEnd - cur) / (d * 60000)
            = (slotEnd - addMinutes cur d) / (d * 60000) + 1 := by
          have := Int.add_mul_ediv_right (slotEnd - addMinutes cur d) 1 (ne_of_gt hD)
          rw [← this]
          congr 1
          simp only [addMinutes]; ring
        have hq0 : 0 ≤ (slotEnd - addMinutes cur d) / (d * 60000) :=
          Int.ediv_nonneg hfit (le_of_lt hD)
        have hnat : ((slotEnd - cur) / (d * 60000)).toNat
            = ((slotEnd - addMinutes cur d) / (d * 60000)).toNat + 1 := by
          rw [hq]; omega
        rw [hnat] at hfuel ⊢
        simp only [if_neg hgt]
        rw [ih (addMinutes cur d) (by omega)]
        simp only [List.not_mem_nil, if_false, List.range_succ_eq_map, List.map_cons,
          List.map_map, Option.some.injEq, List.cons.injEq]
        refine ⟨by simp [addMinutes], ?_⟩
        apply List.map_congr_left
        intro k _
        simp only [Function.comp, addMinutes, Slot.mk.injEq, and_true]
        push_cast
        ring
    · have hq : (slotEnd - cur) / (d * 60000) ≤ 0 :=
        ediv_nonpos_of_nonpos (by omega) hD
      have hnat : ((slotEnd - cur) / (d * 60000)).toNat = 0 := by omega
      simp [if_neg hlt, hnat]

/-- C15 (amended): on a machine whose zone has a fixed offset from UTC, for a rule that is not
skipped on the iterated day of `currentDate` (its start instant is not before `now`), a
positive duration `d` and no blocked minute, the rule body emits exactly the slots
`start + k * d` for `k = 0 .. n - 1`, where `n = floor((end - start) / d)` counted in minutes
(and `n = 0` when `end <= start`); any fuel above `n` suffices. -/
theorem expandRule_exact (env : Env) (hrUserId : Nat) (d : Int) (currentDate : Int)
    (r : AvailabilityRow) (hd : 0 < d) (hnow : env.now ≤ ruleStart env currentDate r)
    (fuel : Nat)
    (hfuel : ((ruleEnd env currentDate r - ruleStart env currentDate r) / (d * 60000)).toNat
      < fuel) :
    expandRuleIn (Zone.fixed env.utcOffsetMinutes) env hrUserId [] d fuel currentDate r =
        some ((List.range
            ((ruleEnd env currentDate r - ruleStart env currentDate r) / (d * 60000)).toNat).map
          (fun k => { scheduled_at := addMinutes (ruleStart env currentDate r) ((k : Int) * d),
                      hr_user_id := hrUserId })) ∧
      (ruleEnd env currentDate r - ruleStart env currentDate r) / (d * 60000) =
        (((r.end_time.hours : Int) * 60 + r.end_time.minutes)
          - ((r.start_time.hours : Int) * 60 + r.start_time.minutes)) / d ∧
      (ruleEnd env currentDate r ≤ ruleStart env currentDate r →
        ((ruleEnd env currentDate r - ruleStart env currentDate r) / (d * 60000)).toNat = 0) := by
  refine ⟨?_, ?_, fun hle => ?_⟩
  · rw [expandRuleIn_fixed]
    have hskip : ¬ ruleStart env currentDate r < env.now := by omega
    unfold ruleStart ruleEnd at *
    unfold expandRule
    simp only [if_neg hskip]
    exact slotWalk_unblocked hd fuel _ hfuel
  · have h : ruleEnd env currentDate r - ruleStart env currentDate r =
        60000 * (((r.end_time.hours : Int) * 60 + r.end_time.minutes)
          - ((r.start_time.hours : Int) * 60 + r.start_time.minutes)) := by
      simp only [ruleStart, ruleEnd, setHours]; ring
    rw [h, mul_comm d 60000]
    exact Int.mul_ediv_mul_of_pos _ _ (by decide)
  · have := @ediv_nonpos_of_nonpos (ruleEnd env currentDate r - ruleStart env currentDate r)
      (d * 60000) (by omega) (by omega)
    omega

/-- C15, as stated, fails across a change of the UTC offset. In New York on Sunday 2025-03-09
the Sunday rule 01:00-04:00 is not skipped, and with 30-minute slots the formula gives
`floor(180 / 30) = 6` slots, 01:00 to 03:30 in steps of 30 minutes; the code emits four, at
01:00, 01:30, 03:00 and 03:30 on the wall clock (06:00 to 07:30 UTC), because the window holds
only two hours. Counting in elapsed time instead does not save the formula: with the rule
01:00-05:00 (three elapsed hours) and 120-minute slots the code emits two slots, and the second
one starts 60 minutes after the first, not 120. -/
theorem expandRule_spring_forward_count :
    expandRuleIn newYork (quietEnv sundayMidnight) 1 [] 30 10 sundayMidnight
        { hr_user_id := 1, day_of_week := 0, start_time := ⟨1, 0⟩, end_time := ⟨4, 0⟩ } =
      some [⟨sunday0600, 1⟩, ⟨sunday0600 + 30 * 60000, 1⟩, ⟨sunday0600 + 60 * 60000, 1⟩,
        ⟨sunday0600 + 90 * 60000, 1⟩] ∧
      getDayIn newYork sundayMidnight = 0 ∧
      (quietEnv sundayMidnight).now ≤ setHoursIn newYork sundayMidnight 1 0 ∧
      windowCapacity
        { hr_user_id := 1, day_of_week := 0, start_time := ⟨1, 0⟩, end_time := ⟨4, 0⟩ } 30 = 6 ∧
      expandRuleIn newYork (quietEnv sundayMidnight) 1 [] 120 10 sundayMidnight
          { hr_user_id := 1, day_of_week := 0, start_time := ⟨1, 0⟩, end_time := ⟨5, 0⟩ } =
        some [⟨sunday0600, 1⟩, ⟨sunday0600 + 60 * 60000, 1⟩] ∧
      (setHoursIn newYork sundayMidnight 5 0 - setHoursIn newYork sundayMidnight 1 0)
        / (120 * 60000) = 1 :=
  ⟨by rfl, by decide, by decide, by decide, by rfl, by decide⟩

theorem expandRule_exact_witness :
    expandRuleIn (Zone.fixed 0) (quietEnv monday0800) 1 [] 30 3 monday0800
        { hr_user_id := 1, day_of_week := 1, start_time := ⟨9, 0⟩, end_time := ⟨10, 0⟩ } =
      some [⟨monday0900, 1⟩, ⟨monday0930, 1⟩] :=
  (expandRule_exact (quietEnv monday0800) 1 30 monday0800
    { hr_user_id := 1, day_of_week := 1, start_time := ⟨9, 0⟩, end_time := ⟨10, 0⟩ }
    (by decide) (by decide) 3 (by decide)).1

/-! ## Windows shorter than a slot -/

theorem slotWalk_short {hrUserId : Nat} {blocked : List Int} {d slotEnd cur : Int}
    (h : slotEnd - cur < d * 60000) (fuel : Nat) :
    slotWalk hrUserId blocked d slotEnd (fuel + 1) cur = some [] := by
  rw [slotWalk]
  by_cases hlt : cur < slotEnd
  · have hgt : addMinutes cur d > slotEnd := by simp only [addMinutes]; omega
    simp only [if_pos hlt, if_pos hgt]
  · simp only [if_neg hlt]

theorem expandRule_short {env : Env} {hrUserId : Nat} {blocked : List Int} {d : Int}
    {r : AvailabilityRow} (h : r.shorterThan d) (fuel : Nat) (c : Int) (hfuel : 0 < fuel) :
    expandRule env hrUserId blocked d fuel c r = some [] := by
  obtain ⟨n, rfl⟩ : ∃ n, fuel = n + 1 := ⟨fuel - 1, by omega⟩
  unfold expandRule
  by_cases hskip : setHours env c r.start_time.hours r.start_time.minutes < env.now
  · simp only [if_pos hskip]
  · simp only [if_neg hskip]
    apply slotWalk_short
    simp only [AvailabilityRow.shorterThan] at h
    simp only [setHours]
    omega

theorem expandRules_short {env : Env} {hrUserId : Nat} {blocked : List Int} {d : Int}
    (fuel : Nat) (c : Int) (hfuel : 0 < fuel) :
    ∀ rules : List AvailabilityRow, (∀ r ∈ rules, r.shorterThan d) →
      expandRules env hrUserId blocked d fuel c rules = some [] := by
  intro rules
  induction rules with
  | nil => intro _; rfl
  | cons r rest ih =>
    intro h
    rw [expandRules, expandRule_short (h r (List.mem_cons_self _ _)) fuel c hfuel,
      ih (fun r2 hr2 => h r2 (List.mem_cons_of_mem _ hr2))]
    rfl

theorem dayLoop_short {env : Env} {hrUserId : Nat} {blocked : List Int} {d : Int}
    {availability : List AvailabilityRow} {endDate : Int}
    (h : ∀ r ∈ availability, r.shorterThan d) :
    ∀ (fuel : Nat) (c0 : Int), (endDate - c0 + 86400000).toNat / 86400000 < fuel →
      dayLoop env hrUserId blocked d availability endDate fuel c0 = some [] := by
  intro fuel
  induction fuel with
  | zero => intro c0 hf; omega
  | succ n ih =>
    intro c0 hf
    rw [dayLoop]
    by_cases hle : c0 ≤ endDate
    · have hn : (endDate - addDays c0 1 + 86400000).toNat / 86400000 < n := by
        simp only [addDays]; omega
      simp only [if_pos hle]
      rw [expandRules_short (n + 1) c0 (by omega) _
        (fun r hr => h r (List.mem_filter.1 hr).1), ih _ hn]
      rfl
    · simp only [if_neg hle]

/-- C16 (amended): on a machine whose zone has a fixed offset from UTC, a rule whose window is
shorter than the slot duration emits no slot on any day, and when every rule of the HR user is
such a rule (and the reads succeed) `generateAvailableSlots` returns the empty sequence, not an
error, as soon as the fuel covers the iterated days. -/
theorem generate_short_windows (env : Env) (st : Store) (hrUserId : Nat) (d w : Int) :
    (∀ r : AvailabilityRow, r.shorterThan d →
        ∀ (blocked : List Int) (fuel : Nat) (currentDate : Int), 0 < fuel →
          expandRuleIn (Zone.fixed env.utcOffsetMinutes) env hrUserId blocked d fuel
            currentDate r = some []) ∧
      (env.availabilityError = none → env.interviewsError = none →
        (∃ r ∈ st.hr_availability, r.hr_user_id = hrUserId) →
        (∀ r ∈ st.hr_availability, r.hr_user_id = hrUserId → r.shorterThan d) →
        ∀ fuel : Nat, (w * 7 + 1).toNat < fuel →
          generateAvailableSlotsIn fuel (Zone.fixed env.utcOffsetMinutes) env st hrUserId d w
            = (Outcome.ok [], afterReads env st hrUserId w)) := by
  refine ⟨fun r hr blocked fuel c hf => by
    rw [expandRuleIn_fixed]; exact expandRule_short hr fuel c hf, ?_⟩
  intro ha hi hex hall fuel hfuel
  rw [generate_fixed_zone]
  have hne : rulesFor st hrUserId ≠ [] := by
    intro hnil
    obtain ⟨r, hr, hrid⟩ := hex
    exact (rulesFor_eq_nil st hrUserId).1 hnil r hr hrid
  have hshort : ∀ r ∈ rulesFor st hrUserId, r.shorterThan d := fun r hr =>
    hall r (mem_rulesFor.1 hr).1 (mem_rulesFor.1 hr).2
  rw [generate_eq fuel env st hrUserId d w ha hi hne,
    dayLoop_short hshort fuel env.now (by simp only [horizonEnd, addDays]; omega)]
  rfl

/-- C16, as stated, fails across a change of the UTC offset: in New York on Sunday 2025-03-09
the window 01:00-02:30 (90 minutes) is shorter than a slot of 120 minutes, and the generator
still returns the slot 01:00: 120 wall-clock minutes after 01:00 the clock shows 03:00, which
is not after the instant `setHours(2, 30)` gives for the skipped 02:30. -/
theorem generate_spring_forward_short_window :
    (∀ r ∈ earlyWindowStore.hr_availability, r.shorterThan 120) ∧
      (generateAvailableSlotsIn 100 newYork (quietEnv sundayMidnight) earlyWindowStore 1 120 0).1
        = Outcome.ok [⟨sunday0600, 1⟩] ∧
      expandRuleIn newYork (quietEnv sundayMidnight) 1 [] 120 10 sundayMidnight
          { hr_user_id := 1, day_of_week := 0, start_time := ⟨1, 0⟩, end_time := ⟨2, 30⟩ }
        = some [⟨sunday0600, 1⟩] :=
  ⟨by decide, by rfl, by rfl⟩

theorem generate_short_windows_witness :
    generateAvailableSlotsIn 100 (Zone.fixed 0) (quietEnv monday0800) shortWindowStore 1 30 4
      = (Outcome.ok [], afterReads (quietEnv monday0800) shortWindowStore 1 4) :=
  (generate_short_windows (quietEnv monday0800) shortWindowStore 1 30 4).2 rfl rfl
    ⟨_, List.mem_cons_self _ _, rfl⟩ (by decide) 100 (by decide)

/-! ## The conflict filter as a filter -/

/-- The walk with a blocked set pushes what the walk without one pushes, minus the slots whose
minute is blocked. -/
theorem slotWalk_filter {hrUserId : Nat} (blocked : List Int) {d slotEnd : Int} :
    ∀ (fuel : Nat) (cur : Int),
      slotWalk hrUserId blocked d slotEnd fuel cur =
        (slotWalk hrUserId [] d slotEnd fuel cur).map (List.filter (notBlocked blocked)) := by
  intro fuel
  induction fuel with
  | zero => intro cur; rfl
  | succ n ih =>
    intro cur
    rw [slotWalk, slotWalk]
    by_cases hlt : cur < slotEnd
    · simp only [if_pos hlt]
      by_cases hgt : addMinutes cur d > slotEnd
      · simp only [if_pos hgt, Option.map_some', List.filter_nil]
      · simp only [if_neg hgt]
        rw [ih (addMinutes cur d)]
        cases hrec : slotWalk hrUserId [] d slotEnd n (addMinutes cur d) with
        | none => simp
        | some rest =>
          by_cases hb : timeKey cur ∈ blocked
          · simp [hb, notBlocked, List.filter_cons]
          · simp [hb, notBlocked, List.filter_cons]
    · simp only [if_neg hlt, Option.map_some', List.filter_nil]

theorem expandRules_filter {env : Env} {hrUserId : Nat} (blocked : List Int) {d : Int}
    {fuel : Nat} {c : Int} :
    ∀ rules : List AvailabilityRow,
      expandRules env hrUserId blocked d fuel c rules =
        (expandRules env hrUserId [] d fuel c rules).map (List.filter (notBlocked blocked)) := by
  intro rules
  induction rules with
  | nil => rfl
  | cons r rest ih =>
    have hrule : expandRule env hrUserId blocked d fuel c r =
        (expandRule env hrUserId [] d fuel c r).map (List.filter (notBlocked blocked)) := by
      unfold expandRule
      by_cases hskip : setHours env c r.start_time.hours r.start_time.minutes < env.now
      · simp only [if_pos hskip, Option.map_some', List.filter_nil]
      · simp only [if_neg hskip]
        exact slotWalk_filter blocked fuel _
    rw [expandRules, expandRules, hrule, ih]
    cases expandRule env hrUserId [] d fuel c r with
    | none => rfl
    | some here =>
      cases expandRules env hrUserId [] d fuel c rest with
      | none => rfl
      | some later => simp

theorem dayLoop_filter {env : Env} {hrUserId : Nat} (blocked : List Int) {d : Int}
    {availability : List AvailabilityRow} {endDate : Int} :
    ∀ (fuel : Nat) (c0 : Int),
      dayLoop env hrUserId blocked d availability endDate fuel c0 =
        (dayLoop env hrUserId [] d availability endDate fuel c0).map
          (List.filter (notBlocked blocked)) := by
  intro fuel
  induction fuel with
  | zero => intro c0; rfl
  | succ n ih =>
    intro c0
    rw [dayLoop, dayLoop]
    by_cases hle : c0 ≤ endDate
    · simp only [if_pos hle]
      rw [expandRules_filter blocked, ih]
      cases expandRules env hrUserId [] d (n + 1) c0
          (availability.filter (fun avail => avail.day_of_week == getDay env c0)) with
      | none => rfl
      | some today =>
        cases dayLoop env hrUserId [] d availability endDate n (addDays c0 1) with
        | none => rfl
        | some later => simp
    · simp only [if_neg hle, Option.map_some', List.filter_nil]

theorem orderedInsert_before_all (a : Slot) :
    ∀ l : List Slot, (∀ c ∈ l, slotOrder a c) → List.orderedInsert slotOrder a l = a :: l := by
  intro l h
  cases l with
  | nil => rfl
  | cons b rest => simp [List.orderedInsert, h b (List.mem_cons_self _ _)]

theorem filter_orderedInsert (p : Slot → Bool) (a : Slot) :
    ∀ l : List Slot, l.Pairwise slotOrder →
      (List.orderedInsert slotOrder a l).filter p =
        if p a then List.orderedInsert slotOrder a (l.filter p) else l.filter p := by
  intro l
  induction l with
  | nil => intro _; by_cases hp : p a = true <;> simp [hp]
  | cons b rest ih =>
    intro hs
    rw [List.pairwise_cons] at hs
    by_cases hab : slotOrder a b
    · have hall : ∀ c ∈ (b :: rest).filter p, slotOrder a c := by
        intro c hc
        rcases List.mem_cons.1 (List.mem_filter.1 hc).1 with rfl | hc
        · exact hab
        · exact le_trans hab (hs.1 c hc)
      rw [List.orderedInsert, if_pos hab, List.filter_cons]
      by_cases hp : p a = true
      · rw [if_pos hp, if_pos hp, orderedInsert_before_all a _ hall]
      · rw [if_neg hp, if_neg hp]
    · rw [List.orderedInsert, if_neg hab, List.filter_cons, ih hs.2]
      by_cases hp : p a = true
      · by_cases hb : p b = true
        · simp [hp, hb, List.filter_cons, List.orderedInsert, hab]
        · simp [hp, hb, List.filter_cons]
      · by_cases hb : p b = true
        · simp [hp, hb, List.filter_cons]
        · simp [hp, hb, List.filter_cons]

/-- Sorting commutes with dropping slots. -/
theorem sortSlots_filter (p : Slot → Bool) :
    ∀ l : List Slot, sortSlots (l.filter p) = (sortSlots l).filter p := by
  intro l
  induction l with
  | nil => rfl
  | cons a rest ih =>
    have hs : (List.insertionSort slotOrder rest).Pairwise slotOrder := sortSlots_sorted rest
    have ih2 : List.insertionSort slotOrder (rest.filter p)
        = (List.insertionSort slotOrder rest).filter p := ih
    show List.insertionSort slotOrder ((a :: rest).filter p)
      = (List.orderedInsert slotOrder a (List.insertionSort slotOrder rest)).filter p
    rw [filter_orderedInsert p a _ hs, List.filter_cons]
    by_cases hp : p a = true
    · rw [if_pos hp, if_pos hp, ← ih2]; rfl
    · rw [if_neg hp, if_neg hp]; exact ih2

theorem rulesFor_withoutInterviews (st : Store) (hrUserId : Nat) :
    rulesFor st.withoutInterviews hrUserId = rulesFor st hrUserId := rfl

theorem blockedFor_withoutInterviews (env : Env) (st : Store) (hrUserId : Nat) (w : Int) :
    blockedFor env st.withoutInterviews hrUserId w = [] := rfl

/-- The result for a store is the result for the same store without interviews, filtered by
the blocked set of the store. -/
theorem generate_filter (fuel : Nat) (env : Env) (st : Store) (hrUserId : Nat) (d w : Int) :
    (generateAvailableSlots fuel env st hrUserId d w).1 =
      ((generateAvailableSlots fuel env st.withoutInterviews hrUserId d w).1).map
        (List.filter (notBlocked (blockedFor env st hrUserId w))) := by
  cases ha : env.availabilityError with
  | some msg =>
    simp [generateAvailableSlots, getHRAvailability, ha, Outcome.map]
  | none =>
    by_cases hne : rulesFor st hrUserId = []
    · rw [generate_no_rules fuel env st hrUserId d w ha hne,
        generate_no_rules fuel env st.withoutInterviews hrUserId d w ha
          (by rw [rulesFor_withoutInterviews]; exact hne)]
      rfl
    · cases hi : env.interviewsError with
      | some msg =>
        have hlen : (rulesFor st hrUserId).length ≠ 0 := by
          rw [Ne, List.length_eq_zero]; exact hne
        simp only [rulesFor] at hlen
        simp only [generateAvailableSlots, getHRAvailability, getExistingInterviews, ha, hi,
          Store.withoutInterviews]
        rw [if_neg hlen, if_neg hlen]
        rfl
      | none =>
        rw [generate_eq fuel env st hrUserId d w ha hi hne,
          generate_eq fuel env st.withoutInterviews hrUserId d w ha hi
            (by rw [rulesFor_withoutInterviews]; exact hne),
          rulesFor_withoutInterviews, blockedFor_withoutInterviews,
          dayLoop_filter (blockedFor env st hrUserId w)]
        cases dayLoop env hrUserId [] d (rulesFor st hrUserId) (horizonEnd env w) fuel env.now with
        | none => rfl
        | some raw =>
          simp only [Option.map_some', Outcome.map]
          rw [sortSlots_filter]

/-- A minute is blocked exactly when an interview of the HR user inside the horizon falls in
it. -/
theorem mem_blockedFor_iff {env : Env} {st : Store} {hrUserId : Nat} {w : Int} {key : Int} :
    key ∈ blockedFor env st hrUserId w ↔
      ∃ iv ∈ st.interviews, iv.hr_user_id = hrUserId ∧
        ∃ t, iv.scheduled_at = some t ∧ env.now ≤ t ∧ t ≤ addDays env.now (w * 7) ∧
          timeKey t = key := by
  unfold blockedFor existingSlotKeys
  rw [List.mem_filterMap]
  constructor
  · rintro ⟨iv, hiv, hkey⟩
    rw [List.mem_filter] at hiv
    obtain ⟨hmem, hrange⟩ := hiv
    cases ht : iv.scheduled_at with
    | none => rw [ht] at hkey; simp at hkey
    | some t =>
      rw [ht] at hkey
      simp only [Option.map_some', Option.some.injEq] at hkey
      simp only [interviewInRange, ht, Bool.and_eq_true, beq_iff_eq, decide_eq_true_eq] at hrange
      exact ⟨iv, hmem, hrange.1, t, ht, hrange.2.1, hrange.2.2, hkey⟩
  · rintro ⟨iv, hmem, hhr, t, ht, h1, h2, hkey⟩
    refine ⟨iv, List.mem_filter.2 ⟨hmem, ?_⟩, by rw [ht]; simp [hkey]⟩
    simp [interviewInRange, hhr, ht, h1, h2, horizonEnd]

/-- C17: for every store, the result of `generateAvailableSlots` is the result computed for the
same store with no interviews, from which exactly the slots are removed whose minute-key is the
minute-key of an interview of the HR user read for the horizon; the remaining slots keep their
order (the result is a `filter` of the other). With Monday 09:00-10:00, 30-minute slots and an
interview at 09:00 that Monday, only 09:30 is offered for that Monday. -/
theorem generate_refines_unblocked (fuel : Nat) (env : Env) (st : Store) (hrUserId : Nat)
    (d w : Int) :
    (generateAvailableSlots fuel env st hrUserId d w).1 =
        ((generateAvailableSlots fuel env st.withoutInterviews hrUserId d w).1).map
          (List.filter (notBlocked (blockedFor env st hrUserId w))) ∧
      (∀ s : Slot, notBlocked (blockedFor env st hrUserId w) s = false ↔
        ∃ iv ∈ st.interviews, iv.hr_user_id = hrUserId ∧
          ∃ t, iv.scheduled_at = some t ∧ env.now ≤ t ∧ t ≤ addDays env.now (w * 7) ∧
            timeKey t = timeKey s.scheduled_at) ∧
      (generateAvailableSlots 100 (quietEnv monday0800) bookedStore.withoutInterviews 1 30 1).1
        = Outcome.ok [⟨monday0900, 1⟩, ⟨monday0930, 1⟩, ⟨nextMonday0900, 1⟩,
            ⟨nextMonday0930, 1⟩] ∧
      (generateAvailableSlots 100 (quietEnv monday0800) bookedStore 1 30 1).1
        = Outcome.ok [⟨monday0930, 1⟩, ⟨nextMonday0900, 1⟩, ⟨nextMonday0930, 1⟩] := by
  refine ⟨generate_filter fuel env st hrUserId d w, fun s => ?_, by rfl, by rfl⟩
  rw [← mem_blockedFor_iff]
  simp [notBlocked]

/-! ## Minute boundaries -/

theorem slotWalk_minute {hrUserId : Nat} {blocked : List Int} {d slotEnd : Int} :
    ∀ (fuel : Nat) (cur : Int) (out : List Slot), cur % 60000 = 0 →
      slotWalk hrUserId blocked d slotEnd fuel cur = some out →
      ∀ s ∈ out, s.scheduled_at % 60000 = 0 := by
  intro fuel
  induction fuel with
  | zero => intro cur out _ h; simp [slotWalk] at h
  | succ n ih =>
    intro cur out hcur h s hs
    rw [slotWalk] at h
    by_cases hlt : cur < slotEnd
    · rw [if_pos hlt] at h
      by_cases hgt : addMinutes cur d > slotEnd
      · simp only [if_pos hgt, Option.some.injEq] at h
        subst h; simp at hs
      · simp only [if_neg hgt] at h
        cases hrec : slotWalk hrUserId blocked d slotEnd n (addMinutes cur d) with
        | none => rw [hrec] at h; simp at h
        | some rest =>
          rw [hrec] at h
          have hnext : addMinutes cur d % 60000 = 0 := by simp only [addMinutes]; omega
          have hrest := ih (addMinutes cur d) rest hnext hrec
          by_cases hb : timeKey cur ∈ blocked
          · simp only [if_pos hb, Option.some.injEq] at h
            subst h; exact hrest s hs
          · simp only [if_neg hb, Option.some.injEq] at h
            subst h
            rcases List.mem_cons.1 hs with rfl | hs
            · exact hcur
            · exact hrest s hs
    · simp only [if_neg hlt, Option.some.injEq] at h
      subst h; simp at hs

theorem expandRules_minute {env : Env} {hrUserId : Nat} {blocked : List Int} {d : Int}
    {fuel : Nat} {c : Int} :
    ∀ (rules : List AvailabilityRow) (out : List Slot),
      expandRules env hrUserId blocked d fuel c rules = some out →
      ∀ s ∈ out, s.scheduled_at % 60000 = 0 := by
  intro rules
  induction rules with
  | nil => intro out h s hs; simp [expandRules] at h; subst h; simp at hs
  | cons r rest ih =>
    intro out h s hs
    rw [expandRules] at h
    cases h1 : expandRule env hrUserId blocked d fuel c r with
    | none => rw [h1] at h; simp at h
    | some here =>
      rw [h1] at h
      cases h2 : expandRules env hrUserId blocked d fuel c rest with
      | none => rw [h2] at h; simp at h
      | some later =>
        rw [h2] at h
        simp only [Option.some.injEq] at h
        subst h
        rcases List.mem_append.1 hs with hs | hs
        · unfold expandRule at h1
          by_cases hskip : setHours env c r.start_time.hours r.start_time.minutes < env.now
          · simp only [if_pos hskip, Option.some.injEq] at h1
            subst h1; simp at hs
          · simp only [if_neg hskip] at h1
            exact slotWalk_minute _ _ _ (by simp only [setHours]; omega) h1 s hs
        · exact ih later h2 s hs

theorem dayLoop_minute {env : Env} {hrUserId : Nat} {blocked : List Int} {d : Int}
    {availability : List AvailabilityRow} {endDate : Int} :
    ∀ (fuel : Nat) (c0 : Int) (out : List Slot),
      dayLoop env hrUserId blocked d availability endDate fuel c0 = some out →
      ∀ s ∈ out, s.scheduled_at % 60000 = 0 := by
  intro fuel
  induction fuel with
  | zero => intro c0 out h; simp [dayLoop] at h
  | succ n ih =>
    intro c0 out h s hs
    rw [dayLoop] at h
    by_cases hle : c0 ≤ endDate
    · simp only [if_pos hle] at h
      cases h1 : expandRules env hrUserId blocked d (n + 1) c0
          (availability.filter (fun avail => avail.day_of_week == getDay env c0)) with
      | none => rw [h1] at h; simp at h
      | some today =>
        rw [h1] at h
        cases h2 : dayLoop env hrUserId blocked d availability endDate n (addDays c0 1) with
        | none => rw [h2] at h; simp at h
        | some later =>
          rw [h2] at h
          simp only [Option.some.injEq] at h
          subst h
          rcases List.mem_append.1 hs with hs | hs
          · exact expandRules_minute _ _ h1 s hs
          · exact ih _ _ h2 s hs
    · simp only [if_neg hle, Option.some.injEq] at h
      subst h; simp at hs

/-- Every returned slot starts on an exact UTC minute. -/
theorem generate_minute {fuel : Nat} {env : Env} {st st1 : Store} {hrUserId : Nat}
    {d w : Int} {slots : List Slot}
    (h : generateAvailableSlots fuel env st hrUserId d w = (Outcome.ok slots, st1))
    {s : Slot} (hs : s ∈ slots) : s.scheduled_at % 60000 = 0 := by
  obtain ⟨_, _, _, _, raw, hraw, rfl⟩ := generate_ok h
  exact dayLoop_minute _ _ _ hraw s (mem_sortSlots.1 hs)

/-- C19: let `s` be a candidate slot (a slot returned when the store holds no interview). It
starts on an exact minute, and with the interviews of the store it is dropped exactly when some
interview of the HR user inside the horizon, at an instant `t`, has `t` truncated to the minute
equal to the start of `s`; an instant `SS` seconds and `mmm` milliseconds into the minute of `s`
has the key of `s`. -/
theorem interview_blocks_same_minute (fuel : Nat) (env : Env) (st st0 : Store)
    (hrUserId : Nat) (d w : Int) (candidates : List Slot)
    (hgen : generateAvailableSlots fuel env st.withoutInterviews hrUserId d w
      = (Outcome.ok candidates, st0))
    (s : Slot) (hs : s ∈ candidates) :
    s.scheduled_at % 60000 = 0 ∧
      (∃ slots, (generateAvailableSlots fuel env st hrUserId d w).1 = Outcome.ok slots ∧
        (s ∉ slots ↔
          ∃ iv ∈ st.interviews, iv.hr_user_id = hrUserId ∧
            ∃ t, iv.scheduled_at = some t ∧ env.now ≤ t ∧ t ≤ addDays env.now (w * 7) ∧
              t / 60000 * 60000 = s.scheduled_at)) ∧
      (∀ sec ms : Int, 0 ≤ sec → sec < 60 → 0 ≤ ms → ms < 1000 →
        timeKey (s.scheduled_at + sec * 1000 + ms) = timeKey s.scheduled_at ∧
        (s.scheduled_at + sec * 1000 + ms) / 60000 * 60000 = s.scheduled_at) := by
  have hmin := generate_minute hgen hs
  refine ⟨hmin, ?_, fun sec ms h1 h2 h3 h4 => ?_⟩
  · refine ⟨candidates.filter (notBlocked (blockedFor env st hrUserId w)), ?_, ?_⟩
    · rw [generate_filter, hgen]; rfl
    · rw [List.mem_filter]
      simp only [hs, true_and, notBlocked, decide_eq_true_eq, not_not]
      rw [mem_blockedFor_iff]
      constructor
      · rintro ⟨iv, hiv, hhr, t, ht, h1, h2, hkey⟩
        refine ⟨iv, hiv, hhr, t, ht, h1, h2, ?_⟩
        simp only [timeKey] at hkey
        omega
      · rintro ⟨iv, hiv, hhr, t, ht, h1, h2, hkey⟩
        refine ⟨iv, hiv, hhr, t, ht, h1, h2, ?_⟩
        simp only [timeKey]
        omega
  · simp only [timeKey]
    constructor <;> omega

theorem interview_blocks_same_minute_witness :
    (∃ slots, (generateAvailableSlots 100 (quietEnv monday0800) bookedStore 1 30 1).1
        = Outcome.ok slots ∧
      ((⟨monday0900, 1⟩ : Slot) ∉ slots ↔
        ∃ iv ∈ bookedStore.interviews, iv.hr_user_id = 1 ∧
          ∃ t, iv.scheduled_at = some t ∧ (quietEnv monday0800).now ≤ t ∧
            t ≤ addDays (quietEnv monday0800).now (1 * 7) ∧
            t / 60000 * 60000 = monday0900)) ∧
      timeKey (monday0900 + 20 * 1000 + 500) = timeKey monday0900 :=
  have h := interview_blocks_same_minute 100 (quietEnv monday0800) bookedStore
    (afterReads (quietEnv monday0800) bookedStore.withoutInterviews 1 1) 1 30 1
    [⟨monday0900, 1⟩, ⟨monday0930, 1⟩, ⟨nextMonday0900, 1⟩, ⟨nextMonday0930, 1⟩]
    (by rfl) ⟨monday0900, 1⟩ (by decide)
  ⟨h.2.1, (h.2.2 20 500 (by decide) (by decide) (by decide) (by decide)).1⟩

/-! ## The handler -/

/-- The handler answers an error thrown by the service with status 500. -/
theorem handler_of_error {fuel : Nat} {env : Env} {st st1 : Store} {hrUserId : Nat}
    {ids : List Nat} {e : ServiceError} (hne : ids ≠ [])
    (h : assignInterviewSlots fuel env st hrUserId (some ids) = (Outcome.error e, st1)) :
    generateInterviewSlots fuel env st hrUserId (ApplicantIdsField.array ids) =
      (some { status := 500, success := false,
              error := some "Failed to generate interview slots",
              details := some e.message, message := none, data := none }, st1) := by
  have hlen : ids.length ≠ 0 := by rw [Ne, List.length_eq_zero]; exact hne
  simp only [generateInterviewSlots, if_neg hlen, h]

/-- C20 (amended): the handler answers an absent, non-array or empty `applicant_ids` with
status 400 and `success = false` without touching the store, and a call that creates zero
interviews with status 400 and `success = false` as well. Every error thrown by
`assignInterviewSlots` is answered with status 500, `success = false`,
`error = 'Failed to generate interview slots'` and the message of the error as `details`, and
so are the two validation failures of the service: no availability configured, and fewer open
slots than requested applicants. -/
theorem handler_statuses (fuel : Nat) (env : Env) (st : Store) (hrUserId : Nat) :
    (∀ field : ApplicantIdsField,
        field = ApplicantIdsField.missing ∨ field = ApplicantIdsField.notArray ∨
          field = ApplicantIdsField.array [] →
        generateInterviewSlots fuel env st hrUserId field =
          (some { status := 400, success := false,
                  error := some "applicant_ids array is required and must not be empty",
                  details := none, message := none, data := none }, st)) ∧
      (∀ (ids : List Nat) (st1 : Store), ids ≠ [] →
        assignInterviewSlots fuel env st hrUserId (some ids) = (Outcome.ok [], st1) →
        generateInterviewSlots fuel env st hrUserId (ApplicantIdsField.array ids) =
          (some { status := 400, success := false,
                  error := some
                    "No interviews were created. Check if applicants exist and belong to you.",
                  details := none, message := none, data := none }, st1)) ∧
      (∀ (ids : List Nat) (e : ServiceError) (st1 : Store), ids ≠ [] →
        assignInterviewSlots fuel env st hrUserId (some ids) = (Outcome.error e, st1) →
        generateInterviewSlots fuel env st hrUserId (ApplicantIdsField.array ids) =
          (some { status := 500, success := false,
                  error := some "Failed to generate interview slots",
                  details := some e.message, message := none, data := none }, st1)) ∧
      (∀ ids : List Nat, ids ≠ [] → env.availabilityError = none →
        (∀ r ∈ st.hr_availability, r.hr_user_id ≠ hrUserId) →
        ∃ st1, generateInterviewSlots fuel env st hrUserId (ApplicantIdsField.array ids) =
          (some { status := 500, success := false,
                  error := some "Failed to generate interview slots",
                  details := some ServiceError.noAvailability.message,
                  message := none, data := none }, st1)) ∧
      (∀ (ids : List Nat) (slots : List Slot) (st1 : Store), ids ≠ [] →
        generateAvailableSlots fuel env st hrUserId defaultSlotDurationMinutes defaultWeeksAhead
          = (Outcome.ok slots, st1) →
        slots.length < ids.length →
        generateInterviewSlots fuel env st hrUserId (ApplicantIdsField.array ids) =
          (some { status := 500, success := false,
                  error := some "Failed to generate interview slots",
                  details :=
                    some (ServiceError.notEnoughSlots slots.length ids.length).message,
                  message := none, data := none }, st1)) := by
  refine ⟨?_, ?_, ?_, ?_, ?_⟩
  · rintro field (rfl | rfl | rfl) <;> rfl
  · intro ids st1 hne h
    have hlen : ids.length ≠ 0 := by rw [Ne, List.length_eq_zero]; exact hne
    simp only [generateInterviewSlots, if_neg hlen, h, List.length_nil, if_true]
  · intro ids e st1 hne h
    exact handler_of_error hne h
  · intro ids hne ha hnone
    have hlen : ids.length ≠ 0 := by rw [Ne, List.length_eq_zero]; exact hne
    have hassign : assignInterviewSlots fuel env st hrUserId (some ids) =
        (Outcome.error ServiceError.noAvailability,
          { st with requests := st.requests ++ [Request.selectAvailability hrUserId] }) := by
      simp only [assignInterviewSlots, if_neg hlen,
        generate_no_rules fuel env st hrUserId _ _ ha ((rulesFor_eq_nil st hrUserId).2 hnone)]
    exact ⟨_, handler_of_error hne hassign⟩
  · intro ids slots st1 hne hgen hlt
    have hlen : ids.length ≠ 0 := by rw [Ne, List.length_eq_zero]; exact hne
    have hassign : assignInterviewSlots fuel env st hrUserId (some ids) =
        (Outcome.error (ServiceError.notEnoughSlots slots.length ids.length), st1) := by
      simp only [assignInterviewSlots, if_neg hlen, hgen, if_pos hlt]
    exact handler_of_error hne hassign

/-- C20, as stated, fails for two of the three validation failures: with no availability rule,
and with fewer open slots than applicants, the handler answers 500, not 400. -/
theorem handler_validation_failures_get_500 :
    (assignInterviewSlots 100 (quietEnv monday0800) noRuleStore 1 (some [11])).1
        = Outcome.error ServiceError.noAvailability ∧
      (generateInterviewSlots 100 (quietEnv monday0800) noRuleStore 1
        (ApplicantIdsField.array [11])).1.map (fun resp => (resp.status, resp.success))
        = some (500, false) ∧
      (assignInterviewSlots 100 (quietEnv monday0800) shortWindowStore 1 (some [11])).1
        = Outcome.error (ServiceError.notEnoughSlots 0 1) ∧
      (generateInterviewSlots 100 (quietEnv monday0800) shortWindowStore 1
        (ApplicantIdsField.array [11])).1.map (fun resp => (resp.status, resp.success))
        = some (500, false) :=
  ⟨by rfl, by rfl, by rfl, by rfl⟩

theorem handler_statuses_witness :
    ∃ st1, generateInterviewSlots 100 (quietEnv monday0800) noRuleStore 1
        (ApplicantIdsField.array [11]) =
      (some { status := 500, success := false,
              error := some "Failed to generate interview slots",
              details := some ServiceError.noAvailability.message,
              message := none, data := none }, st1) :=
  (handler_statuses 100 (quietEnv monday0800) noRuleStore 1).2.2.2.1 [11] (by decide) rfl
    (by decide)

/-! ## The handler on a returned list -/

theorem assignLoop_length {env : Env} {hrUserId : Nat} {slots : List Slot} :
    ∀ (ids : List Nat) (i : Nat) (created : List InterviewRow) (st st2 : Store)
      (res : List InterviewRow),
      assignLoop env hrUserId slots i ids created st = (Except.ok res, st2) →
      res.length ≤ created.length + ids.length := by
  intro ids i created st st2 res h
  obtain ⟨_, _, news, h1, _, h3, h4⟩ := assignLoop_spec ids i created st st2 res h
  have hlen : ∀ (l : List Nat) (lo n : Nat), l.Pairwise (fun a b => a < b) →
      (∀ x ∈ l, lo ≤ x ∧ x < lo + n) → l.length ≤ n := by
    intro l
    induction l with
    | nil => intro lo n _ _; simp
    | cons x xs ih =>
      intro lo n hp hb
      rw [List.pairwise_cons] at hp
      have hx := hb x (List.mem_cons_self _ _)
      have := ih (x + 1) (lo + n - (x + 1)) hp.2 (fun y hy => by
        have h1 := hp.1 y hy
        have h2 := hb y (List.mem_cons_of_mem _ hy)
        omega)
      simp only [List.length_cons]
      omega
  have hbound := hlen (news.map Prod.fst) i ids.length h3 (fun x hx => by
    obtain ⟨p, hp, rfl⟩ := List.mem_map.1 hx
    obtain ⟨q1, q2, _⟩ := h4 p hp
    have := (List.getElem?_eq_some_iff.1 q2).1
    omega)
  rw [h1]
  simp only [List.length_append, List.length_map] at hbound ⊢
  omega

/-- A list returned by `assignInterviewSlots` comes out of the allocator loop, after a
successful generation and the capacity precheck. -/
theorem assign_ok_inv {fuel : Nat} {env : Env} {st st2 : Store} {hrUserId : Nat}
    {ids : List Nat} {created : List InterviewRow}
    (h : assignInterviewSlots fuel env st hrUserId (some ids) = (Outcome.ok created, st2)) :
    ids ≠ [] ∧ ∃ slots st1,
      generateAvailableSlots fuel env st hrUserId defaultSlotDurationMinutes defaultWeeksAhead
        = (Outcome.ok slots, st1) ∧
      ids.length ≤ slots.length ∧
      assignLoop env hrUserId slots 0 ids [] st1 = (Except.ok created, st2) := by
  by_cases hlen : ids.length = 0
  · simp [assignInterviewSlots, hlen] at h
  · refine ⟨fun hnil => hlen (by rw [hnil]; rfl), ?_⟩
    simp only [assignInterviewSlots, if_neg hlen] at h
    rcases hgen : generateAvailableSlots fuel env st hrUserId defaultSlotDurationMinutes
        defaultWeeksAhead with ⟨_ | e | _, st1⟩
    · rename_i slots
      rw [hgen] at h
      simp only at h
      by_cases hlt : slots.length < ids.length
      · simp [if_pos hlt] at h
      · simp only [if_neg hlt] at h
        rcases hloop : assignLoop env hrUserId slots 0 ids [] st1 with ⟨e2 | res, st3⟩
        · rw [hloop] at h; simp at h
        · rw [hloop] at h
          simp only [Prod.mk.injEq, Outcome.ok.injEq] at h
          obtain ⟨rfl, rfl⟩ := h
          exact ⟨slots, st1, rfl, by omega, hloop⟩
    · rw [hgen] at h; simp at h
    · rw [hgen] at h; simp at h

/-- C21: when `assignInterviewSlots` returns a list `L` to the handler, an empty `L` is
answered with status 400 and `success = false`; a non-empty `L` with status 200,
`success = true`, `data.created = L.length`, `data.requested = applicant_ids.length`,
`data.interviews = L`, and `1 <= data.created <= data.requested`. -/
theorem handler_on_list (fuel : Nat) (env : Env) (st st1 : Store) (hrUserId : Nat)
    (ids : List Nat) (L : List InterviewRow)
    (h : assignInterviewSlots fuel env st hrUserId (some ids) = (Outcome.ok L, st1)) :
    ∃ resp, generateInterviewSlots fuel env st hrUserId (ApplicantIdsField.array ids)
        = (some resp, st1) ∧
      (L = [] → resp.status = 400 ∧ resp.success = false ∧ resp.data = none) ∧
      (L ≠ [] → resp.status = 200 ∧ resp.success = true ∧
        resp.data = some { created := L.length, requested := ids.length, interviews := L } ∧
        1 ≤ L.length ∧ L.length ≤ ids.length) := by
  obtain ⟨hne, slots, st0, _, _, hloop⟩ := assign_ok_inv h
  have hlen : ids.length ≠ 0 := by rw [Ne, List.length_eq_zero]; exact hne
  have hle := assignLoop_length _ _ _ _ _ _ hloop
  simp only [List.length_nil, zero_add] at hle
  by_cases hL : L.length = 0
  · refine ⟨{ status := 400, success := false,
              error := some
                "No interviews were created. Check if applicants exist and belong to you.",
              details := none, message := none, data := none },
      by simp only [generateInterviewSlots, if_neg hlen, h, if_pos hL], ?_, ?_⟩
    · intro _; exact ⟨rfl, rfl, rfl⟩
    · intro hne2; exact absurd (List.length_eq_zero.1 hL) hne2
  · refine ⟨{ status := 200, success := true, error := none, details := none,
              message := some ("Successfully generated " ++ toString L.length
                ++ " interview slots"),
              data := some { created := L.length, requested := ids.length,
                             interviews := L } },
      by simp only [generateInterviewSlots, if_neg hlen, h, if_neg hL], ?_, ?_⟩
    · intro hnil; rw [hnil] at hL; exact absurd rfl hL
    · intro _; exact ⟨rfl, rfl, rfl, by omega, hle⟩

theorem handler_on_list_witness :
    ∃ resp, generateInterviewSlots 100 (quietEnv monday0800) demoStore 1
        (ApplicantIdsField.array [11, 13]) = (some resp, (assignInterviewSlots 100
          (quietEnv monday0800) demoStore 1 (some [11, 13])).2) ∧
      resp.status = 200 ∧ resp.success = true ∧
      resp.data.map (fun data => (data.created, data.requested)) = some (1, 2) := by
  obtain ⟨resp, h1, _, h2⟩ := handler_on_list 100 (quietEnv monday0800) demoStore
    (assignInterviewSlots 100 (quietEnv monday0800) demoStore 1 (some [11, 13])).2 1 [11, 13]
    [{ id := 100, applicant_id := 11, hr_user_id := 1, scheduled_at := some monday0900,
       reminder_sent := false }] (by rfl)
  obtain ⟨h3, h4, h5, _⟩ := h2 (by decide)
  exact ⟨resp, h1, h3, h4, by rw [h5]; rfl⟩

/-! ## The allocator loop against the specification -/

/-- The loop of the source computes the allocation the specification describes, leaves its
rows in the store, and issues exactly the requests of the pairings, index after index. -/
theorem assignLoop_refines {env : Env} {hrUserId : Nat} {slots : List Slot} :
    ∀ (ids : List Nat) (i : Nat) (created : List InterviewRow) (st : Store),
      i + ids.length ≤ slots.length →
      assignLoop env hrUserId slots i ids created st =
        (Except.ok (created ++ allocateByPairs env st.applicants hrUserId st.interviews
            st.next_id (ids.zip (slots.drop i))),
          { st with
            interviews := st.interviews ++ allocateByPairs env st.applicants hrUserId
              st.interviews st.next_id (ids.zip (slots.drop i)),
            next_id := st.next_id + (allocateByPairs env st.applicants hrUserId
              st.interviews st.next_id (ids.zip (slots.drop i))).length,
            requests := st.requests ++
              requestsOfPairs env st.applicants hrUserId (ids.zip (slots.drop i)) }) := by
  intro ids
  induction ids with
  | nil =>
    intro i created st _
    simp [assignLoop, allocateByPairs, requestsOfPairs]
  | cons a rest ih =>
    intro i created st hcap
    simp only [List.length_cons] at hcap
    have hi : i < slots.length := by omega
    rw [List.drop_eq_getElem_cons hi, List.zip_cons_cons, assignLoop]
    have hstore := selectApplicant_store env st a hrUserId
    have hsome := selectApplicant_isSome env st a hrUserId
    rcases hsel : selectApplicant env st a hrUserId with ⟨_ | arow, st1⟩
    · rw [hsel] at hstore hsome
      simp only [Option.isSome_none] at hsome
      simp only at hstore
      subst hstore
      simp only
      rw [ih (i + 1) created _ (by omega)]
      simp [allocateByPairs, requestsOfPairs, requestsOfPair, ← hsome]
    · rw [hsel] at hstore hsome
      simp only [Option.isSome_some] at hsome
      simp only at hstore
      subst hstore
      simp only [List.getElem?_eq_getElem hi]
      cases hins : env.insertError st.interviews
          { applicant_id := a, hr_user_id := hrUserId, scheduled_at := slots[i].scheduled_at,
            reminder_sent := false } with
      | true =>
        simp only [insertInterview, hins, if_true]
        rw [ih (i + 1) created _ (by omega)]
        simp [allocateByPairs, requestsOfPairs, requestsOfPair, payloadFor, ← hsome, hins]
      | false =>
        simp only [insertInterview, hins, Bool.false_eq_true, if_false]
        rw [ih (i + 1) _ _ (by omega)]
        simp [allocateByPairs, requestsOfPairs, requestsOfPair, payloadFor, ← hsome, hins,
          Nat.add_assoc, Nat.add_comm 1]

/-- C22: past the capacity precheck, `assignInterviewSlots` returns the allocation of the
specification over the positional pairings: in input order, one row for exactly the indices at
which the applicant validates and the insert succeeds. These rows are appended to the
`interviews` table and stay there. The requests issued after the two reads are those of the
pairings, index after index: each index causes its lookup, and its insert (with the slot of its
own index) when its applicant validates, whatever happens at the other indices and whichever
inserts fail. -/
theorem assign_refines_allocation (fuel : Nat) (env : Env) (st st1 : Store) (hrUserId : Nat)
    (ids : List Nat) (slots : List Slot) (hne : ids ≠ [])
    (hgen : generateAvailableSlots fuel env st hrUserId defaultSlotDurationMinutes
      defaultWeeksAhead = (Outcome.ok slots, st1))
    (hcap : ids.length ≤ slots.length) :
    ∃ st2,
      assignInterviewSlots fuel env st hrUserId (some ids) =
        (Outcome.ok (allocateByPairs env st.applicants hrUserId st.interviews st.next_id
          (ids.zip slots)), st2) ∧
      st2.interviews = st.interviews ++
        allocateByPairs env st.applicants hrUserId st.interviews st.next_id (ids.zip slots) ∧
      st2.requests = (afterReads env st hrUserId defaultWeeksAhead).requests ++
        (ids.zip slots).flatMap (requestsOfPair env st.applicants hrUserId) ∧
      (∀ env2 : Env, env2.applicantError = env.applicantError →
        (ids.zip slots).flatMap (requestsOfPair env2 st.applicants hrUserId) =
          (ids.zip slots).flatMap (requestsOfPair env st.applicants hrUserId)) := by
  have hst1 := (generate_ok hgen).2.2.2.1
  subst hst1
  have hloop := @assignLoop_refines env hrUserId slots ids 0 []
    (afterReads env st hrUserId defaultWeeksAhead) (by omega)
  simp only [List.nil_append, List.drop_zero] at hloop
  refine ⟨_, assign_of_loop hne hgen hcap hloop, rfl, rfl, ?_⟩
  · intro env2 h2
    have : requestsOfPair env2 st.applicants hrUserId
        = requestsOfPair env st.applicants hrUserId := by
      funext pair
      simp only [requestsOfPair, validApplicant, h2]
    rw [this]

theorem assign_refines_allocation_witness :
    (assignInterviewSlots 100 (flakyEnv monday0800) demoStore 1 (some [11, 13, 12])).1 =
      Outcome.ok [{ id := 100, applicant_id := 12, hr_user_id := 1,
                    scheduled_at := some nextMonday0900, reminder_sent := false }] := by
  obtain ⟨st2, h, _⟩ := assign_refines_allocation 100 (flakyEnv monday0800) demoStore
    (afterReads (flakyEnv monday0800) demoStore 1 defaultWeeksAhead) 1 [11, 13, 12]
    ((List.range 5).flatMap (fun k =>
      [⟨monday0900 + k * 604800000, 1⟩, ⟨monday0930 + k * 604800000, 1⟩]))
    (by decide) (by rfl) (by decide)
  rw [h]
  rfl

/-! ## The score check -/

/-- C25, on the failing input: the response `{"score": 0, "matches": [], "verdict": "reject"}`
holds a score in the requested range 0-100 and a verdict, with no field missing, and
`scoreApplicant` throws `Invalid AI response format. Missing score or verdict.`; the same
response with any score other than 0 is returned. -/
theorem scoreApplicant_rejects_zero_score :
    AIService.scoreApplicant "resume" "requirements"
        { score := some (JsonValue.number 0), matches_ := some JsonValue.other,
          verdict := some (JsonValue.string "reject") }
      = Except.error "Invalid AI response format. Missing score or verdict." ∧
    (∀ x : ℚ, x ≠ 0 →
      AIService.scoreApplicant "resume" "requirements"
          { score := some (JsonValue.number x), matches_ := some JsonValue.other,
            verdict := some (JsonValue.string "reject") }
        = Except.ok { score := some (JsonValue.number x), matches_ := some JsonValue.other,
                      verdict := some (JsonValue.string "reject") }) := by
  have h1 : ¬ ("resume" = "" ∨ "requirements" = "") := by decide
  have h2 : JsonValue.truthy (some (JsonValue.string "reject")) = true := by decide
  constructor
  · have h0 : JsonValue.truthy (some (JsonValue.number 0)) = false := by decide
    simp only [AIService.scoreApplicant, if_neg h1, h0, h2]
    rfl
  · intro x hx
    have h3 : JsonValue.truthy (some (JsonValue.number x)) = true := by
      simp [JsonValue.truthy, hx]
    simp only [AIService.scoreApplicant, if_neg h1, h2, h3]
    rfl

/-! ## More fuel changes nothing -/

theorem slotWalk_mono {hrUserId : Nat} {blocked : List Int} {d slotEnd : Int} :
    ∀ (fuel fuel2 : Nat) (cur : Int) (out : List Slot), fuel ≤ fuel2 →
      slotWalk hrUserId blocked d slotEnd fuel cur = some out →
      slotWalk hrUserId blocked d slotEnd fuel2 cur = some out := by
  intro fuel
  induction fuel with
  | zero => intro fuel2 cur out _ h; simp [slotWalk] at h
  | succ n ih =>
    intro fuel2 cur out hle h
    obtain ⟨m, rfl⟩ : ∃ m, fuel2 = m + 1 := ⟨fuel2 - 1, by omega⟩
    rw [slotWalk] at h ⊢
    by_cases hlt : cur < slotEnd
    · rw [if_pos hlt] at h ⊢
      by_cases hgt : addMinutes cur d > slotEnd
      · simp only [if_pos hgt] at h ⊢; exact h
      · simp only [if_neg hgt] at h ⊢
        cases hrec : slotWalk hrUserId blocked d slotEnd n (addMinutes cur d) with
        | none => rw [hrec] at h; simp at h
        | some rest =>
          rw [hrec] at h
          rw [ih m (addMinutes cur d) rest (by omega) hrec]
          exact h
    · rw [if_neg hlt] at h ⊢; exact h

theorem expandRules_mono {env : Env} {hrUserId : Nat} {blocked : List Int} {d : Int}
    {fuel fuel2 : Nat} {c : Int} (hle : fuel ≤ fuel2) :
    ∀ (rules : List AvailabilityRow) (out : List Slot),
      expandRules env hrUserId blocked d fuel c rules = some out →
      expandRules env hrUserId blocked d fuel2 c rules = some out := by
  intro rules
  induction rules with
  | nil => intro out h; simpa [expandRules] using h
  | cons r rest ih =>
    intro out h
    rw [expandRules] at h ⊢
    cases h1 : expandRule env hrUserId blocked d fuel c r with
    | none => rw [h1] at h; simp at h
    | some here =>
      rw [h1] at h
      cases h2 : expandRules env hrUserId blocked d fuel c rest with
      | none => rw [h2] at h; simp at h
      | some later =>
        rw [h2] at h
        have hrule : expandRule env hrUserId blocked d fuel2 c r = some here := by
          unfold expandRule at h1 ⊢
          by_cases hskip : setHours env c r.start_time.hours r.start_time.minutes < env.now
          · simp only [if_pos hskip] at h1 ⊢; exact h1
          · simp only [if_neg hskip] at h1 ⊢
            exact slotWalk_mono _ _ _ _ hle h1
        rw [hrule, ih later h2]
        exact h

theorem dayLoop_mono {env : Env} {hrUserId : Nat} {blocked : List Int} {d : Int}
    {availability : List AvailabilityRow} {endDate : Int} :
    ∀ (fuel fuel2 : Nat) (c0 : Int) (out : List Slot), fuel ≤ fuel2 →
      dayLoop env hrUserId blocked d availability endDate fuel c0 = some out →
      dayLoop env hrUserId blocked d availability endDate fuel2 c0 = some out := by
  intro fuel
  induction fuel with
  | zero => intro fuel2 c0 out _ h; simp [dayLoop] at h
  | succ n ih =>
    intro fuel2 c0 out hle h
    obtain ⟨m, rfl⟩ : ∃ m, fuel2 = m + 1 := ⟨fuel2 - 1, by omega⟩
    rw [dayLoop] at h ⊢
    by_cases hc : c0 ≤ endDate
    · simp only [if_pos hc] at h ⊢
      cases h1 : expandRules env hrUserId blocked d (n + 1) c0
          (availability.filter (fun avail => avail.day_of_week == getDay env c0)) with
      | none => rw [h1] at h; simp at h
      | some today =>
        rw [h1] at h
        cases h2 : dayLoop env hrUserId blocked d availability endDate n (addDays c0 1) with
        | none => rw [h2] at h; simp at h
        | some later =>
          rw [h2] at h
          rw [expandRules_mono hle _ _ h1, ih m _ _ (by omega) h2]
          exact h
    · simp only [if_neg hc] at h ⊢; exact h

/-- Once the generator answers (a list or an error), it gives the same answer with more
fuel. -/
theorem generate_mono {fuel fuel2 : Nat} {env : Env} {st : Store} {hrUserId : Nat} {d w : Int}
    (hle : fuel ≤ fuel2)
    (h : (generateAvailableSlots fuel env st hrUserId d w).1 ≠ Outcome.outOfFuel) :
    generateAvailableSlots fuel2 env st hrUserId d w
      = generateAvailableSlots fuel env st hrUserId d w := by
  cases ha : env.availabilityError with
  | some msg => simp [generateAvailableSlots, getHRAvailability, ha]
  | none =>
    by_cases hne : rulesFor st hrUserId = []
    · rw [generate_no_rules fuel env st hrUserId d w ha hne,
        generate_no_rules fuel2 env st hrUserId d w ha hne]
    · cases hi : env.interviewsError with
      | some msg =>
        simp [generateAvailableSlots, getHRAvailability, getExistingInterviews, ha, hi]
      | none =>
        rw [generate_eq fuel env st hrUserId d w ha hi hne] at h ⊢
        rw [generate_eq fuel2 env st hrUserId d w ha hi hne]
        cases hd : dayLoop env hrUserId (blockedFor env st hrUserId w) d (rulesFor st hrUserId)
            (horizonEnd env w) fuel env.now with
        | none => rw [hd] at h; simp at h
        | some raw => rw [dayLoop_mono _ _ _ _ hle hd]

/-- C26: for a slot duration of at least 1, `generateAvailableSlots` terminates: with
`enoughFuel` (a bound for the iterated days plus the width of the rule windows) or more it
answers with a list or an error, and the answer does not depend on the fuel. Each step of the
walk moves `currentSlotStart` strictly forward and strictly closer to `slotEnd`. The
precondition is needed: with a duration of 0 a walk that enters its window never ends. -/
theorem generate_terminates (env : Env) (st : Store) (hrUserId : Nat) (d w : Int)
    (hd : 1 ≤ d) :
    (∀ fuel, enoughFuel st hrUserId w ≤ fuel →
        (generateAvailableSlots fuel env st hrUserId d w).1 ≠ Outcome.outOfFuel ∧
        generateAvailableSlots fuel env st hrUserId d w
          = generateAvailableSlots (enoughFuel st hrUserId w) env st hrUserId d w) ∧
      (∀ cur slotEnd : Int, cur < addMinutes cur d ∧
        slotEnd - addMinutes cur d < slotEnd - cur) ∧
      (∀ (blocked : List Int) (cur slotEnd : Int) (fuel : Nat), cur < slotEnd →
        slotWalk hrUserId blocked 0 slotEnd fuel cur = none) := by
  have hbase : (generateAvailableSlots (enoughFuel st hrUserId w) env st hrUserId d w).1
      ≠ Outcome.outOfFuel := by
    cases ha : env.availabilityError with
    | some msg => simp [generateAvailableSlots, getHRAvailability, ha]
    | none =>
      by_cases hne : rulesFor st hrUserId = []
      · rw [generate_no_rules _ env st hrUserId d w ha hne]; simp
      · cases hi : env.interviewsError with
        | some msg =>
          have hlen : (rulesFor st hrUserId).length ≠ 0 := by
            rw [Ne, List.length_eq_zero]; exact hne
          simp only [rulesFor] at hlen
          simp only [generateAvailableSlots, getHRAvailability, getExistingInterviews, ha, hi]
          rw [if_neg hlen]
          simp
        | none =>
          obtain ⟨slots, hs⟩ := generate_total env st hrUserId d w ha hi hne (by omega)
            (enoughFuel st hrUserId w) (le_refl _)
          rw [hs]; simp
  refine ⟨fun fuel hf => ?_, fun cur slotEnd => ?_, fun blocked cur slotEnd fuel h => ?_⟩
  · have := generate_mono hf hbase
    exact ⟨by rw [this]; exact hbase, this⟩
  · simp only [addMinutes]; omega
  · exact slotWalk_zero_duration h fuel

theorem generate_terminates_witness :
    (generateAvailableSlots (enoughFuel demoStore 1 4) (quietEnv monday0800) demoStore 1 30 4).1
      ≠ Outcome.outOfFuel :=
  ((generate_terminates (quietEnv monday0800) demoStore 1 30 4 (by decide)).1
    (enoughFuel demoStore 1 4) (le_refl _)).1

/-- C28: every returned slot starts on an exact minute boundary (no seconds, no
milliseconds, in UTC and in local time), whatever the integer duration; its minute-key gives
its `scheduled_at` back, and two returned slots with equal minute-keys have equal
`scheduled_at`. -/
theorem generate_slots_on_minute (fuel : Nat) (env : Env) (st st1 : Store) (hrUserId : Nat)
    (d w : Int) (slots : List Slot)
    (hgen : generateAvailableSlots fuel env st hrUserId d w = (Outcome.ok slots, st1)) :
    (∀ s ∈ slots, s.scheduled_at % 60000 = 0 ∧ localMs env s.scheduled_at % 60000 = 0 ∧
        timeKey s.scheduled_at * 60000 = s.scheduled_at) ∧
      (∀ a ∈ slots, ∀ b ∈ slots, timeKey a.scheduled_at = timeKey b.scheduled_at →
        a.scheduled_at = b.scheduled_at) := by
  constructor
  · intro s hs
    have h := generate_minute hgen hs
    simp only [localMs, timeKey]
    omega
  · intro a ha b hb hkey
    have h1 := generate_minute hgen ha
    have h2 := generate_minute hgen hb
    simp only [timeKey] at hkey
    omega

theorem generate_slots_on_minute_witness :
    generateAvailableSlots 100 (quietEnv monday0800) demoStore 1 30 0 =
        (Outcome.ok [⟨monday0900, 1⟩, ⟨monday0930, 1⟩],
          afterReads (quietEnv monday0800) demoStore 1 0) ∧
      monday0900 % 60000 = 0 ∧ localMs (quietEnv monday0800) monday0900 % 60000 = 0 ∧
      timeKey monday0900 * 60000 = monday0900 :=
  ⟨by rfl,
    (generate_slots_on_minute 100 (quietEnv monday0800) demoStore
      (afterReads (quietEnv monday0800) demoStore 1 0) 1 30 0
      [⟨monday0900, 1⟩, ⟨monday0930, 1⟩] (by rfl)).1 ⟨monday0900, 1⟩ (by decide)⟩

/-- C29: an interview whose minute-key is the minute-key of no candidate slot (the candidates
being the slots returned for the store without interviews) changes nothing: the result with it
in the store is the result with it erased, even when its start lies inside the
`[start, start + duration)` interval of a candidate. -/
theorem generate_ignores_other_minutes (fuel : Nat) (env : Env) (st st0 : Store)
    (hrUserId : Nat) (d w : Int) (candidates : List Slot) (iv : InterviewRow)
    (hgen : generateAvailableSlots fuel env st.withoutInterviews hrUserId d w
      = (Outcome.ok candidates, st0))
    (hkey : ∀ t, iv.scheduled_at = some t →
      ∀ s ∈ candidates, timeKey t ≠ timeKey s.scheduled_at) :
    (generateAvailableSlots fuel env st hrUserId d w).1 =
      (generateAvailableSlots fuel env { st with interviews := st.interviews.erase iv }
        hrUserId d w).1 := by
  have hsame : ({ st with interviews := st.interviews.erase iv } : Store).withoutInterviews
      = st.withoutInterviews := rfl
  rw [generate_filter fuel env st, generate_filter fuel env { st with interviews := _ }, hsame,
    hgen]
  simp only [Outcome.map, Outcome.ok.injEq]
  apply List.filter_congr
  intro s hs
  simp only [notBlocked, decide_eq_decide]
  rw [not_iff_not, mem_blockedFor_iff, mem_blockedFor_iff]
  constructor
  · rintro ⟨iv2, hiv2, hhr, t, ht, h1, h2, h3⟩
    by_cases heq : iv2 = iv
    · subst heq
      exact absurd h3 (hkey t ht s hs)
    · exact ⟨iv2, (List.mem_erase_of_ne heq).2 hiv2, hhr, t, ht, h1, h2, h3⟩
  · rintro ⟨iv2, hiv2, hhr, t, ht, h1, h2, h3⟩
    exact ⟨iv2, List.mem_of_mem_erase hiv2, hhr, t, ht, h1, h2, h3⟩

theorem generate_ignores_other_minutes_witness :
    (generateAvailableSlots 100 (quietEnv monday0800) quarterPastStore 1 30 1).1 =
      (generateAvailableSlots 100 (quietEnv monday0800) demoStore 1 30 1).1 :=
  generate_ignores_other_minutes 100 (quietEnv monday0800) quarterPastStore
    (afterReads (quietEnv monday0800) quarterPastStore.withoutInterviews 1 1) 1 30 1
    [⟨monday0900, 1⟩, ⟨monday0930, 1⟩, ⟨nextMonday0900, 1⟩, ⟨nextMonday0930, 1⟩]
    { id := 1, applicant_id := 11, hr_user_id := 1, scheduled_at := some (monday0900 + 900000),
      reminder_sent := false }
    (by rfl) (by decide)

/-! ## Repeated applicant ids -/

/-- The row planned for a validating pair sits in `plannedRows`, with the id that counts the
validating pairs before it. -/
theorem plannedRows_at (env : Env) (applicants : List ApplicantRow) (hrUserId : Nat) :
    ∀ (pairs : List (Nat × Slot)) (nextId i : Nat) (hi : i < pairs.length),
      validApplicant env applicants hrUserId pairs[i].1 = true →
      ({ id := nextId + ((pairs.take i).filter
            (fun p => validApplicant env applicants hrUserId p.1)).length,
         applicant_id := pairs[i].1, hr_user_id := hrUserId,
         scheduled_at := some pairs[i].2.scheduled_at, reminder_sent := false } : InterviewRow)
        ∈ plannedRows env applicants hrUserId nextId pairs := by
  intro pairs
  induction pairs with
  | nil => intro nextId i hi; simp at hi
  | cons p rest ih =>
    intro nextId i hi hv
    rw [plannedRows_cons]
    cases i with
    | zero =>
      simp only [List.getElem_cons_zero] at hv
      simp [hv]
    | succ k =>
      simp only [List.length_cons] at hi
      simp only [List.getElem_cons_succ] at hv ⊢
      have hk : k < rest.length := by omega
      by_cases hp : validApplicant env applicants hrUserId p.1 = true
      · have := ih (nextId + 1) k hk hv
        simp only [hp, if_true, List.take_succ_cons, List.filter_cons, List.length_cons]
        apply List.mem_cons_of_mem
        have e : nextId + ((rest.take k).filter
            (fun p => validApplicant env applicants hrUserId p.1)).length.succ
            = nextId + 1 + ((rest.take k).filter
            (fun p => validApplicant env applicants hrUserId p.1)).length := by omega
        rw [e]
        exact this
      · have := ih nextId k hk hv
        simp only [hp, Bool.false_eq_true, if_false, List.take_succ_cons, List.filter_cons]
        exact this

theorem filter_take_lt {α : Type} (q : α → Bool) :
    ∀ (l : List α) (i j : Nat) (hi : i < l.length) (_ : j < l.length), i < j →
      q (l[i]) = true → ((l.take i).filter q).length < ((l.take j).filter q).length := by
  intro l
  induction l with
  | nil => intro i j hi; simp at hi
  | cons x xs ih =>
    intro i j hi hj hij hq
    obtain ⟨m, rfl⟩ : ∃ m, j = m + 1 := ⟨j - 1, by omega⟩
    simp only [List.length_cons] at hj
    cases i with
    | zero =>
      simp only [List.getElem_cons_zero] at hq
      simp [List.filter_cons, hq]
    | succ k =>
      simp only [List.getElem_cons_succ] at hq
      simp only [List.length_cons] at hi
      have := ih k m (by omega) (by omega) (by omega) hq
      by_cases hx : q x = true
      · simp only [List.take_succ_cons, List.filter_cons, hx, if_true, List.length_cons]
        omega
      · simp only [List.take_succ_cons, List.filter_cons, hx, Bool.false_eq_true, if_false]
        exact this

/-- C30: the ids are not deduplicated. When the id of an applicant the HR user owns stands at
the two positions `i < j` of the list, the capacity precheck compares the slot count with the
full length of the list (both occurrences counted), and with a slot for every position, the
lookup not failing and inserts succeeding, the call creates two different interviews for that
applicant: one with the `i`-th and one with the `j`-th candidate slot. Both are rows of the
returned list, and the `interviews` table after the call is the table before it followed by
the returned rows, so both are stored; neither was in the table before when the generated ids
are fresh. -/
theorem assign_duplicate_ids (fuel : Nat) (env : Env) (st st1 : Store) (hrUserId : Nat)
    (ids : List Nat) (slots : List Slot) (i j : Nat) (hij : i < j) (hj : j < ids.length)
    (hsame : ids[i] = ids[j])
    (hgen : generateAvailableSlots fuel env st hrUserId defaultSlotDurationMinutes
      defaultWeeksAhead = (Outcome.ok slots, st1)) :
    (slots.length < ids.length →
        (assignInterviewSlots fuel env st hrUserId (some ids)).1
          = Outcome.error (ServiceError.notEnoughSlots slots.length ids.length)) ∧
      (ids.length ≤ slots.length → env.applicantError ids[i] = false →
        (st.applicants.map (fun r => r.id)).Nodup →
        (∃ r ∈ st.applicants, r.id = ids[i] ∧ r.hr_user_id = hrUserId) →
        (∀ l row, env.insertError l row = false) →
        ∃ created st2,
          assignInterviewSlots fuel env st hrUserId (some ids) = (Outcome.ok created, st2) ∧
          st2.interviews = st.interviews ++ created ∧
          ∃ r1 ∈ created, ∃ r2 ∈ created, r1.id ≠ r2.id ∧
            r1.applicant_id = ids[i] ∧ r2.applicant_id = ids[i] ∧
            r1.hr_user_id = hrUserId ∧ r2.hr_user_id = hrUserId ∧
            r1.scheduled_at = (slots[i]?).map (fun slot => slot.scheduled_at) ∧
            r2.scheduled_at = (slots[j]?).map (fun slot => slot.scheduled_at) ∧
            r1.scheduled_at ≠ none ∧ r2.scheduled_at ≠ none ∧
            r1 ∈ st2.interviews ∧ r2 ∈ st2.interviews ∧
            ((∀ r ∈ st.interviews, r.id < st.next_id) →
              r1 ∉ st.interviews ∧ r2 ∉ st.interviews)) := by
  have hne : ids ≠ [] := by intro h; rw [h] at hj; simp at hj
  have hlen : ids.length ≠ 0 := by rw [Ne, List.length_eq_zero]; exact hne
  have hst1 := (generate_ok hgen).2.2.2.1
  constructor
  · intro hlt
    simp only [assignInterviewSlots, if_neg hlen, hgen, if_pos hlt]
  · intro hcap hlookup huniq hex hins
    have happ : st1.applicants = st.applicants := by rw [hst1]; rfl
    obtain ⟨st2, hloop, hstore⟩ :=
      @assignLoop_exact env hrUserId slots hins ids 0 [] st1 (by omega)
    simp only [List.nil_append, List.drop_zero] at hloop hstore
    have hints : st1.interviews = st.interviews := by rw [hst1]; rfl
    have hnext : st1.next_id = st.next_id := by rw [hst1]; rfl
    rw [hints] at hstore
    have hzlen : (ids.zip slots).length = ids.length := by rw [List.length_zip]; omega
    have hvalid : validApplicant env st1.applicants hrUserId ids[i] = true := by
      have h1 := applicantRows_length_one huniq hex
      simp only [validApplicant, hlookup, happ]
      simpa [applicantRows] using h1
    have hi2 : i < (ids.zip slots).length := by omega
    have hj2 : j < (ids.zip slots).length := by omega
    have hvi : validApplicant env st1.applicants hrUserId (ids.zip slots)[i].1 = true := by
      simpa [List.getElem_zip] using hvalid
    have hvj : validApplicant env st1.applicants hrUserId (ids.zip slots)[j].1 = true := by
      rw [hsame] at hvalid
      simpa [List.getElem_zip] using hvalid
    have hr1 := plannedRows_at env st1.applicants hrUserId (ids.zip slots) st1.next_id i hi2 hvi
    have hr2 := plannedRows_at env st1.applicants hrUserId (ids.zip slots) st1.next_id j hj2 hvj
    have hlt := filter_take_lt (fun p => validApplicant env st1.applicants hrUserId p.1)
      (ids.zip slots) i j hi2 hj2 hij hvi
    have hsi : slots[i]? = some slots[i] := List.getElem?_eq_getElem (by omega)
    have hsj : slots[j]? = some slots[j] := List.getElem?_eq_getElem (by omega)
    refine ⟨_, st2, assign_of_loop hne hgen hcap hloop, hstore, _, hr1, _, hr2, ?_, ?_, ?_,
      rfl, rfl, ?_, ?_, ?_, ?_, ?_, ?_, ?_⟩
    · simp only; omega
    · simp [List.getElem_zip]
    · simp [List.getElem_zip, hsame]
    · simp [List.getElem_zip, hsi]
    · simp [List.getElem_zip, hsj]
    · simp
    · simp
    · rw [hstore]; exact List.mem_append_right _ hr1
    · rw [hstore]; exact List.mem_append_right _ hr2
    · intro hfresh
      constructor
      · intro hmem
        have := hfresh _ hmem
        simp only [hnext] at this
        omega
      · intro hmem
        have := hfresh _ hmem
        simp only [hnext] at this
        omega

theorem assign_duplicate_ids_witness :
    ∃ created st2,
      assignInterviewSlots 100 (quietEnv monday0800) demoStore 1 (some [11, 12, 11])
        = (Outcome.ok created, st2) ∧
      st2.interviews = demoStore.interviews ++ created ∧
      ∃ r1 ∈ created, ∃ r2 ∈ created, r1.id ≠ r2.id ∧
        r1.applicant_id = 11 ∧ r2.applicant_id = 11 ∧
        r1.hr_user_id = 1 ∧ r2.hr_user_id = 1 ∧
        r1.scheduled_at = some monday0900 ∧ r2.scheduled_at = some nextMonday0900 ∧
        r1.scheduled_at ≠ none ∧ r2.scheduled_at ≠ none ∧
        r1 ∈ st2.interviews ∧ r2 ∈ st2.interviews ∧
        ((∀ r ∈ demoStore.interviews, r.id < demoStore.next_id) →
          r1 ∉ demoStore.interviews ∧ r2 ∉ demoStore.interviews) :=
  (assign_duplicate_ids 100 (quietEnv monday0800) demoStore
    (afterReads (quietEnv monday0800) demoStore 1 defaultWeeksAhead) 1 [11, 12, 11]
    ((List.range 5).flatMap (fun k =>
      [⟨monday0900 + k * 604800000, 1⟩, ⟨monday0930 + k * 604800000, 1⟩]))
    0 2 (by decide) (by decide) (by decide) (by rfl)).2 (by decide) rfl (by decide)
    (by decide) (fun _ _ => rfl)

/-! ## The order of the availability rows -/

theorem SameSlots.refl (a : Option (List Slot)) : SameSlots a a := by
  cases a with
  | none => exact True.intro
  | some x => exact List.Perm.refl x

theorem SameSlots.trans {a b c : Option (List Slot)} (h1 : SameSlots a b) (h2 : SameSlots b c) :
    SameSlots a c := by
  cases a with
  | none =>
    cases b with
    | none => exact h2
    | some y => exact False.elim h1
  | some x =>
    cases b with
    | none => exact False.elim h1
    | some y =>
      cases c with
      | none => exact False.elim h2
      | some z => exact List.Perm.trans h1 h2

theorem expandRules_perm {env : Env} {hrUserId : Nat} {blocked : List Int} {d : Int}
    {fuel : Nat} {c : Int} {rules1 rules2 : List AvailabilityRow} (h : rules1.Perm rules2) :
    SameSlots (expandRules env hrUserId blocked d fuel c rules1)
      (expandRules env hrUserId blocked d fuel c rules2) := by
  induction h with
  | nil => exact SameSlots.refl _
  | @cons x l1 l2 _ ih =>
    rw [expandRules, expandRules]
    cases expandRule env hrUserId blocked d fuel c x with
    | none => exact True.intro
    | some here =>
      cases h1 : expandRules env hrUserId blocked d fuel c l1 with
      | none =>
        cases h2 : expandRules env hrUserId blocked d fuel c l2 with
        | none => exact True.intro
        | some b => rw [h1, h2] at ih; exact False.elim ih
      | some a =>
        cases h2 : expandRules env hrUserId blocked d fuel c l2 with
        | none => rw [h1, h2] at ih; exact False.elim ih
        | some b =>
          rw [h1, h2] at ih
          exact List.Perm.append_left here ih
  | swap x y l =>
    rw [expandRules, expandRules, expandRules, expandRules]
    cases expandRule env hrUserId blocked d fuel c x with
    | none =>
      cases expandRule env hrUserId blocked d fuel c y with
      | none => exact True.intro
      | some hy =>
        cases expandRules env hrUserId blocked d fuel c l with
        | none => exact True.intro
        | some rest => exact True.intro
    | some hx =>
      cases expandRule env hrUserId blocked d fuel c y with
      | none => exact True.intro
      | some hy =>
        cases expandRules env hrUserId blocked d fuel c l with
        | none => exact True.intro
        | some rest => exact List.perm_append_comm_assoc _ _ _
  | trans _ _ ih1 ih2 => exact SameSlots.trans ih1 ih2

theorem dayLoop_perm {env : Env} {hrUserId : Nat} {blocked : List Int} {d : Int}
    {availability1 availability2 : List AvailabilityRow} {endDate : Int}
    (h : availability1.Perm availability2) :
    ∀ (fuel : Nat) (c0 : Int),
      SameSlots (dayLoop env hrUserId blocked d availability1 endDate fuel c0)
        (dayLoop env hrUserId blocked d availability2 endDate fuel c0) := by
  intro fuel
  induction fuel with
  | zero => intro c0; exact True.intro
  | succ n ih =>
    intro c0
    rw [dayLoop, dayLoop]
    by_cases hle : c0 ≤ endDate
    · simp only [if_pos hle]
      have hday := @expandRules_perm env hrUserId blocked d (n + 1) c0 _ _
        (List.Perm.filter (fun avail => avail.day_of_week == getDay env c0) h)
      have hrest := ih (addDays c0 1)
      cases h1 : expandRules env hrUserId blocked d (n + 1) c0
          (availability1.filter (fun avail => avail.day_of_week == getDay env c0)) with
      | none =>
        cases h2 : expandRules env hrUserId blocked d (n + 1) c0
            (availability2.filter (fun avail => avail.day_of_week == getDay env c0)) with
        | none => exact True.intro
        | some b => rw [h1, h2] at hday; exact False.elim hday
      | some a =>
        cases h2 : expandRules env hrUserId blocked d (n + 1) c0
            (availability2.filter (fun avail => avail.day_of_week == getDay env c0)) with
        | none => rw [h1, h2] at hday; exact False.elim hday
        | some b =>
          rw [h1, h2] at hday
          cases h3 : dayLoop env hrUserId blocked d availability1 endDate n (addDays c0 1) with
          | none =>
            cases h4 : dayLoop env hrUserId blocked d availability2 endDate n
                (addDays c0 1) with
            | none => exact True.intro
            | some y => rw [h3, h4] at hrest; exact False.elim hrest
          | some x =>
            cases h4 : dayLoop env hrUserId blocked d availability2 endDate n
                (addDays c0 1) with
            | none => rw [h3, h4] at hrest; exact False.elim hrest
            | some y =>
              rw [h3, h4] at hrest
              exact List.Perm.append hday hrest
    · simp only [if_neg hle]
      exact List.Perm.refl _

/-- Sorting two permutations of slots of one HR user gives the same list. -/
theorem sortSlots_perm {hrUserId : Nat} {l1 l2 : List Slot} (h : l1.Perm l2)
    (hhr : ∀ s ∈ l1, s.hr_user_id = hrUserId) : sortSlots l1 = sortSlots l2 := by
  have hp1 : (sortSlots l1).Perm l1 := List.perm_insertionSort slotOrder l1
  have hp2 : (sortSlots l2).Perm l2 := List.perm_insertionSort slotOrder l2
  have hmap : (sortSlots l1).map (fun s => s.scheduled_at)
      = (sortSlots l2).map (fun s => s.scheduled_at) := by
    apply @List.eq_of_perm_of_sorted Int (fun a b : Int => a ≤ b)
    · exact ((hp1.trans h).trans hp2.symm).map _
    · exact List.pairwise_map.2 (sortSlots_sorted l1)
    · exact List.pairwise_map.2 (sortSlots_sorted l2)
  have hback : ∀ l : List Slot, (∀ s ∈ l, s.hr_user_id = hrUserId) →
      l = (l.map (fun s => s.scheduled_at)).map
        (fun t => ({ scheduled_at := t, hr_user_id := hrUserId } : Slot)) := by
    intro l hl
    induction l with
    | nil => rfl
    | cons s rest ih =>
      have hs := hl s (List.mem_cons_self _ _)
      simp only [List.map_cons, List.cons.injEq]
      refine ⟨?_, ih (fun x hx => hl x (List.mem_cons_of_mem _ hx))⟩
      cases s
      simp only at hs
      rw [hs]
  rw [hback (sortSlots l1) (fun s hs => hhr s (hp1.mem_iff.1 hs)),
    hback (sortSlots l2) (fun s hs => hhr s (h.mem_iff.2 (hp2.mem_iff.1 hs))), hmap]

/-- C27: two stores whose availability rows are permutations of each other, with the same
interviews, give the same answer for the same `now`, fuel and parameters: the same error, or
the same slot sequence, element by element. -/
theorem generate_order_independent (fuel : Nat) (env : Env) (st1 st2 : Store)
    (hrUserId : Nat) (d w : Int) (hperm : st1.hr_availability.Perm st2.hr_availability)
    (hint : st1.interviews = st2.interviews) :
    (generateAvailableSlots fuel env st1 hrUserId d w).1
      = (generateAvailableSlots fuel env st2 hrUserId d w).1 := by
  have hrules : (rulesFor st1 hrUserId).Perm (rulesFor st2 hrUserId) :=
    (List.perm_insertionSort availabilityOrder _).trans
      ((hperm.filter _).trans (List.perm_insertionSort availabilityOrder _).symm)
  have hblocked : blockedFor env st1 hrUserId w = blockedFor env st2 hrUserId w := by
    simp only [blockedFor, hint]
  cases ha : env.availabilityError with
  | some msg => simp [generateAvailableSlots, getHRAvailability, ha]
  | none =>
    by_cases hne : rulesFor st1 hrUserId = []
    · have hne2 : rulesFor st2 hrUserId = [] := by
        rw [hne] at hrules
        exact List.Perm.eq_nil hrules.symm
      rw [generate_no_rules fuel env st1 hrUserId d w ha hne,
        generate_no_rules fuel env st2 hrUserId d w ha hne2]
    · have hne2 : rulesFor st2 hrUserId ≠ [] := by
        intro h
        rw [h] at hrules
        exact hne (List.Perm.eq_nil hrules)
      cases hi : env.interviewsError with
      | some msg =>
        have hlen1 : (rulesFor st1 hrUserId).length ≠ 0 := by
          rw [Ne, List.length_eq_zero]; exact hne
        have hlen2 : (rulesFor st2 hrUserId).length ≠ 0 := by
          rw [Ne, List.length_eq_zero]; exact hne2
        simp only [rulesFor] at hlen1 hlen2
        simp only [generateAvailableSlots, getHRAvailability, getExistingInterviews, ha, hi]
        rw [if_neg hlen1, if_neg hlen2]
      | none =>
        rw [generate_eq fuel env st1 hrUserId d w ha hi hne,
          generate_eq fuel env st2 hrUserId d w ha hi hne2, hblocked]
        have hloop := @dayLoop_perm env hrUserId (blockedFor env st2 hrUserId w) d _ _
          (horizonEnd env w) hrules fuel env.now
        cases h1 : dayLoop env hrUserId (blockedFor env st2 hrUserId w) d
            (rulesFor st1 hrUserId) (horizonEnd env w) fuel env.now with
        | none =>
          cases h2 : dayLoop env hrUserId (blockedFor env st2 hrUserId w) d
              (rulesFor st2 hrUserId) (horizonEnd env w) fuel env.now with
          | none => rfl
          | some b => rw [h1, h2] at hloop; exact False.elim hloop
        | some a =>
          cases h2 : dayLoop env hrUserId (blockedFor env st2 hrUserId w) d
              (rulesFor st2 hrUserId) (horizonEnd env w) fuel env.now with
          | none => rw [h1, h2] at hloop; exact False.elim hloop
          | some b =>
            rw [h1, h2] at hloop
            have hhr : ∀ s ∈ a, s.hr_user_id = hrUserId := by
              intro s hs
              obtain ⟨_, _, _, _, _, hf⟩ := dayLoop_mem _ _ _ h1 s hs
              exact hf.2.2.2.2.2
            simp only
            rw [sortSlots_perm hloop hhr]

theorem generate_order_independent_witness :
    (generateAvailableSlots 100 (quietEnv monday0800) twoRulesStore 1 30 0).1
      = (generateAvailableSlots 100 (quietEnv monday0800) twoRulesSwappedStore 1 30 0).1 :=
  generate_order_independent 100 (quietEnv monday0800) twoRulesStore twoRulesSwappedStore
    1 30 0 (List.Perm.swap _ _ _) rfl

/-! ## Repeated rules -/

theorem expandRule_mono {env : Env} {hrUserId : Nat} {blocked : List Int} {d : Int}
    {fuel fuel2 : Nat} {c : Int} {r : AvailabilityRow} {out : List Slot} (hle : fuel ≤ fuel2)
    (h : expandRule env hrUserId blocked d fuel c r = some out) :
    expandRule env hrUserId blocked d fuel2 c r = some out := by
  unfold expandRule at h ⊢
  by_cases hskip : setHours env c r.start_time.hours r.start_time.minutes < env.now
  · simp only [if_pos hskip] at h ⊢; exact h
  · simp only [if_neg hskip] at h ⊢
    exact slotWalk_mono _ _ _ _ hle h

/-- The rule loop keeps every copy: a rule listed `n` times contributes its expansion `n`
times. -/
theorem expandRules_count {env : Env} {hrUserId : Nat} {blocked : List Int} {d : Int}
    {fuel : Nat} {c : Int} (r : AvailabilityRow) :
    ∀ (rules : List AvailabilityRow) (out : List Slot),
      expandRules env hrUserId blocked d fuel c rules = some out → r ∈ rules →
      ∃ o, expandRule env hrUserId blocked d fuel c r = some o ∧
        ∀ s, rules.count r * o.count s ≤ out.count s := by
  intro rules
  induction rules with
  | nil => intro out _ hr; simp at hr
  | cons x rest ih =>
    intro out h hr
    rw [expandRules] at h
    cases h1 : expandRule env hrUserId blocked d fuel c x with
    | none => rw [h1] at h; simp at h
    | some here =>
      rw [h1] at h
      cases h2 : expandRules env hrUserId blocked d fuel c rest with
      | none => rw [h2] at h; simp at h
      | some later =>
        rw [h2] at h
        simp only [Option.some.injEq] at h
        subst h
        by_cases hx : x = r
        · subst hx
          refine ⟨here, h1, fun s => ?_⟩
          rw [List.count_cons_self, List.count_append, Nat.add_mul, Nat.one_mul, Nat.add_comm]
          apply Nat.add_le_add_left
          by_cases hmem : x ∈ rest
          · obtain ⟨o, ho, hcount⟩ := ih later h2 hmem
            rw [h1] at ho
            simp only [Option.some.injEq] at ho
            subst ho
            exact hcount s
          · rw [List.count_eq_zero_of_not_mem hmem]; omega
        · have hmem : r ∈ rest := by
            rcases List.mem_cons.1 hr with h | h
            · exact absurd h.symm hx
            · exact h
          obtain ⟨o, ho, hcount⟩ := ih later h2 hmem
          refine ⟨o, ho, fun s => ?_⟩
          rw [List.count_cons_of_ne (fun h => hx h.symm), List.count_append]
          exact le_trans (hcount s) (Nat.le_add_left _ _)

/-- The day loop keeps the slots of every iterated day. -/
theorem dayLoop_count {env : Env} {hrUserId : Nat} {blocked : List Int} {d : Int}
    {availability : List AvailabilityRow} {endDate : Int} :
    ∀ (fuel : Nat) (c0 : Int) (out : List Slot),
      dayLoop env hrUserId blocked d availability endDate fuel c0 = some out →
      ∀ k : Nat, c0 + (k : Int) * 86400000 ≤ endDate →
        ∃ today, expandRules env hrUserId blocked d fuel (c0 + (k : Int) * 86400000)
            (availability.filter
              (fun avail => avail.day_of_week == getDay env (c0 + (k : Int) * 86400000)))
            = some today ∧
          ∀ s, today.count s ≤ out.count s := by
  intro fuel
  induction fuel with
  | zero => intro c0 out h; simp [dayLoop] at h
  | succ n ih =>
    intro c0 out h k hk
    rw [dayLoop] at h
    have hle : c0 ≤ endDate := by omega
    simp only [if_pos hle] at h
    cases h1 : expandRules env hrUserId blocked d (n + 1) c0
        (availability.filter (fun avail => avail.day_of_week == getDay env c0)) with
    | none => rw [h1] at h; simp at h
    | some today =>
      rw [h1] at h
      cases h2 : dayLoop env hrUserId blocked d availability endDate n (addDays c0 1) with
      | none => rw [h2] at h; simp at h
      | some later =>
        rw [h2] at h
        simp only [Option.some.injEq] at h
        subst h
        cases k with
        | zero =>
          simp only [Nat.cast_zero, zero_mul, add_zero]
          exact ⟨today, h1, fun s => by rw [List.count_append]; omega⟩
        | succ m =>
          have hc : c0 + ((m + 1 : Nat) : Int) * 86400000
              = addDays c0 1 + (m : Int) * 86400000 := by
            simp only [addDays]; push_cast; ring
          rw [hc] at hk ⊢
          obtain ⟨t2, ht2, hcount⟩ := ih (addDays c0 1) later h2 m hk
          exact ⟨t2, expandRules_mono (Nat.le_succ n) _ _ ht2,
            fun s => by rw [List.count_append]; exact le_trans (hcount s) (Nat.le_add_left _ _)⟩

theorem mul_length_le_of_count {α : Type} [DecidableEq α] (n : Nat) (o out : List α)
    (h : ∀ s, n * o.count s ≤ out.count s) : n * o.length ≤ out.length := by
  have hle : n • (o : Multiset α) ≤ (out : Multiset α) :=
    Multiset.le_iff_count.2 (fun a => by
      rw [Multiset.count_nsmul, Multiset.coe_count, Multiset.coe_count]; exact h a)
  have hc := Multiset.card_le_card hle
  rw [Multiset.card_nsmul] at hc
  simpa using hc

theorem rulesFor_count {st : Store} {hrUserId : Nat} {r : AvailabilityRow}
    (hr : r.hr_user_id = hrUserId) :
    (rulesFor st hrUserId).count r = st.hr_availability.count r := by
  unfold rulesFor
  rw [(List.perm_insertionSort availabilityOrder _).count_eq r]
  exact List.count_filter (by simp [hr])

/-- C24: a successful `generateAvailableSlots` returns the sorted output of the day loop, which
is the concatenation of the per-day, per-rule expansions, with the multiplicity of every slot
unchanged. So when the store holds a rule of the HR user twice, on every iterated day of that
weekday every slot the rule generates occurs at least twice in the returned sequence, and the
returned length counts the slots of the rule twice; that length is the number the capacity
precheck of `assignInterviewSlots` compares with the number of applicant ids. -/
theorem generate_keeps_duplicates (fuel : Nat) (env : Env) (st st1 : Store) (hrUserId : Nat)
    (d w : Int) (slots : List Slot)
    (hgen : generateAvailableSlots fuel env st hrUserId d w = (Outcome.ok slots, st1)) :
    (∃ raw, dayLoop env hrUserId (blockedFor env st hrUserId w) d (rulesFor st hrUserId)
          (horizonEnd env w) fuel env.now = some raw ∧
        slots = sortSlots raw ∧ slots.length = raw.length ∧
        ∀ s, slots.count s = raw.count s) ∧
      (∀ r : AvailabilityRow, r.hr_user_id = hrUserId → 2 ≤ st.hr_availability.count r →
        ∀ k : Nat, env.now + (k : Int) * 86400000 ≤ horizonEnd env w →
          r.day_of_week = getDay env (env.now + (k : Int) * 86400000) →
          ∃ o, expandRule env hrUserId (blockedFor env st hrUserId w) d fuel
                (env.now + (k : Int) * 86400000) r = some o ∧
            (∀ s ∈ o, 2 ≤ slots.count s) ∧ 2 * o.length ≤ slots.length) ∧
      (d = defaultSlotDurationMinutes → w = defaultWeeksAhead →
        ∀ ids : List Nat, ids ≠ [] →
          (assignInterviewSlots fuel env st hrUserId (some ids) =
              (Outcome.error (ServiceError.notEnoughSlots slots.length ids.length), st1)
            ↔ slots.length < ids.length)) := by
  obtain ⟨_, _, _, _, raw, hraw, hs⟩ := generate_ok hgen
  have hperm : slots.Perm raw := by rw [hs]; exact List.perm_insertionSort _ _
  refine ⟨⟨raw, hraw, hs, hperm.length_eq, fun s => hperm.count_eq s⟩, ?_, ?_⟩
  · intro r hr hcount k hk hday
    obtain ⟨today, htoday, hcnt⟩ := dayLoop_count fuel env.now raw hraw k hk
    have hfc : ((rulesFor st hrUserId).filter (fun avail =>
        avail.day_of_week == getDay env (env.now + (k : Int) * 86400000))).count r
          = st.hr_availability.count r := by
      rw [List.count_filter (by simp [hday]), rulesFor_count hr]
    have hmem : r ∈ (rulesFor st hrUserId).filter (fun avail =>
        avail.day_of_week == getDay env (env.now + (k : Int) * 86400000)) := by
      rw [← List.count_pos_iff, hfc]; omega
    obtain ⟨o, ho, hoc⟩ := expandRules_count r _ today htoday hmem
    rw [hfc] at hoc
    have htwice : ∀ s, 2 * o.count s ≤ slots.count s := fun s =>
      calc 2 * o.count s ≤ st.hr_availability.count r * o.count s :=
            Nat.mul_le_mul_right _ hcount
        _ ≤ today.count s := hoc s
        _ ≤ raw.count s := hcnt s
        _ = slots.count s := (hperm.count_eq s).symm
    refine ⟨o, ho, fun s hs => ?_, mul_length_le_of_count 2 o slots htwice⟩
    have h1 : 1 ≤ o.count s := List.one_le_count_iff.2 hs
    have h2 := htwice s
    omega
  · intro hd hw ids hne
    subst hd hw
    have hlen : ids.length ≠ 0 := by rw [Ne, List.length_eq_zero]; exact hne
    by_cases hlt : slots.length < ids.length
    · refine ⟨fun _ => hlt, fun _ => ?_⟩
      simp only [assignInterviewSlots, if_neg hlen, hgen, if_pos hlt]
    · refine ⟨fun h => ?_, fun h => absurd h hlt⟩
      simp only [assignInterviewSlots, if_neg hlen, hgen, if_neg hlt] at h
      rcases hloop : assignLoop env hrUserId slots 0 ids [] st1 with ⟨e | created, st2⟩
      · have he := assignLoop_error ids 0 [] st1 st2 e hloop
        subst he
        rw [hloop] at h
        simp at h
      · rw [hloop] at h
        simp at h

theorem generate_keeps_duplicates_witness :
    generateAvailableSlots 100 (quietEnv monday0800) repeatedRuleStore 1 30 0 =
        (Outcome.ok [⟨monday0900, 1⟩, ⟨monday0900, 1⟩, ⟨monday0930, 1⟩, ⟨monday0930, 1⟩],
          afterReads (quietEnv monday0800) repeatedRuleStore 1 0) ∧
      ∃ o, expandRule (quietEnv monday0800) 1 (blockedFor (quietEnv monday0800)
            repeatedRuleStore 1 0) 30 100 ((quietEnv monday0800).now + ((0 : Nat) : Int) * 86400000)
            { hr_user_id := 1, day_of_week := 1, start_time := ⟨9, 0⟩, end_time := ⟨10, 0⟩ }
              = some o ∧
        (∀ s ∈ o, 2 ≤ ([⟨monday0900, 1⟩, ⟨monday0900, 1⟩, ⟨monday0930, 1⟩,
            ⟨monday0930, 1⟩] : List Slot).count s) ∧
        2 * o.length ≤ ([⟨monday0900, 1⟩, ⟨monday0900, 1⟩, ⟨monday0930, 1⟩,
            ⟨monday0930, 1⟩] : List Slot).length :=
  ⟨by rfl,
    (generate_keeps_duplicates 100 (quietEnv monday0800) repeatedRuleStore
      (afterReads (quietEnv monday0800) repeatedRuleStore 1 0) 1 30 0
      [⟨monday0900, 1⟩, ⟨monday0900, 1⟩, ⟨monday0930, 1⟩, ⟨monday0930, 1⟩] (by rfl)).2.1
      { hr_user_id := 1, day_of_week := 1, start_time := ⟨9, 0⟩, end_time := ⟨10, 0⟩ }
      rfl (by decide) 0 (by decide) (by decide)⟩

/-! ## Counting the iterated days -/

theorem expandRule_length {env : Env} {hrUserId : Nat} {d : Int} (hd : 0 < d) {fuel : Nat}
    {c : Int} {r : AvailabilityRow} {o : List Slot}
    (h : expandRule env hrUserId [] d fuel c r = some o) :
    o.length = if ruleStart env c r < env.now then 0 else windowCapacity r d := by
  unfold expandRule at h
  unfold ruleStart
  by_cases hskip : setHours env c r.start_time.hours r.start_time.minutes < env.now
  · simp only [if_pos hskip, Option.some.injEq] at h ⊢
    rw [← h]; rfl
  · simp only [if_neg hskip] at h ⊢
    have hq : (setHours env c r.end_time.hours r.end_time.minutes
          - setHours env c r.start_time.hours r.start_time.minutes) / (d * 60000) =
        (((r.end_time.hours : Int) * 60 + r.end_time.minutes)
          - ((r.start_time.hours : Int) * 60 + r.start_time.minutes)) / d := by
      have h0 : setHours env c r.end_time.hours r.end_time.minutes
            - setHours env c r.start_time.hours r.start_time.minutes =
          60000 * (((r.end_time.hours : Int) * 60 + r.end_time.minutes)
            - ((r.start_time.hours : Int) * 60 + r.start_time.minutes)) := by
        simp only [setHours]; ring
      rw [h0, mul_comm d 60000]
      exact Int.mul_ediv_mul_of_pos _ _ (by decide)
    have h2 := @slotWalk_unblocked hrUserId d
      (setHours env c r.end_time.hours r.end_time.minutes) hd
      (max fuel (((setHours env c r.end_time.hours r.end_time.minutes
          - setHours env c r.start_time.hours r.start_time.minutes) / (d * 60000)).toNat + 1))
      (setHours env c r.start_time.hours r.start_time.minutes)
      (lt_of_lt_of_le (Nat.lt_succ_self _) (le_max_right _ _))
    have h3 := slotWalk_mono fuel
      (max fuel (((setHours env c r.end_time.hours r.end_time.minutes
          - setHours env c r.start_time.hours r.start_time.minutes) / (d * 60000)).toNat + 1))
      _ _ (le_max_left _ _) h
    rw [h2] at h3
    simp only [Option.some.injEq] at h3
    rw [← h3, List.length_map, List.length_range, hq]
    rfl

theorem ruleStart_next_day (env : Env) (c : Int) (r : AvailabilityRow) :
    ruleStart env (addDays c 1) r = ruleStart env c r + 86400000 ∧
      c < ruleStart env (addDays c 1) r := by
  simp only [ruleStart, setHours, addDays, localMs]
  omega

theorem getDay_next_day (env : Env) (c : Int) :
    getDay env (addDays c 1) = (getDay env c + 1) % 7 ∧ 0 ≤ getDay env c ∧ getDay env c ≤ 6 := by
  simp only [getDay, addDays, localMs]
  omega

theorem matchingDays_add (env : Env) (dayOfWeek : Int) (b : Nat) :
    ∀ (a : Nat) (c : Int),
      matchingDays env dayOfWeek (a + b) c =
        matchingDays env dayOfWeek a c + matchingDays env dayOfWeek b (addDays c a) := by
  intro a
  induction a with
  | zero => intro c; simp [matchingDays, addDays]
  | succ n ih =>
    intro c
    have hc : addDays c ((n + 1 : Nat) : Int) = addDays (addDays c 1) n := by
      simp only [addDays]; push_cast; ring
    rw [Nat.add_right_comm, matchingDays, matchingDays, ih, hc, Nat.add_assoc]

theorem matchingDays_week (env : Env) (dayOfWeek : Int) (h0 : 0 ≤ dayOfWeek)
    (h6 : dayOfWeek ≤ 6) (c : Int) : matchingDays env dayOfWeek 7 c = 1 := by
  have g0 := getDay_next_day env c
  have g1 := getDay_next_day env (addDays c 1)
  have g2 := getDay_next_day env (addDays (addDays c 1) 1)
  have g3 := getDay_next_day env (addDays (addDays (addDays c 1) 1) 1)
  have g4 := getDay_next_day env (addDays (addDays (addDays (addDays c 1) 1) 1) 1)
  have g5 := getDay_next_day env (addDays (addDays (addDays (addDays (addDays c 1) 1) 1) 1) 1)
  simp only [matchingDays]
  split_ifs <;> omega

theorem matchingDays_weeks (env : Env) (dayOfWeek : Int) (h0 : 0 ≤ dayOfWeek)
    (h6 : dayOfWeek ≤ 6) :
    ∀ (w : Nat) (c : Int), matchingDays env dayOfWeek (7 * w) c = w := by
  intro w
  induction w with
  | zero => intro c; rfl
  | succ n ih =>
    intro c
    have h : 7 * (n + 1) = 7 + 7 * n := by ring
    rw [h, matchingDays_add, matchingDays_week env dayOfWeek h0 h6, ih]
    omega

/-- The day loop over `n` days with a single rule that is never skipped: every day of the
weekday of the rule contributes the capacity of its window. -/
theorem dayLoop_single_length {env : Env} {hrUserId : Nat} {d : Int} (hd : 0 < d)
    {r : AvailabilityRow} {endDate : Int} :
    ∀ (n fuel : Nat) (c0 : Int) (out : List Slot),
      endDate + 86400000 = c0 + (n : Int) * 86400000 →
      env.now ≤ ruleStart env c0 r →
      dayLoop env hrUserId [] d [r] endDate fuel c0 = some out →
      out.length = windowCapacity r d * matchingDays env r.day_of_week n c0 := by
  intro n
  induction n with
  | zero =>
    intro fuel c0 out hend _ h
    have hgt : ¬ c0 ≤ endDate := by push_cast at hend; omega
    cases fuel with
    | zero => simp [dayLoop] at h
    | succ f =>
      rw [dayLoop, if_neg hgt] at h
      simp only [Option.some.injEq] at h
      rw [← h]; simp [matchingDays]
  | succ m ih =>
    intro fuel c0 out hend hnow h
    have hle : c0 ≤ endDate := by push_cast at hend; omega
    cases fuel with
    | zero => simp [dayLoop] at h
    | succ f =>
      rw [dayLoop] at h
      simp only [if_pos hle] at h
      have hnext := ruleStart_next_day env c0 r
      have hend2 : endDate + 86400000 = addDays c0 1 + (m : Int) * 86400000 := by
        simp only [addDays]; push_cast at hend; omega
      have hnow2 : env.now ≤ ruleStart env (addDays c0 1) r := by omega
      cases h1 : expandRules env hrUserId [] d (f + 1) c0
          ([r].filter (fun avail => avail.day_of_week == getDay env c0)) with
      | none => rw [h1] at h; simp at h
      | some today =>
        rw [h1] at h
        cases h2 : dayLoop env hrUserId [] d [r] endDate f (addDays c0 1) with
        | none => rw [h2] at h; simp at h
        | some later =>
          rw [h2] at h
          simp only [Option.some.injEq] at h
          have hlater := ih f (addDays c0 1) later hend2 hnow2 h2
          rw [← h, List.length_append, hlater, matchingDays, Nat.mul_add]
          congr 1
          by_cases hm : r.day_of_week = getDay env c0
          · have hf : [r].filter (fun avail => avail.day_of_week == getDay env c0) = [r] := by
              simp [hm]
            rw [hf, expandRules] at h1
            cases h3 : expandRule env hrUserId [] d (f + 1) c0 r with
            | none => rw [h3] at h1; simp at h1
            | some o =>
              rw [h3] at h1
              simp only [expandRules, List.append_nil, Option.some.injEq] at h1
              have hlen := expandRule_length hd h3
              have hskip : ¬ ruleStart env c0 r < env.now := by omega
              rw [if_neg hskip] at hlen
              rw [← h1, hlen, if_pos hm.symm, Nat.mul_one]
          · have hf : [r].filter (fun avail => avail.day_of_week == getDay env c0) = [] := by
              simp [hm]
            rw [hf, expandRules] at h1
            simp only [Option.some.injEq] at h1
            rw [← h1, if_neg (fun h => hm h.symm)]
            rfl

/-- The whole day loop of `generateAvailableSlots` with a single rule and no blocked minute:
today counts when it is the weekday of the rule and the rule has not started, and each of
the `w` following weeks counts once. -/
theorem dayLoop_single_total {env : Env} {hrUserId : Nat} {d : Int} (hd : 0 < d)
    {r : AvailabilityRow} (h0 : 0 ≤ r.day_of_week) (h6 : r.day_of_week ≤ 6) (w : Nat)
    {fuel : Nat} {raw : List Slot}
    (h : dayLoop env hrUserId [] d [r] (horizonEnd env w) fuel env.now = some raw) :
    raw.length = windowCapacity r d *
      (if r.day_of_week = getDay env env.now ∧ env.now ≤ ruleStart env env.now r then w + 1
       else w) := by
  have hle : env.now ≤ horizonEnd env w := by
    simp only [horizonEnd, addDays]
    have : (0 : Int) ≤ w := Int.ofNat_nonneg w
    omega
  cases fuel with
  | zero => simp [dayLoop] at h
  | succ f =>
    rw [dayLoop] at h
    simp only [if_pos hle] at h
    have hnext := ruleStart_next_day env env.now r
    have hend2 : horizonEnd env w + 86400000
        = addDays env.now 1 + ((7 * w : Nat) : Int) * 86400000 := by
      simp only [horizonEnd, addDays]; push_cast; ring
    cases h1 : expandRules env hrUserId [] d (f + 1) env.now
        ([r].filter (fun avail => avail.day_of_week == getDay env env.now)) with
    | none => rw [h1] at h; simp at h
    | some today =>
      rw [h1] at h
      cases h2 : dayLoop env hrUserId [] d [r] (horizonEnd env w) f (addDays env.now 1) with
      | none => rw [h2] at h; simp at h
      | some later =>
        rw [h2] at h
        simp only [Option.some.injEq] at h
        have hlater := dayLoop_single_length hd (7 * w) f (addDays env.now 1) later hend2
          (by omega) h2
        rw [matchingDays_weeks env r.day_of_week h0 h6] at hlater
        rw [← h, List.length_append, hlater]
        by_cases hm : r.day_of_week = getDay env env.now
        · have hf : [r].filter (fun avail => avail.day_of_week == getDay env env.now) = [r] := by
            simp [hm]
          rw [hf, expandRules] at h1
          cases h3 : expandRule env hrUserId [] d (f + 1) env.now r with
          | none => rw [h3] at h1; simp at h1
          | some o =>
            rw [h3] at h1
            simp only [expandRules, List.append_nil, Option.some.injEq] at h1
            have hlen := expandRule_length hd h3
            rw [← h1, hlen]
            by_cases hskip : ruleStart env env.now r < env.now
            · have hn : ¬ (r.day_of_week = getDay env env.now ∧
                  env.now ≤ ruleStart env env.now r) := fun hc => by omega
              rw [if_pos hskip, if_neg hn]; omega
            · have hy : r.day_of_week = getDay env env.now ∧
                  env.now ≤ ruleStart env env.now r := ⟨hm, by omega⟩
              rw [if_neg hskip, if_pos hy, Nat.mul_add, Nat.mul_one, Nat.add_comm]
        · have hf : [r].filter (fun avail => avail.day_of_week == getDay env env.now) = [] := by
            simp [hm]
          rw [hf, expandRules] at h1
          simp only [Option.some.injEq] at h1
          have hn : ¬ (r.day_of_week = getDay env env.now ∧
              env.now ≤ ruleStart env env.now r) := fun hc => hm hc.1
          rw [← h1, if_neg hn]
          simp

/-- The day loop visits the `n` days from `currentDate` to `endDate`, one expansion each. -/
theorem dayLoop_days {env : Env} {hrUserId : Nat} {blocked : List Int} {d : Int}
    {availability : List AvailabilityRow} {endDate : Int} :
    ∀ (n fuel : Nat) (c0 : Int) (out : List Slot),
      endDate + 86400000 = c0 + (n : Int) * 86400000 →
      dayLoop env hrUserId blocked d availability endDate fuel c0 = some out →
      ∃ days : List (List Slot), days.length = n ∧ out = days.flatten ∧
        ∀ i : Nat, i < n →
          expandRules env hrUserId blocked d fuel (addDays c0 i)
            (availability.filter (fun avail => avail.day_of_week == getDay env (addDays c0 i)))
            = days[i]? := by
  intro n
  induction n with
  | zero =>
    intro fuel c0 out hend h
    have hgt : ¬ c0 ≤ endDate := by push_cast at hend; omega
    cases fuel with
    | zero => simp [dayLoop] at h
    | succ f =>
      rw [dayLoop, if_neg hgt] at h
      simp only [Option.some.injEq] at h
      exact ⟨[], rfl, by rw [← h]; rfl, fun i hi => by omega⟩
  | succ m ih =>
    intro fuel c0 out hend h
    have hle : c0 ≤ endDate := by push_cast at hend; omega
    cases fuel with
    | zero => simp [dayLoop] at h
    | succ f =>
      rw [dayLoop] at h
      simp only [if_pos hle] at h
      have hend2 : endDate + 86400000 = addDays c0 1 + (m : Int) * 86400000 := by
        simp only [addDays]; push_cast at hend; omega
      cases h1 : expandRules env hrUserId blocked d (f + 1) c0
          (availability.filter (fun avail => avail.day_of_week == getDay env c0)) with
      | none => rw [h1] at h; simp at h
      | some today =>
        rw [h1] at h
        cases h2 : dayLoop env hrUserId blocked d availability endDate f (addDays c0 1) with
        | none => rw [h2] at h; simp at h
        | some later =>
          rw [h2] at h
          simp only [Option.some.injEq] at h
          obtain ⟨days, hlen, hflat, hdays⟩ := ih f (addDays c0 1) later hend2 h2
          refine ⟨today :: days, by simp [hlen], by rw [← h, hflat]; rfl, fun i hi => ?_⟩
          cases i with
          | zero =>
            have hc : addDays c0 ((0 : Nat) : Int) = c0 := by simp [addDays]
            rw [hc, h1, List.getElem?_cons_zero]
          | succ j =>
            have hc : addDays c0 ((j + 1 : Nat) : Int) = addDays (addDays c0 1) j := by
              simp only [addDays]; push_cast; ring
            have hj : j < days.length := by omega
            have hd := hdays j (by omega)
            rw [List.getElem?_eq_getElem hj] at hd
            rw [hc, List.getElem?_cons_succ, List.getElem?_eq_getElem hj]
            exact expandRules_mono (Nat.le_succ f) _ _ hd

/-- C23: with both reads succeeding, a rule present, a positive duration and a whole number
`w` of weeks, `generateAvailableSlots` returns (given enough fuel) and its day loop visits
exactly `w * 7 + 1` days, the consecutive local calendar days that start with today and end
with the day of `endDate`: the returned list is a reordering of the concatenation of one
expansion per visited day. When the rule set is a single rule on a weekday `W` (0 to 6) and no
interview minute is blocked, the number of returned slots is `k * (w + 1)` if `W` is the
weekday of today and the start instant of the rule today is not before `now`, and `k * w`
otherwise, where `k = floor((end - start) / d)`, counted in minutes, is `windowCapacity` (the
number of whole slots the window admits, 0 for an empty window). -/
theorem generate_visits_days (env : Env) (st : Store) (hrUserId : Nat) (d : Int) (w : Nat)
    (ha : env.availabilityError = none) (hi : env.interviewsError = none)
    (hne : rulesFor st hrUserId ≠ []) (hd : 0 < d) (fuel : Nat)
    (hfuel : enoughFuel st hrUserId w ≤ fuel) :
    ∃ (slots : List Slot) (days : List (List Slot)),
      generateAvailableSlots fuel env st hrUserId d w
        = (Outcome.ok slots, afterReads env st hrUserId w) ∧
      days.length = w * 7 + 1 ∧ slots.Perm days.flatten ∧
      (∀ i : Nat, i < w * 7 + 1 →
        expandRules env hrUserId (blockedFor env st hrUserId w) d fuel (addDays env.now i)
            ((rulesFor st hrUserId).filter
              (fun avail => avail.day_of_week == getDay env (addDays env.now i)))
          = days[i]? ∧
        localDay env (addDays env.now i) = localDay env env.now + i) ∧
      (∀ r : AvailabilityRow, rulesFor st hrUserId = [r] →
        blockedFor env st hrUserId w = [] → 0 ≤ r.day_of_week → r.day_of_week ≤ 6 →
        slots.length = windowCapacity r d *
          (if r.day_of_week = getDay env env.now ∧ env.now ≤ ruleStart env env.now r
           then w + 1 else w)) := by
  obtain ⟨slots, hgen⟩ := generate_total env st hrUserId d w ha hi hne hd fuel hfuel
  obtain ⟨_, _, _, _, raw, hraw, hs⟩ := generate_ok hgen
  have hend : horizonEnd env w + 86400000
      = env.now + ((w * 7 + 1 : Nat) : Int) * 86400000 := by
    simp only [horizonEnd, addDays]; push_cast; ring
  obtain ⟨days, hlen, hflat, hdays⟩ := dayLoop_days (w * 7 + 1) fuel env.now raw hend hraw
  have hperm : slots.Perm raw := by rw [hs]; exact List.perm_insertionSort _ _
  refine ⟨slots, days, hgen, hlen, by rw [← hflat]; exact hperm,
    fun i hi => ⟨hdays i hi, by simp only [localDay, localMs, addDays]; omega⟩,
    fun r hr hb h0 h6 => ?_⟩
  rw [hr, hb] at hraw
  rw [hperm.length_eq]
  exact dayLoop_single_total hd h0 h6 w hraw

theorem generate_visits_days_witness :
    ∃ slots : List Slot,
      generateAvailableSlots (enoughFuel demoStore 1 4) (quietEnv monday0800) demoStore 1 30 4
        = (Outcome.ok slots, afterReads (quietEnv monday0800) demoStore 1 4) ∧
      slots.length = 10 := by
  obtain ⟨slots, _, hgen, _, _, _, hcount⟩ :=
    generate_visits_days (quietEnv monday0800) demoStore 1 30 4 rfl rfl (by decide)
      (by decide) (enoughFuel demoStore 1 4) (le_refl _)
  exact ⟨slots, hgen, by
    rw [hcount { hr_user_id := 1, day_of_week := 1, start_time := ⟨9, 0⟩, end_time := ⟨10, 0⟩ }
      (by decide) (by decide) (by decide) (by decide)]
    decide⟩

end InterviewService
